import Mathlib

/-! A* grid search (`astar.cpp`): shallow embedding.

Modelling conventions.

* `Coords` is `std::pair<int32_t, int32_t>`; the components are modelled as `Int`.
  The only arithmetic on them that can leave the range of `int32_t` is the one of
  `calcHval`, which is reduced modulo `2 ^ 32` there (`wrap32`).  The properties of
  the search driver are stated for grids of at most `32768` rows and `32768`
  columns (`SizeOk`), on which no conversion between `size_t` and `int32_t`
  changes a value and `calcHval` does not wrap.
* `double` is IEEE 754 binary64.  The program only produces values that are not
  negative; the model has the finite ones (`fin k` is `k * 2 ^ (-1074)`, every
  finite non-negative double is of this form), `+∞` and `NaN`.  Addition and
  `std::sqrt` round to nearest, ties to even (`round53`, `dadd`, `sqrtInt`).
* `std::vector<std::vector<Tile>>` is a list of lists, `std::set` of
  `(priority, coordinate)` pairs is a strictly increasing list.
* Loops that are not bounded by their syntax (`while` in `main`, `for` in
  `writePath`) take a fuel argument and return `none` when it runs out.
-/

namespace Astar

/-- The `Coords` pair `(first, second)` = `(row, column)`. -/
abbrev Coords := Int × Int

/-! ## Binary64 arithmetic -/

/-- A `double` that is not negative: `fin k` is the number `k * 2 ^ (-1074)`. -/
inductive Dbl where
  | fin (k : Nat) : Dbl
  | inf : Dbl
  | nan : Dbl
deriving DecidableEq, Repr

/-- Binary search for the position of the leading bit: with `2 ^ acc ≤ k` and
`k < 2 ^ (acc + 2 ^ i)` the result `e` has `2 ^ e ≤ k < 2 ^ (e + 1)`. -/
def log2Aux (k : Nat) : Nat → Nat → Nat
  | 0, acc => acc
  | i + 1, acc =>
    if 2 ^ (acc + 2 ^ i) ≤ k then log2Aux k i (acc + 2 ^ i) else log2Aux k i acc

/-- Position of the leading bit of `k` (`0` for `k = 0`); equal to `Nat.log2 k`. -/
def ilog2 (k : Nat) : Nat :=
  if k < 2 ^ 4096 then log2Aux k 12 0 else Nat.log2 k

/-- Rounding of a natural number to 53 significant bits, to nearest, ties to even. -/
def round53 (k : Nat) : Nat :=
  if k < 2 ^ 53 then k
  else
    let s := ilog2 k - 52
    let q := k / 2 ^ s
    let r := k % 2 ^ s
    if 2 ^ (s - 1) < r ∨ (r = 2 ^ (s - 1) ∧ q % 2 = 1) then (q + 1) * 2 ^ s else q * 2 ^ s

/-- The double nearest to `k * 2 ^ (-1074)`; `+∞` when the rounded value is
`2 ^ 1024` or more. -/
def rnd (k : Nat) : Dbl :=
  if round53 k < 2 ^ 2098 then .fin (round53 k) else .inf

/-- Operator `+` of `double`. -/
def dadd : Dbl → Dbl → Dbl
  | .fin a, .fin b => rnd (a + b)
  | .nan, _ => .nan
  | _, .nan => .nan
  | _, _ => .inf

/-- Operator `<` of `double`; false when an operand is `NaN`. -/
def dlt : Dbl → Dbl → Bool
  | .fin a, .fin b => decide (a < b)
  | .fin _, .inf => true
  | _, _ => false

/-- Operator `==` of `double`; false when an operand is `NaN`. -/
def deq : Dbl → Dbl → Bool
  | .fin a, .fin b => decide (a = b)
  | .inf, .inf => true
  | _, _ => false

/-- The constant `DBL_MAX`, `(2 ^ 53 - 1) * 2 ^ 971`. -/
def dblMax : Dbl := .fin ((2 ^ 53 - 1) * 2 ^ 2045)

/-- The literal `0` converted to `double`. -/
def dZero : Dbl := .fin 0

/-- The literal `1.0`. -/
def dOne : Dbl := .fin (2 ^ 1074)

/-- The literal `1.4`: the double nearest to it, `6305039478318694 * 2 ^ (-52)`. -/
def d14 : Dbl := .fin (6305039478318694 * 2 ^ 1022)

/-- Newton iteration for the integer square root, from a guess that is not below it. -/
def isqrtIter (n : Nat) : Nat → Nat → Nat
  | 0, g => g
  | fuel + 1, g =>
    let next := (g + n / g) / 2
    if next < g then isqrtIter n fuel next else g

/-- Integer square root: the largest `r` with `r * r ≤ n`. -/
def isqrt (n : Nat) : Nat :=
  isqrtIter n (2 ^ (ilog2 n / 2 + 1)) (2 ^ (ilog2 n / 2 + 1))

/-- Function `std::sqrt` applied to an `int32_t` (converted to `double` without
rounding): `NaN` for a negative argument, else the double nearest to the square
root.  With `K` the integer part of `√n * 2 ^ 60`, the number `2 * K + 1` (or
`2 * K` when the root is exact) lies on the same side of every double and of every
midpoint of two doubles as `√n * 2 ^ 61`, so it rounds to the same double. -/
def sqrtInt (n : Int) : Dbl :=
  if n < 0 then .nan
  else
    let N := n.toNat * 2 ^ 120
    let K := isqrt N
    .fin (round53 (2 * K + (if K * K = N then 0 else 1)) * 2 ^ 1013)

/-- Reduction of an integer to the range of `int32_t` (two's complement). -/
def wrap32 (x : Int) : Int := (x + 2 ^ 31) % 2 ^ 32 - 2 ^ 31

/-! ## The program -/

/-- Class `Tile`: the five private members. -/
structure Tile where
  parent : Coords
  closed : Bool
  gval : Dbl
  hval : Dbl
  data : Char
deriving DecidableEq, Repr

/-- Constructor `Tile(char data)`. -/
def Tile.new (data : Char) : Tile :=
  { parent := (-1, -1), closed := false, gval := dblMax, hval := dblMax, data := data }

/-- Method `Tile::fval`: `m_gval + m_hval`. -/
def Tile.fval (t : Tile) : Dbl := dadd t.gval t.hval

/-- Operator `<` of `Coords` (lexicographic, as for `std::pair`). -/
def coordsLt (a b : Coords) : Bool :=
  decide (a.1 < b.1) || (!decide (b.1 < a.1) && decide (a.2 < b.2))

/-- An element of `openList`: `std::pair<double, Coords>`. -/
abbrev Entry := Dbl × Coords

/-- Operator `<` of `std::pair<double, Coords>`. -/
def entryLt (a b : Entry) : Bool :=
  dlt a.1 b.1 || (!dlt b.1 a.1 && coordsLt a.2 b.2)

/-- The type `std::set<std::pair<double, Coords>>`, kept in increasing order. -/
abbrev OpenList := List Entry

/-- Method `std::set::insert`: the entry goes to its place in the order; an entry
equivalent to one already present is not added. -/
def setInsert : OpenList → Entry → OpenList
  | [], e => [e]
  | x :: xs, e =>
    if entryLt e x then e :: x :: xs
    else if entryLt x e then x :: setInsert xs e
    else x :: xs

abbrev TileLine := List Tile
abbrev TileLines := List (List Tile)

/-- The tile `tiles[co.first][co.second]` when both indices are in range. -/
def tileAt? (tiles : TileLines) (co : Coords) : Option Tile :=
  if 0 ≤ co.1 ∧ 0 ≤ co.2 then
    match tiles[co.1.toNat]? with
    | some row => row[co.2.toNat]?
    | none => none
  else none

/-- The tile `tiles[co.first][co.second]`.  Indexing out of range is undefined in
the source; the model yields a blank tile there. -/
def tileAt (tiles : TileLines) (co : Coords) : Tile :=
  (tileAt? tiles co).getD (Tile.new ' ')

/-- Assignment through the reference `tiles[co.first][co.second]`. -/
def setTile (tiles : TileLines) (co : Coords) (t : Tile) : TileLines :=
  if 0 ≤ co.1 ∧ 0 ≤ co.2 then
    match tiles[co.1.toNat]? with
    | some row => tiles.set co.1.toNat (row.set co.2.toNat t)
    | none => tiles
  else tiles

/-- Inner loop of `findStart` / `findFinish` over the columns `j, j+1, ...` of row `i`. -/
def findInRow (c : Char) (i : Nat) : Nat → TileLine → Option Coords
  | _, [] => none
  | j, t :: ts => if t.data = c then some ((i : Int), (j : Int)) else findInRow c i (j + 1) ts

/-- Outer loop of `findStart` / `findFinish` over the rows `i, i+1, ...`. -/
def findFrom (c : Char) : Nat → TileLines → Option Coords
  | _, [] => none
  | i, row :: rows =>
    match findInRow c i 0 row with
    | some co => some co
    | none => findFrom c (i + 1) rows

/-- Function `findStart`. -/
def findStart (tiles : TileLines) : Except String Coords :=
  match findFrom 'S' 0 tiles with
  | some co => .ok co
  | none => .error "Unable to find start"

/-- Function `findFinish`. -/
def findFinish (tiles : TileLines) : Except String Coords :=
  match findFrom 'F' 0 tiles with
  | some co => .ok co
  | none => .error "Unable to find finish"

/-- The value `tiles[0].size() - 1`, computed in `size_t` (64 bits). -/
def lastCol (tiles : TileLines) : Nat :=
  ((tiles.headD []).length + (2 ^ 64 - 1)) % 2 ^ 64

/-- Function `isValidTile`: the value it returns.  The conjunction is evaluated left
to right and stops at the first false operand, so the members of the tile are read
only when the bounds tests have passed; a tile that is missing there (possible only
in a ragged grid) counts as invalid.  The reference to the tile is bound before the
tests; `isValidTileIndexed` records where the grid is indexed for it. -/
def isValidTile (tiles : TileLines) (co : Coords) : Bool :=
  decide (0 ≤ co.1) && decide (co.1 < (tiles.length : Int)) && decide (0 ≤ co.2)
    && decide (co.2 < (lastCol tiles : Int))
    && (match tileAt? tiles co with
        | some tile => tile.data != 'o' && tile.closed == false
        | none => false)

/-- The radicand of `calcHval`, `dr * dr + dc * dc` in `int32_t` arithmetic. -/
def radicand (co finish : Coords) : Int :=
  wrap32 (wrap32 (wrap32 (co.1 - finish.1) * wrap32 (co.1 - finish.1)) +
    wrap32 (wrap32 (co.2 - finish.2) * wrap32 (co.2 - finish.2)))

/-- Function `calcHval`: `std::sqrt` of the radicand. -/
def calcHval (_tiles : TileLines) (co finish : Coords) : Dbl :=
  sqrtInt (radicand co finish)

/-- The static table `dirs` of `astar`: step cost and offset. -/
def dirs : List (Dbl × Coords) :=
  [(d14, (-1, -1)), (dOne, (-1, 0)), (d14, (-1, 1)), (dOne, (0, -1)),
   (dOne, (0, 1)), (d14, (1, -1)), (dOne, (1, 0)), (d14, (1, 1))]

/-- The test of the `if` in `astar` that decides whether the neighbour is relaxed:
`newHval + newGval < newTile.fval() || newTile.gval() == DBL_MAX ||
newTile.hval() == DBL_MAX`. -/
def relaxCond (newHval newGval : Dbl) (newTile : Tile) : Bool :=
  dlt (dadd newHval newGval) newTile.fval
    || deq newTile.gval dblMax || deq newTile.hval dblMax

/-- The `for` loop of `astar` over the remaining directions; `oriTile` is the copy
of the origin tile taken before the loop. -/
def astarLoop (oriTile : Tile) (oriCo finish : Coords) :
    List (Dbl × Coords) → TileLines → OpenList → Option Coords × TileLines × OpenList
  | [], tiles, openList => (none, tiles, openList)
  | dir :: rest, tiles, openList =>
    let newCo : Coords := (oriCo.1 + dir.2.1, oriCo.2 + dir.2.2)
    if !isValidTile tiles newCo then astarLoop oriTile oriCo finish rest tiles openList
    else
      let newTile := tileAt tiles newCo
      let newHval := calcHval tiles newCo finish
      let newGval := dadd oriTile.gval dir.1
      if relaxCond newHval newGval newTile then
        let newTile1 := { newTile with hval := newHval, gval := newGval, parent := oriCo }
        let tiles1 := setTile tiles newCo newTile1
        if newCo.1 = finish.1 ∧ newCo.2 = finish.2 then (some newCo, tiles1, openList)
        else astarLoop oriTile oriCo finish rest tiles1
          (setInsert openList (dadd newTile1.hval newTile1.gval, newCo))
      else astarLoop oriTile oriCo finish rest tiles openList

/-- Function `astar`. -/
def astar (tiles : TileLines) (openList : OpenList) (oriCo finish : Coords) :
    Option Coords × TileLines × OpenList :=
  astarLoop (tileAt tiles oriCo) oriCo finish dirs tiles openList

/-- The statement `tiles[co.first][co.second].closed(true)` of `main`. -/
def closeTile (tiles : TileLines) (co : Coords) : TileLines :=
  setTile tiles co { tileAt tiles co with closed := true }

/-- The `while` loop of `main`: `some (lastTile, tiles, openList)` when the loop
has stopped within `fuel` iterations. -/
def searchLoop (finish : Coords) :
    Nat → TileLines → OpenList → Option (Option Coords × TileLines × OpenList)
  | _, tiles, [] => some (none, tiles, [])
  | 0, _, _ :: _ => none
  | fuel + 1, tiles, (_, co) :: rest =>
    match astar (closeTile tiles co) rest co finish with
    | (some last, tiles1, openList1) => some (some last, tiles1, openList1)
    | (none, tiles1, openList1) => searchLoop finish fuel tiles1 openList1

/-- The statements of `main` that seed the search: `hval(0)`, `gval(0)` on the start tile. -/
def initTiles (tiles : TileLines) (start : Coords) : TileLines :=
  setTile tiles start { tileAt tiles start with hval := dZero, gval := dZero }

/-- The frontier after `openList.insert({0, start})`. -/
def initOpen (start : Coords) : OpenList := setInsert [] (dZero, start)

/-- The search driver of `main` from the loaded grid up to the end of the `while`
loop: the start is found and seeded, the finish is found, the loop runs. -/
def search (fuel : Nat) (tiles : TileLines) :
    Except String (Option (Option Coords × TileLines × OpenList)) :=
  match findStart tiles with
  | .error e => .error e
  | .ok start =>
    match findFinish (initTiles tiles start) with
    | .error e => .error e
    | .ok finish => .ok (searchLoop finish fuel (initTiles tiles start) (initOpen start))

/-- Function `writePath`, with the list of the cells it writes to, in the order
of the writes.  `none` when the loop has not stopped within `fuel` iterations. -/
def writePath : Nat → TileLines → Coords → Option (TileLines × List Coords)
  | fuel, tiles, co =>
    if co.1 ≠ -1 ∧ co.2 ≠ -1 then
      match fuel with
      | 0 => none
      | fuel + 1 =>
        let tiles1 := setTile tiles co { tileAt tiles co with data := '*' }
        match writePath fuel tiles1 (tileAt tiles1 co).parent with
        | some (tiles2, cells) => some (tiles2, co :: cells)
        | none => none
    else some (tiles, [])

/-- The loop of `createTiles` over the lines still to be read; `tiles` holds the
rows built so far.  A line is a string whose characters stand for its bytes. -/
def createTilesLoop : List String → TileLines → Except String TileLines
  | [], tiles => .ok tiles
  | line :: rest, tiles =>
    let tiles1 := tiles ++ [line.toList.map Tile.new]
    if 2 ≤ tiles1.length ∧
        (tiles1.getD (tiles1.length - 1) []).length ≠ (tiles1.getD (tiles1.length - 2) []).length
    then .error "Invalid map"
    else createTilesLoop rest tiles1

/-- Function `createTiles`, applied to the lines of the map file. -/
def createTiles (lines : List String) : Except String TileLines :=
  createTilesLoop lines []

/-- The grid of fresh tiles whose rows hold the symbols of `lines`. -/
def mkGrid (lines : List String) : TileLines :=
  lines.map (fun r => r.toList.map Tile.new)

/-! ## Notions used to state the properties -/

/-- The symbol stored at `co`, when `co` is a cell of the grid. -/
def symbolAt (tiles : TileLines) (co : Coords) : Option Char :=
  (tileAt? tiles co).map (·.data)

/-- The symbol at row `r`, column `k` (natural-number indices). -/
def cellSym (tiles : TileLines) (r k : Nat) : Option Char :=
  match tiles[r]? with
  | some row => (row[k]?).map (·.data)
  | none => none

/-- Cell `co` holds the symbol `c` and no cell before it in row-major order does. -/
def IsFirst (c : Char) (tiles : TileLines) (co : Coords) : Prop :=
  symbolAt tiles co = some c ∧
    ∀ co' : Coords, (co'.1 < co.1 ∨ (co'.1 = co.1 ∧ co'.2 < co.2)) → symbolAt tiles co' ≠ some c

/-- No cell of the grid holds the symbol `c`. -/
def Absent (c : Char) (tiles : TileLines) : Prop :=
  ∀ co : Coords, symbolAt tiles co ≠ some c

/-- All rows of the grid have `cols` cells. -/
def Rect (tiles : TileLines) (cols : Nat) : Prop :=
  ∀ row ∈ tiles, row.length = cols

instance (tiles : TileLines) (cols : Nat) : Decidable (Rect tiles cols) :=
  inferInstanceAs (Decidable (∀ row ∈ tiles, row.length = cols))

/-- Cell `co` lies inside the grid. -/
def inGrid (tiles : TileLines) (co : Coords) : Prop :=
  (tileAt? tiles co).isSome = true

instance (tiles : TileLines) (co : Coords) : Decidable (inGrid tiles co) :=
  inferInstanceAs (Decidable ((tileAt? tiles co).isSome = true))

/-- Cells `a` and `b` are 8-neighbours: distinct, at most one row and one column apart. -/
def adjacent (a b : Coords) : Prop :=
  a ≠ b ∧ (a.1 - b.1).natAbs ≤ 1 ∧ (a.2 - b.2).natAbs ≤ 1

instance (a b : Coords) : Decidable (adjacent a b) :=
  inferInstanceAs (Decidable (a ≠ b ∧ (a.1 - b.1).natAbs ≤ 1 ∧ (a.2 - b.2).natAbs ≤ 1))

/-- Cost, in tenths, of the move between two 8-neighbours: `10` for an orthogonal
move, `14` for a diagonal one. -/
def stepCost (a b : Coords) : Nat :=
  if a.1 = b.1 ∨ a.2 = b.2 then 10 else 14

/-- Cost of the move between two 8-neighbours as the program has it: the double
`1.0` for an orthogonal move, the double `1.4` for a diagonal one. -/
def stepCostD (a b : Coords) : Dbl :=
  if a.1 = b.1 ∨ a.2 = b.2 then dOne else d14

/-- Cell `co` is a cell of the grid that does not hold the obstacle symbol `'o'`. -/
def passable (tiles : TileLines) (co : Coords) : Prop :=
  ∃ c, symbolAt tiles co = some c ∧ c ≠ 'o'

instance (tiles : TileLines) (co : Coords) : Decidable (passable tiles co) :=
  match h : symbolAt tiles co with
  | none => isFalse (fun ⟨_, hc, _⟩ => by rw [h] at hc; cases hc)
  | some c =>
    if hc : c = 'o' then isFalse (fun ⟨_, hc', hne⟩ => by rw [h] at hc'; cases hc'; exact hne hc)
    else isTrue ⟨c, h, hc⟩

/-- Every two consecutive cells of the list are 8-neighbours. -/
def stepsOk : List Coords → Prop
  | a :: b :: rest => adjacent a b ∧ stepsOk (b :: rest)
  | _ => True

/-- Decision procedure for `stepsOk`. -/
def decStepsOk : (p : List Coords) → Decidable (stepsOk p)
  | [] => isTrue trivial
  | [_] => isTrue trivial
  | a :: b :: rest =>
    have := decStepsOk (b :: rest)
    inferInstanceAs (Decidable (adjacent a b ∧ stepsOk (b :: rest)))

instance (p : List Coords) : Decidable (stepsOk p) := decStepsOk p

/-- The list `p` is an 8-directional walk over passable cells of the grid. -/
def IsPath (tiles : TileLines) (p : List Coords) : Prop :=
  (∀ c ∈ p, passable tiles c) ∧ stepsOk p

instance (tiles : TileLines) (p : List Coords) : Decidable (IsPath tiles p) :=
  inferInstanceAs (Decidable ((∀ c ∈ p, passable tiles c) ∧ stepsOk p))

/-- The list `p` is an obstacle-free 8-directional path that starts at `a` and ends at `b`. -/
def IsPathFromTo (tiles : TileLines) (a b : Coords) (p : List Coords) : Prop :=
  p.head? = some a ∧ p.getLast? = some b ∧ IsPath tiles p

instance (tiles : TileLines) (a b : Coords) (p : List Coords) :
    Decidable (IsPathFromTo tiles a b p) :=
  inferInstanceAs (Decidable (p.head? = some a ∧ p.getLast? = some b ∧ IsPath tiles p))

/-- Sum of the step costs along a list of cells, in tenths. -/
def pathCost : List Coords → Nat
  | a :: b :: rest => stepCost a b + pathCost (b :: rest)
  | _ => 0

/-- The cost `g` increased by the step costs along a list of cells, each addition
rounded as the program rounds it. -/
def walkCostD (g : Dbl) : List Coords → Dbl
  | a :: b :: rest => walkCostD (dadd g (stepCostD a b)) (b :: rest)
  | _ => g

/-- Cost of a list of cells walked from its first cell, in binary64. -/
def pathCostD (p : List Coords) : Dbl := walkCostD dZero p

/-- The grid has at most `32768` rows and every row at most `32768` cells. -/
def SizeOk (tiles : TileLines) : Prop :=
  tiles.length ≤ 32768 ∧ ∀ row ∈ tiles, row.length ≤ 32768

instance (tiles : TileLines) : Decidable (SizeOk tiles) :=
  inferInstanceAs (Decidable (tiles.length ≤ 32768 ∧ ∀ row ∈ tiles, row.length ≤ 32768))

/-- Number of cells of the grid. -/
def gridSize (tiles : TileLines) : Nat :=
  (tiles.map List.length).sum

/-- The cells met by following `parent` links from `co` until a coordinate with a
component `-1` (the test of the loop of `writePath`), without writing. -/
def parentChain : Nat → TileLines → Coords → Option (List Coords)
  | fuel, tiles, co =>
    if co.1 ≠ -1 ∧ co.2 ≠ -1 then
      match fuel with
      | 0 => none
      | fuel + 1 => (parentChain fuel tiles (tileAt tiles co).parent).map (co :: ·)
    else some []

/-- A state of the `while` loop of `main`: `lastTile`, `tiles`, `openList`. -/
abbrev LoopState := Option Coords × TileLines × OpenList

instance : DecidableEq (TileLines × OpenList) := fun a b => instDecidableEqProd a b

instance : DecidableEq LoopState := fun a b => instDecidableEqProd a b

/-- One iteration of the `while` loop of `main`, possible when no result has been
returned yet and the frontier is not empty. -/
def loopStep (finish : Coords) : LoopState → Option LoopState
  | (none, tiles, (_, co) :: rest) => some (astar (closeTile tiles co) rest co finish)
  | _ => none

/-- The loop states that `main` goes through on the loaded grid `tiles0` whose
first `'S'` is at `start` and first `'F'` at `finish`. -/
inductive Reach (tiles0 : TileLines) (start finish : Coords) : LoopState → Prop
  | init : Reach tiles0 start finish (none, initTiles tiles0 start, initOpen start)
  | step {s s' : LoopState} : Reach tiles0 start finish s → loopStep finish s = some s' →
      Reach tiles0 start finish s'

/-- The sentinel parent `{-1, -1}` set by the constructor of `Tile`. -/
def noParent : Coords := (-1, -1)

/-- The invariant of the search loop. -/
structure Inv (tiles0 : TileLines) (start finish : Coords) (tiles : TileLines)
    (openList : OpenList) : Prop where
  /-- symbols never change -/
  symbols : ∀ co, symbolAt tiles co = symbolAt tiles0 co
  /-- the start tile keeps cost `0` and no parent -/
  start_tile : ∃ t, tileAt? tiles start = some t ∧ t.parent = noParent ∧ t.gval = dZero ∧
    t.hval = dZero ∧ t.data ≠ 'o'
  /-- the start tile is closed as soon as the first entry has been popped -/
  start_closed : (tileAt tiles start).closed = true ∨ openList = [(dZero, start)]
  /-- a tile with a parent is one step away from it and left of the last column,
  the parent is closed, the cost of the tile is the cost of the parent plus the
  step, rounded, and its heuristic value is the one of `calcHval` -/
  link : ∀ co t, tileAt? tiles co = some t → t.parent ≠ noParent →
    ∃ p, tileAt? tiles t.parent = some p ∧ p.closed = true ∧
      (∃ dir ∈ dirs, co = (t.parent.1 + dir.2.1, t.parent.2 + dir.2.2) ∧
        t.gval = dadd p.gval dir.1) ∧
      t.data ≠ 'o' ∧ t.hval = calcHval tiles co finish ∧ co.2 < (lastCol tiles : Int) ∧
      ∃ k, t.gval = .fin k ∧ k ≤ 2 ^ 1128
  /-- a tile without a parent, other than the start, is untouched -/
  fresh : ∀ co t, tileAt? tiles co = some t → t.parent = noParent → co ≠ start →
    t.gval = dblMax ∧ t.hval = dblMax ∧ t.closed = false
  /-- every frontier entry is the start or a tile with a parent -/
  open_ok : ∀ e ∈ openList, ∃ t, tileAt? tiles e.2 = some t ∧
    (e.2 = start ∨ t.parent ≠ noParent)

/-- The natural number that orders a double among the finite ones. -/
def Dbl.key : Dbl → Nat
  | .fin k => k
  | _ => 0

/-- Number of tiles that have no parent (first component of the termination
measure). -/
def unknownCount (tiles : TileLines) : Nat :=
  (tiles.map (fun row => (row.map (fun t => if t.parent = noParent then 1 else 0)).sum)).sum

/-- Sum of the costs (second component of the termination measure). -/
def gvalSum (tiles : TileLines) : Nat :=
  (tiles.map (fun row => (row.map (fun t => t.gval.key)).sum)).sum

/-- The termination measure of the grid `a` is below that of `b`: fewer tiles
without a parent, or as many and a smaller sum of costs. -/
def MeasureLt (a b : TileLines) : Prop :=
  unknownCount a < unknownCount b ∨
    (unknownCount a = unknownCount b ∧ gvalSum a < gvalSum b)

/-- Number of closed tiles. -/
def closedCount (tiles : TileLines) : Nat :=
  (tiles.map (fun row => (row.map (fun t => if t.closed = true then 1 else 0)).sum)).sum

/-- Invariant of the search loop on the size of the costs: the grid keeps its
dimensions, and the cost of a tile that has been reached is finite and at most `2 * c`,
where `c` is the number of closed tiles other than the tile itself. -/
structure GBound (tiles0 : TileLines) (start : Coords) (tiles : TileLines) : Prop where
  /-- the rows keep their lengths -/
  dims : tiles.map List.length = tiles0.map List.length
  /-- bound on the cost of the start and of every tile with a parent -/
  bound : ∀ co t, tileAt? tiles co = some t → (t.parent ≠ noParent ∨ co = start) →
    ∃ k, t.gval = .fin k ∧
      k + (if t.closed = true then 2 ^ 1075 else 0) ≤ 2 ^ 1075 * closedCount tiles

/-- Invariant of the search loop on the frontier, while no result has been returned. -/
structure Front (tiles : TileLines) (openList : OpenList) : Prop where
  /-- every priority is finite -/
  prio_fin : ∀ e ∈ openList, ∃ k, e.1 = .fin k
  /-- the frontier is in increasing order -/
  sorted : openList.Pairwise (fun a b => entryLt a b = true)
  /-- an open tile with a parent has the entry of its current sum in the frontier -/
  front : ∀ co t, tileAt? tiles co = some t → t.parent ≠ noParent → t.closed = false →
    (dadd t.hval t.gval, co) ∈ openList
  /-- no entry of an open tile is below the current sum of the tile -/
  stale : ∀ e ∈ openList, ∀ t, tileAt? tiles e.2 = some t → t.closed = false →
    dlt e.1 (dadd t.hval t.gval) = false

/-- The loop state in which the driver has stopped, when it has within `fuel`
iterations. -/
def finalState (fuel : Nat) (tiles0 : TileLines) : Option LoopState :=
  match search fuel tiles0 with
  | .ok r => r
  | .error _ => none

/-! ## Concrete inputs -/

/-- A map of 3 rows and 4 columns with one obstacle. -/
def demoLines : List String := ["S...", ".o..", "..F."]

/-- The loop state in which the driver stops on `demoLines`. -/
def demoFinal : LoopState := (finalState 10 (mkGrid demoLines)).getD (none, [], [])

/-- A map whose finish is walled in by obstacles. -/
def enclosedLines : List String := ["S.ooo.", "..oFo.", "..ooo."]

/-- A map of one row in which the finish is next to the start. -/
def adjacentLines : List String := ["SF"]

/-- A map of 20 rows and 22 columns whose last column holds obstacles only.  Two
corridors lead from the start to the finish: three steps east, one south-east, one
south and sixteen south-east (cost `27.8`), and the main diagonal (cost `28.0`). -/
def corridorLines : List String :=
  ["S...oooooooooooooooooo",
   "o.oo.ooooooooooooooooo",
   "oo.o.ooooooooooooooooo",
   "ooo.o.oooooooooooooooo",
   "oooo.o.ooooooooooooooo",
   "ooooo.o.oooooooooooooo",
   "oooooo.o.ooooooooooooo",
   "ooooooo.o.oooooooooooo",
   "oooooooo.o.ooooooooooo",
   "ooooooooo.o.oooooooooo",
   "oooooooooo.o.ooooooooo",
   "ooooooooooo.o.oooooooo",
   "oooooooooooo.o.ooooooo",
   "ooooooooooooo.o.oooooo",
   "oooooooooooooo.o.ooooo",
   "ooooooooooooooo.o.oooo",
   "oooooooooooooooo.o.ooo",
   "ooooooooooooooooo.o.oo",
   "oooooooooooooooooo.oFo",
   "ooooooooooooooooooo.oo"]

/-- The cheaper corridor of `corridorLines`, from the start to the finish. -/
def corridorPath : List Coords :=
  [(0, 0), (0, 1), (0, 2), (0, 3), (1, 4), (2, 4), (3, 5), (4, 6), (5, 7), (6, 8), (7, 9),
   (8, 10), (9, 11), (10, 12), (11, 13), (12, 14), (13, 15), (14, 16), (15, 17), (16, 18),
   (17, 19), (18, 20)]

/-! ## Indexing of the grid -/

/-- The coordinates at which `isValidTile` indexes the grid.  Its first statement,
`auto& tile = tiles[co.first][co.second];`, evaluates the two index operators at
`co` before any of the bounds tests. -/
def isValidTileIndexed (_tiles : TileLines) (co : Coords) : List Coords := [co]

/-- The coordinates at which the `for` loop of `astar` indexes the grid, in order:
for every direction tried the index of `isValidTile`, and for a valid neighbour the
index of the reference `newTile`. -/
def astarLoopIndexed (oriTile : Tile) (oriCo finish : Coords) :
    List (Dbl × Coords) → TileLines → OpenList → List Coords
  | [], _, _ => []
  | dir :: rest, tiles, openList =>
    let newCo : Coords := (oriCo.1 + dir.2.1, oriCo.2 + dir.2.2)
    if !isValidTile tiles newCo then
      isValidTileIndexed tiles newCo ++ astarLoopIndexed oriTile oriCo finish rest tiles openList
    else
      let newTile := tileAt tiles newCo
      let newHval := calcHval tiles newCo finish
      let newGval := dadd oriTile.gval dir.1
      if relaxCond newHval newGval newTile then
        let newTile1 := { newTile with hval := newHval, gval := newGval, parent := oriCo }
        let tiles1 := setTile tiles newCo newTile1
        if newCo.1 = finish.1 ∧ newCo.2 = finish.2 then
          isValidTileIndexed tiles newCo ++ [newCo]
        else
          isValidTileIndexed tiles newCo ++ newCo ::
            astarLoopIndexed oriTile oriCo finish rest tiles1
              (setInsert openList (dadd newTile1.hval newTile1.gval, newCo))
      else
        isValidTileIndexed tiles newCo ++ newCo ::
          astarLoopIndexed oriTile oriCo finish rest tiles openList

/-- The coordinates at which a call of `astar` indexes the grid: the origin (for
the copy `oriTile`), then those of the loop. -/
def astarIndexed (tiles : TileLines) (openList : OpenList) (oriCo finish : Coords) :
    List Coords :=
  oriCo :: astarLoopIndexed (tileAt tiles oriCo) oriCo finish dirs tiles openList

/-! ## Further notions used to state the properties -/

/-- Every closed tile has been expanded: each neighbour of it that `isValidTile`
accepts has been relaxed, and the test of `astar` for relaxing it from the closed
tile fails. -/
def Expanded (finish : Coords) (tiles : TileLines) : Prop :=
  ∀ co t, tileAt? tiles co = some t → t.closed = true →
    ∀ dir ∈ dirs, isValidTile tiles (co.1 + dir.2.1, co.2 + dir.2.2) = true →
      (tileAt tiles (co.1 + dir.2.1, co.2 + dir.2.2)).parent ≠ noParent ∧
      dlt (dadd (calcHval tiles (co.1 + dir.2.1, co.2 + dir.2.2) finish) (dadd t.gval dir.1))
        (tileAt tiles (co.1 + dir.2.1, co.2 + dir.2.2)).fval = false

/-- The loop state after `k` iterations of the `while` loop of `main`, when the
loop runs that long. -/
def loopIter (finish : Coords) : Nat → LoopState → Option LoopState
  | 0, s => some s
  | k + 1, s =>
    match loopStep finish s with
    | some s1 => loopIter finish k s1
    | none => none

/-! ## Further concrete inputs -/

/-- The map of the worked example: 3 rows, 3 columns, one obstacle in the middle. -/
def exampleLines : List String := ["S..", ".o.", "..F"]

/-- A cheapest route of `exampleLines` from the start to the finish around the obstacle. -/
def examplePath : List Coords := [(0, 0), (0, 1), (1, 2), (2, 2)]

/-- A map of one row with the start in the first column. -/
def rowLines : List String := ["S.F."]

/-- The grid state in which `main` calls `astar` for the first time on `rowLines`. -/
def rowFirstTiles : TileLines := closeTile (initTiles (mkGrid rowLines) (0, 0)) (0, 0)

/-- A map of two rows whose finish is the east neighbour of the start. -/
def eastLines : List String := ["SF.", "..."]

/-- The grid state in which `main` calls `astar` for the first time on `eastLines`. -/
def eastFirstTiles : TileLines := closeTile (initTiles (mkGrid eastLines) (0, 0)) (0, 0)

/-- The result of the first call of `astar` that `main` makes on `eastLines`. -/
def eastAfter : LoopState := astar eastFirstTiles [] (0, 0) (0, 1)

/-- A map of two rows whose last column holds obstacles only. -/
def walledLines : List String := ["S..o", ".oFo"]

/-- The loop state in which the driver stops on `walledLines`. -/
def walledFinal : LoopState := (finalState 8 (mkGrid walledLines)).getD (none, [], [])

/-- A map of 21 rows and 23 columns whose last column holds obstacles only, with
the two corridors of `corridorLines` one step longer: three steps east, one
south-east, one south and seventeen south-east (cost `29.2`), and the main diagonal
(cost `29.4`). -/
def longCorridorLines : List String :=
  ["S...ooooooooooooooooooo",
   "o.oo.oooooooooooooooooo",
   "oo.o.oooooooooooooooooo",
   "ooo.o.ooooooooooooooooo",
   "oooo.o.oooooooooooooooo",
   "ooooo.o.ooooooooooooooo",
   "oooooo.o.oooooooooooooo",
   "ooooooo.o.ooooooooooooo",
   "oooooooo.o.oooooooooooo",
   "ooooooooo.o.ooooooooooo",
   "oooooooooo.o.oooooooooo",
   "ooooooooooo.o.ooooooooo",
   "oooooooooooo.o.oooooooo",
   "ooooooooooooo.o.ooooooo",
   "oooooooooooooo.o.oooooo",
   "ooooooooooooooo.o.ooooo",
   "oooooooooooooooo.o.oooo",
   "ooooooooooooooooo.o.ooo",
   "oooooooooooooooooo.o.oo",
   "ooooooooooooooooooo.oFo",
   "oooooooooooooooooooo.oo"]

/-- The cheaper corridor of `longCorridorLines`, from the start to the finish. -/
def longCorridorPath : List Coords :=
  [(0, 0), (0, 1), (0, 2), (0, 3), (1, 4), (2, 4), (3, 5), (4, 6), (5, 7), (6, 8), (7, 9),
   (8, 10), (9, 11), (10, 12), (11, 13), (12, 14), (13, 15), (14, 16), (15, 17), (16, 18),
   (17, 19), (18, 20), (19, 21)]

/-- A map on which two routes to the tile `(0,0)` cost `5.8` in exact arithmetic
and two different binary64 values as the program adds them up. -/
def tieLines : List String := ["..o..S", ".....F"]

/-- The loop state of the driver on `tieLines` after `k` iterations. -/
def tieState (k : Nat) : LoopState :=
  (loopIter (1, 5) k (none, initTiles (mkGrid tieLines) (0, 5), initOpen (0, 5))).getD
    (none, [], [])

/-- The grid state in which `main` calls `astar` in its ninth iteration on
`tieLines`: the state after eight iterations with the popped tile `(0,1)` closed. -/
def tieCallTiles : TileLines := closeTile (tieState 8).2.1 (0, 1)

/-- The result of the call of `astar` in the ninth iteration on `tieLines`. -/
def tieCallAfter : LoopState := astar tieCallTiles (tieState 8).2.2.tail (0, 1) (1, 5)

/-- A walk that the search can follow: the steps are 8-directional, and every cell
after the first one is a cell of the loaded grid that holds no obstacle and lies left
of the last column (the cells that `isValidTile` can accept). -/
def SearchPath (tiles0 : TileLines) (p : List Coords) : Prop :=
  stepsOk p ∧ ∀ c ∈ p.tail, passable tiles0 c ∧ c.2 < (lastCol tiles0 : Int)

instance (tiles0 : TileLines) (p : List Coords) : Decidable (SearchPath tiles0 p) :=
  inferInstanceAs
    (Decidable (stepsOk p ∧ ∀ c ∈ p.tail, passable tiles0 c ∧ c.2 < (lastCol tiles0 : Int)))

/-- Invariant of the search loop on the costs of the closed tiles: the cost `g` of a
closed tile, in units of `2 ^ (-1074)`, is at most `√2 / 1.4` times the cost of every
walk from the start to the tile that the search can follow, up to `2 ^ (-17)` per
step for the rounding of the binary64 operations. -/
def CostBound (tiles0 : TileLines) (start : Coords) (tiles : TileLines) : Prop :=
  ∀ (s : Coords) (t : Tile) (g : Nat), tileAt? tiles s = some t → t.closed = true →
    t.gval = .fin g → ∀ p : List Coords, p.head? = some start → p.getLast? = some s →
      SearchPath tiles0 p →
      (g : ℝ) ≤ (pathCost p : ℝ) / 10 * (Real.sqrt 2 / 1.4) * 2 ^ 1074 +
        ((p.length - 1 : Nat) : ℝ) * 2 ^ 1057

/-- A map on which the only walk from the start to the finish that avoids the last
column makes a detour through the west column (cost `4.8`), while a path through the
last column costs `2.8`. -/
def detourLines : List String := ["..S.", ".oo.", "..F."]

/-- The path of cost `2.8` through the last column of `detourLines`. -/
def detourPath : List Coords := [(0, 2), (1, 3), (2, 2)]

/-! ## Lemmas and theorems -/

theorem log2Aux_spec (k : Nat) : ∀ (i acc : Nat), 2 ^ acc ≤ k → k < 2 ^ (acc + 2 ^ i) →
    2 ^ log2Aux k i acc ≤ k ∧ k < 2 ^ (log2Aux k i acc + 1) := by
  intro i
  induction i with
  | zero =>
    intro acc h1 h2
    simpa [log2Aux] using ⟨h1, h2⟩
  | succ i ih =>
    intro acc h1 h2
    rw [log2Aux]
    split
    · rename_i h
      refine ih _ h ?_
      have : acc + 2 ^ i + 2 ^ i = acc + 2 ^ (i + 1) := by rw [pow_succ]; omega
      rw [this]
      exact h2
    · rename_i h
      exact ih _ h1 (by omega)

theorem log2_unique {k e : Nat} (h1 : 2 ^ e ≤ k) (h2 : k < 2 ^ (e + 1)) : Nat.log2 k = e := by
  have hk : k ≠ 0 := by
    have := Nat.two_pow_pos e
    omega
  have h3 : Nat.log2 k < e + 1 := (Nat.log2_lt hk).2 h2
  have h4 : ¬ Nat.log2 k < e := fun h => by
    have := (Nat.log2_lt hk).1 h
    omega
  omega

theorem log2Aux_zero : ∀ (i : Nat), log2Aux 0 i 0 = 0 := by
  intro i
  induction i with
  | zero => rfl
  | succ i ih =>
    rw [log2Aux]
    have : ¬ 2 ^ (0 + 2 ^ i) ≤ 0 := by
      have := Nat.two_pow_pos (0 + 2 ^ i)
      omega
    rw [if_neg this]
    exact ih

theorem ilog2_eq (k : Nat) : ilog2 k = Nat.log2 k := by
  unfold ilog2
  split
  · rename_i h
    by_cases hk : k = 0
    · subst hk
      rw [log2Aux_zero, Nat.log2_zero]
    · have hp : 2 ^ 0 ≤ k := by simpa using Nat.pos_of_ne_zero hk
      obtain ⟨h1, h2⟩ := log2Aux_spec k 12 0 hp (by
        have h12 : 0 + 2 ^ 12 = 4096 := by norm_num
        rw [h12]
        exact h)
      exact (log2_unique h1 h2).symm
  · rfl

theorem ilog2_spec {k : Nat} (hk : k ≠ 0) : 2 ^ ilog2 k ≤ k ∧ k < 2 ^ (ilog2 k + 1) := by
  rw [ilog2_eq]
  exact ⟨Nat.log2_self_le hk, Nat.lt_log2_self⟩

theorem ilog2_mono {a b : Nat} (ha : a ≠ 0) (h : a ≤ b) : ilog2 a ≤ ilog2 b := by
  have hb : b ≠ 0 := by omega
  obtain ⟨a1, a2⟩ := ilog2_spec ha
  obtain ⟨b1, b2⟩ := ilog2_spec hb
  by_contra hlt
  have : ilog2 b + 1 ≤ ilog2 a := by omega
  have := Nat.pow_le_pow_right (by decide : 0 < 2) this
  omega

/-- The shape of `round53` above `2 ^ 53`. -/
theorem round53_cases {k : Nat} (hk : 2 ^ 53 ≤ k) :
    ∃ s q r, 1 ≤ s ∧ ilog2 k = 52 + s ∧ k = q * 2 ^ s + r ∧ r < 2 ^ s ∧ 2 ^ 52 ≤ q ∧
      q < 2 ^ 53 ∧
      round53 k = (if 2 ^ (s - 1) < r ∨ (r = 2 ^ (s - 1) ∧ q % 2 = 1) then (q + 1) * 2 ^ s
        else q * 2 ^ s) := by
  have hk0 : k ≠ 0 := by
    have : 0 < 2 ^ 53 := by decide
    omega
  obtain ⟨h1, h2⟩ := ilog2_spec hk0
  have he : 53 ≤ ilog2 k := by
    by_contra hlt
    have : ilog2 k + 1 ≤ 53 := by omega
    have := Nat.pow_le_pow_right (by decide : 0 < 2) this
    omega
  refine ⟨ilog2 k - 52, k / 2 ^ (ilog2 k - 52), k % 2 ^ (ilog2 k - 52), by omega, by omega,
    ?_, ?_, ?_, ?_, ?_⟩
  · rw [Nat.mul_comm]
    exact (Nat.div_add_mod k _).symm
  · exact Nat.mod_lt _ (Nat.two_pow_pos _)
  · rw [Nat.le_div_iff_mul_le (Nat.two_pow_pos _), ← pow_add]
    have : 52 + (ilog2 k - 52) = ilog2 k := by omega
    rw [this]
    exact h1
  · rw [Nat.div_lt_iff_lt_mul (Nat.two_pow_pos _), ← pow_add]
    have : 53 + (ilog2 k - 52) = ilog2 k + 1 := by omega
    rw [this]
    exact h2
  · unfold round53
    rw [if_neg (by omega)]

theorem round53_small {k : Nat} (hk : k < 2 ^ 53) : round53 k = k := by
  unfold round53
  rw [if_pos hk]

theorem two_pow_pred {s : Nat} (hs : 1 ≤ s) : 2 ^ s = 2 * 2 ^ (s - 1) := by
  obtain ⟨t, rfl⟩ : ∃ t, s = t + 1 := ⟨s - 1, by omega⟩
  rw [pow_succ]
  simp
  omega

/-- Relative error of `round53`: at most `2 ^ (-53)`, in both directions. -/
theorem round53_err (k : Nat) :
    2 ^ 53 * (round53 k - k) ≤ k ∧ 2 ^ 53 * (k - round53 k) ≤ k := by
  by_cases hk : k < 2 ^ 53
  · rw [round53_small hk]
    simp
  · obtain ⟨s, q, r, hs, -, hkq, hr, hq1, hq2, hround⟩ := round53_cases (Nat.le_of_not_lt hk)
    have hP := two_pow_pred hs
    generalize 2 ^ (s - 1) = H at hP hround
    generalize 2 ^ s = P at hP hround hkq hr
    subst hP
    have hqH : 2 ^ 52 * H ≤ q * H := Nat.mul_le_mul_right H hq1
    rw [hround]
    split
    · rename_i hup
      have hrH : H ≤ r := by omega
      have e1 : (q + 1) * (2 * H) - k = 2 * H - r := by
        rw [hkq, Nat.add_mul]
        omega
      have e2 : k - (q + 1) * (2 * H) = 0 := by
        rw [hkq, Nat.add_mul]
        omega
      rw [e1, e2, hkq]
      constructor
      · have : q * (2 * H) = 2 * (q * H) := by ring
        omega
      · simp
    · rename_i hup
      have hrH : r ≤ H := by omega
      have e1 : q * (2 * H) - k = 0 := by
        rw [hkq]
        omega
      have e2 : k - q * (2 * H) = r := by
        rw [hkq]
        omega
      rw [e1, e2, hkq]
      constructor
      · simp
      · have : q * (2 * H) = 2 * (q * H) := by ring
        omega

/-- Bounds of `round53` by the powers of two around its argument. -/
theorem round53_pow_bounds {k : Nat} (hk : k ≠ 0) :
    2 ^ ilog2 k ≤ round53 k ∧ round53 k ≤ 2 ^ (ilog2 k + 1) := by
  by_cases hk1 : k < 2 ^ 53
  · rw [round53_small hk1]
    exact ⟨(ilog2_spec hk).1, Nat.le_of_lt (ilog2_spec hk).2⟩
  · obtain ⟨s, q, r, hs, hlog, hkq, hr, hq1, hq2, hround⟩ :=
      round53_cases (Nat.le_of_not_lt hk1)
    have e1 : 2 ^ ilog2 k = 2 ^ 52 * 2 ^ s := by rw [hlog, pow_add]
    have e2 : 2 ^ (ilog2 k + 1) = 2 ^ 53 * 2 ^ s := by
      have : ilog2 k + 1 = 53 + s := by omega
      rw [this, pow_add]
    rw [e1, e2, hround]
    split
    · exact ⟨Nat.mul_le_mul_right _ (by omega), Nat.mul_le_mul_right _ (by omega)⟩
    · exact ⟨Nat.mul_le_mul_right _ hq1, Nat.mul_le_mul_right _ (by omega)⟩

/-- Rounding is monotone. -/
theorem round53_mono {a b : Nat} (h : a ≤ b) : round53 a ≤ round53 b := by
  by_cases hb : b < 2 ^ 53
  · rw [round53_small hb, round53_small (by omega)]
    exact h
  · have hb' : 2 ^ 53 ≤ b := Nat.le_of_not_lt hb
    have hb0 : b ≠ 0 := by
      have : 0 < 2 ^ 53 := by decide
      omega
    by_cases ha : a < 2 ^ 53
    · rw [round53_small ha]
      have h1 := (round53_pow_bounds hb0).1
      have h2 := (ilog2_spec hb0).2
      have h3 : 53 ≤ ilog2 b := by
        by_contra hlt
        have : ilog2 b + 1 ≤ 53 := by omega
        have := Nat.pow_le_pow_right (by decide : 0 < 2) this
        omega
      have := Nat.pow_le_pow_right (by decide : 0 < 2) h3
      omega
    · have ha' : 2 ^ 53 ≤ a := Nat.le_of_not_lt ha
      have ha0 : a ≠ 0 := by
        have : 0 < 2 ^ 53 := by decide
        omega
      have hlog := ilog2_mono ha0 h
      by_cases hlt : ilog2 a < ilog2 b
      · have h1 := (round53_pow_bounds ha0).2
        have h2 := (round53_pow_bounds hb0).1
        have := Nat.pow_le_pow_right (by decide : 0 < 2) (show ilog2 a + 1 ≤ ilog2 b by omega)
        omega
      · have heq : ilog2 a = ilog2 b := by omega
        obtain ⟨s, q, r, hs, hl, hkq, hr, hq1, hq2, hround⟩ := round53_cases ha'
        obtain ⟨s', q', r', hs', hl', hkq', hr', hq1', hq2', hround'⟩ := round53_cases hb'
        have hss : s' = s := by omega
        subst hss
        rw [hround, hround']
        have hP := two_pow_pred hs
        generalize 2 ^ (s' - 1) = H at hP hround hround'
        generalize 2 ^ s' = P at hP hround hround' hkq hr hkq' hr'
        subst hP
        have hqq : q ≤ q' := by
          by_contra hc
          have : q' + 1 ≤ q := by omega
          have := Nat.mul_le_mul_right (2 * H) this
          rw [Nat.add_mul] at this
          omega
        by_cases hq : q = q'
        · subst hq
          have hrr : r ≤ r' := by omega
          split
          · rename_i hup
            rw [if_pos (by omega)]
          · split
            · exact Nat.mul_le_mul_right _ (by omega)
            · exact le_refl _
        · have hlt' : q + 1 ≤ q' := by omega
          have h1 := Nat.mul_le_mul_right (2 * H) hlt'
          have h2 : q' * (2 * H) ≤ (q' + 1) * (2 * H) := Nat.mul_le_mul_right _ (by omega)
          have h3 : q * (2 * H) ≤ (q + 1) * (2 * H) := Nat.mul_le_mul_right _ (by omega)
          split <;> split <;> omega

theorem dadd_comm (x y : Dbl) : dadd x y = dadd y x := by
  cases x <;> cases y <;> simp [dadd, Nat.add_comm]

theorem dadd_nan_left (x : Dbl) : dadd .nan x = .nan := by
  cases x <;> rfl

theorem dadd_nan_right (x : Dbl) : dadd x .nan = .nan := by
  cases x <;> rfl

theorem dlt_nan_left (x : Dbl) : dlt .nan x = false := by
  cases x <;> rfl

theorem dlt_nan_right (x : Dbl) : dlt x .nan = false := by
  cases x <;> rfl

theorem dlt_irrefl (x : Dbl) : dlt x x = false := by
  cases x <;> simp [dlt]

theorem dlt_asymm {x y : Dbl} (h : dlt x y = true) : dlt y x = false := by
  cases x <;> cases y <;> simp_all [dlt]
  omega

theorem dlt_trans {x y z : Dbl} (h1 : dlt x y = true) (h2 : dlt y z = true) :
    dlt x z = true := by
  cases x <;> cases y <;> cases z <;> simp_all [dlt]
  omega

theorem dlt_fin_fin (a b : Nat) : dlt (.fin a) (.fin b) = decide (a < b) := rfl

theorem rnd_cases (k : Nat) :
    (round53 k < 2 ^ 2098 ∧ rnd k = .fin (round53 k)) ∨ (2 ^ 2098 ≤ round53 k ∧ rnd k = .inf) := by
  unfold rnd
  by_cases h : round53 k < 2 ^ 2098
  · left
    exact ⟨h, if_pos h⟩
  · right
    exact ⟨Nat.le_of_not_lt h, if_neg h⟩

theorem rnd_ne_nan (k : Nat) : rnd k ≠ .nan := by
  rcases rnd_cases k with ⟨-, h⟩ | ⟨-, h⟩ <;> rw [h] <;> simp

/-- Rounding to a double is monotone. -/
theorem rnd_mono {a b : Nat} (h : a ≤ b) : dlt (rnd b) (rnd a) = false := by
  have hm := round53_mono h
  rcases rnd_cases a with ⟨ha, ea⟩ | ⟨ha, ea⟩ <;> rcases rnd_cases b with ⟨hb, eb⟩ | ⟨hb, eb⟩ <;>
    rw [ea, eb] <;> simp [dlt]
  · exact hm
  · omega

/-- When a sum with the same first operand is smaller, the second operand is smaller. -/
theorem lt_of_dadd_lt {h a b : Nat}
    (hlt : dlt (dadd (.fin h) (.fin a)) (dadd (.fin h) (.fin b)) = true) : a < b := by
  by_contra hc
  have : h + b ≤ h + a := by omega
  have := rnd_mono this
  simp only [dadd] at hlt
  rw [this] at hlt
  cases hlt

theorem dirs_cost {dir : Dbl × Coords} (hdir : dir ∈ dirs) : dir.1 = dOne ∨ dir.1 = d14 := by
  simp only [dirs, List.mem_cons, List.mem_singleton, List.not_mem_nil, or_false] at hdir
  rcases hdir with rfl | rfl | rfl | rfl | rfl | rfl | rfl | rfl <;> simp

set_option maxRecDepth 100000 in
theorem round53_cap : round53 (2 ^ 1128 + 2 ^ 1075) = 2 ^ 1128 := by decide!

theorem dOne_key_le : ∃ ck, dOne = .fin ck ∧ ck ≤ 2 ^ 1075 :=
  ⟨_, rfl, by decide!⟩

theorem d14_key_le : ∃ ck, d14 = .fin ck ∧ ck ≤ 2 ^ 1075 :=
  ⟨_, rfl, by decide!⟩

theorem pow_1128_lt : (2:Nat) ^ 1128 < 2 ^ 2098 := by decide!

/-- A cost of at most `2 ^ 54` stays so when a step cost is added. -/
theorem dadd_cost_bound {k : Nat} {c : Dbl} (hk : k ≤ 2 ^ 1128) (hc : c = dOne ∨ c = d14) :
    ∃ k', dadd (.fin k) c = .fin k' ∧ k' ≤ 2 ^ 1128 := by
  have hc' : ∃ ck, c = .fin ck ∧ ck ≤ 2 ^ 1075 := by
    rcases hc with rfl | rfl
    · exact dOne_key_le
    · exact d14_key_le
  obtain ⟨ck, rfl, hck⟩ := hc'
  have hm : round53 (k + ck) ≤ 2 ^ 1128 := by
    have := round53_mono (show k + ck ≤ 2 ^ 1128 + 2 ^ 1075 by omega)
    rw [round53_cap] at this
    exact this
  refine ⟨round53 (k + ck), ?_, hm⟩
  simp only [dadd, rnd]
  rw [if_pos]
  have := pow_1128_lt
  omega

theorem newton_upper (n g : Nat) (hg : 0 < g) :
    n < ((g + n / g) / 2 + 1) * ((g + n / g) / 2 + 1) := by
  have h1 : n < g * (n / g + 1) := by
    rw [Nat.mul_comm]
    exact (Nat.div_lt_iff_lt_mul hg).1 (Nat.lt_succ_self _)
  generalize n / g = m at h1
  have h2 : g + m ≤ 2 * ((g + m) / 2) + 1 := by omega
  generalize (g + m) / 2 = t at h2
  zify at h1 h2 ⊢
  nlinarith [sq_nonneg ((g : ℤ) - m - 1), sq_nonneg ((2 * t + 2 : ℤ) - (g + m + 1))]

theorem isqrtIter_spec (n : Nat) : ∀ (fuel g : Nat), g ≤ fuel → n < (g + 1) * (g + 1) →
    isqrtIter n fuel g * isqrtIter n fuel g ≤ n ∧
      n < (isqrtIter n fuel g + 1) * (isqrtIter n fuel g + 1) := by
  intro fuel
  induction fuel with
  | zero =>
    intro g hg hn
    have : g = 0 := by omega
    subst this
    simpa [isqrtIter] using hn
  | succ fuel ih =>
    intro g hg hn
    rw [isqrtIter]
    by_cases hg0 : g = 0
    · subst hg0
      simpa using hn
    · have hgpos : 0 < g := Nat.pos_of_ne_zero hg0
      split
      · rename_i hlt
        exact ih _ (by omega) (newton_upper n g hgpos)
      · rename_i hge
        refine ⟨?_, hn⟩
        have h1 : g ≤ n / g := by omega
        exact (Nat.le_div_iff_mul_le hgpos).1 h1

theorem isqrt_eq_sqrt (n : Nat) : isqrt n = Nat.sqrt n := by
  rw [Nat.eq_sqrt]
  unfold isqrt
  apply isqrtIter_spec n _ _ (le_refl _)
  have h1 : n < 2 ^ (ilog2 n + 1) := by
    rw [ilog2_eq]
    exact Nat.lt_log2_self
  have h2 : ilog2 n + 1 ≤ (ilog2 n / 2 + 1) + (ilog2 n / 2 + 1) := by omega
  have h3 := Nat.pow_le_pow_right (by decide : 0 < 2) h2
  rw [pow_add (2:Nat) (ilog2 n / 2 + 1)] at h3
  generalize 2 ^ (ilog2 n / 2 + 1) = G at h3 ⊢
  nlinarith

theorem isqrt_spec (n : Nat) : isqrt n * isqrt n ≤ n ∧ n < (isqrt n + 1) * (isqrt n + 1) := by
  rw [isqrt_eq_sqrt]
  exact ⟨Nat.sqrt_le n, Nat.lt_succ_sqrt n⟩

theorem wrap32_range (x : Int) : -(2 ^ 31) ≤ wrap32 x ∧ wrap32 x < 2 ^ 31 := by
  unfold wrap32
  omega

theorem wrap32_id {x : Int} (h1 : -(2 ^ 31) ≤ x) (h2 : x < 2 ^ 31) : wrap32 x = x := by
  unfold wrap32
  omega

theorem round53_pow77 : round53 (2 ^ 77) = 2 ^ 77 := by decide!

theorem pow_1090_lt : 2 ^ 77 * 2 ^ 1013 < (2 ^ 53 - 1) * 2 ^ 2045 := by decide!

theorem pow_1090_lt' : 2 ^ 77 * 2 ^ 1013 < 2 ^ 2098 := by decide!

/-- The square root of an `int32_t` is `NaN` or a finite double below `2 ^ 16 + 1`. -/
theorem sqrtInt_cases (n : Int) (hn : n < 2 ^ 31) :
    (n < 0 ∧ sqrtInt n = .nan) ∨ (0 ≤ n ∧ ∃ k, sqrtInt n = .fin k ∧ k ≤ 2 ^ 77 * 2 ^ 1013) := by
  unfold sqrtInt
  by_cases h : n < 0
  · left
    exact ⟨h, if_pos h⟩
  · right
    refine ⟨by omega, _, if_neg h, ?_⟩
    apply Nat.mul_le_mul_right
    rw [← round53_pow77]
    apply round53_mono
    have hN : n.toNat * 2 ^ 120 < 2 ^ 31 * 2 ^ 120 := by
      apply Nat.mul_lt_mul_of_pos_right _ (Nat.two_pow_pos _)
      omega
    obtain ⟨h1, -⟩ := isqrt_spec (n.toNat * 2 ^ 120)
    generalize isqrt (n.toNat * 2 ^ 120) = K at h1 ⊢
    generalize n.toNat * 2 ^ 120 = N at h1 hN ⊢
    have hK : K < 2 ^ 76 := by
      by_contra hc
      have h2 : 2 ^ 76 ≤ K := Nat.le_of_not_lt hc
      have h3 := Nat.mul_le_mul h2 h2
      have h4 : (2:Nat) ^ 31 * 2 ^ 120 < 2 ^ 76 * 2 ^ 76 := by norm_num
      omega
    split <;> omega

theorem calcHval_cases (tiles : TileLines) (co finish : Coords) :
    calcHval tiles co finish = .nan ∨
      ∃ k, calcHval tiles co finish = .fin k ∧ k ≤ 2 ^ 77 * 2 ^ 1013 := by
  unfold calcHval radicand
  rcases sqrtInt_cases _ (wrap32_range _).2 with ⟨-, h⟩ | ⟨-, h⟩
  · exact Or.inl h
  · exact Or.inr h

theorem calcHval_ne_dblMax (tiles : TileLines) (co finish : Coords) :
    calcHval tiles co finish ≠ dblMax := by
  rcases calcHval_cases tiles co finish with h | ⟨k, h, hk⟩
  · rw [h]
    unfold dblMax
    exact fun h => Dbl.noConfusion h
  · rw [h]
    unfold dblMax
    intro heq
    have := Dbl.fin.inj heq
    have := pow_1090_lt
    omega

theorem map_length_setTile (tiles : TileLines) (co : Coords) (t : Tile) :
    (setTile tiles co t).map List.length = tiles.map List.length := by
  unfold setTile
  split
  · split
    · rename_i row hrow
      apply List.ext_getElem?
      intro n
      simp only [List.getElem?_map, List.getElem?_set]
      split
      · rename_i hn
        subst hn
        split
        · simp [hrow]
        · rename_i hlen
          simp only [not_lt] at hlen
          rw [List.getElem?_eq_none hlen]
      · rfl
    · rfl
  · rfl

theorem length_setTile (tiles : TileLines) (co : Coords) (t : Tile) :
    (setTile tiles co t).length = tiles.length := by
  simpa using congrArg List.length (map_length_setTile tiles co t)

theorem lastCol_eq (tiles : TileLines) :
    lastCol tiles = (((tiles.map List.length).headD 0) + (2 ^ 64 - 1)) % 2 ^ 64 := by
  cases tiles <;> simp [lastCol]

theorem lastCol_setTile (tiles : TileLines) (co : Coords) (t : Tile) :
    lastCol (setTile tiles co t) = lastCol tiles := by
  rw [lastCol_eq, lastCol_eq, map_length_setTile]

theorem tileAt?_setTile (tiles : TileLines) (co : Coords) (t : Tile) (co' : Coords) :
    tileAt? (setTile tiles co t) co' =
      if co' = co then (tileAt? tiles co).map (fun _ => t) else tileAt? tiles co' := by
  by_cases hnn : 0 ≤ co.1 ∧ 0 ≤ co.2
  · cases hrow : tiles[co.1.toNat]? with
    | none =>
      have hs : setTile tiles co t = tiles := by simp [setTile, hnn, hrow]
      rw [hs]
      split
      · rename_i h; subst h; simp [tileAt?, hnn, hrow]
      · rfl
    | some row =>
      have hs : setTile tiles co t = tiles.set co.1.toNat (row.set co.2.toNat t) := by
        simp [setTile, hnn, hrow]
      rw [hs]
      have hlt : co.1.toNat < tiles.length := by
        by_contra hc
        rw [List.getElem?_eq_none (by omega)] at hrow
        cases hrow
      by_cases heq : co' = co
      · subst heq
        simp only [tileAt?, hnn, and_self, if_true, hrow, List.getElem?_set, hlt]
        by_cases hc : co'.2.toNat < row.length
        · simp [hc, List.getElem?_eq_getElem hc]
        · simp [hc, List.getElem?_eq_none (not_lt.1 hc)]
      · rw [if_neg heq]
        unfold tileAt?
        by_cases hnn' : 0 ≤ co'.1 ∧ 0 ≤ co'.2
        · simp only [hnn', and_self, if_true]
          by_cases h1 : co.1.toNat = co'.1.toNat
          · have h2 : co.2.toNat ≠ co'.2.toNat := by
              intro h2
              apply heq
              apply Prod.ext <;> omega
            rw [List.getElem?_set, if_pos h1, if_pos hlt]
            rw [← h1, hrow]
            simp only
            rw [List.getElem?_set, if_neg h2]
          · rw [List.getElem?_set, if_neg h1]
        · simp [hnn']
  · have hs : setTile tiles co t = tiles := by simp [setTile, hnn]
    rw [hs]
    split
    · rename_i h; subst h; simp [tileAt?, hnn]
    · rfl

theorem tileAt?_setTile_self (tiles : TileLines) (co : Coords) (t t0 : Tile)
    (h : tileAt? tiles co = some t0) : tileAt? (setTile tiles co t) co = some t := by
  simp [tileAt?_setTile, h]

theorem tileAt?_setTile_ne (tiles : TileLines) (co : Coords) (t : Tile) (co' : Coords)
    (h : co' ≠ co) : tileAt? (setTile tiles co t) co' = tileAt? tiles co' := by
  simp [tileAt?_setTile, h]

theorem isValidTile_iff (tiles : TileLines) (co : Coords) :
    isValidTile tiles co = true ↔
      0 ≤ co.1 ∧ co.1 < (tiles.length : Int) ∧ 0 ≤ co.2 ∧ co.2 < (lastCol tiles : Int) ∧
        ∃ t, tileAt? tiles co = some t ∧ t.data ≠ 'o' ∧ t.closed = false := by
  unfold isValidTile
  cases h : tileAt? tiles co with
  | none => simp
  | some t => simp [and_assoc]

theorem findInRow_none (c : Char) (i : Nat) (row : TileLine) (j : Nat) :
    findInRow c i j row = none ↔ ∀ t ∈ row, t.data ≠ c := by
  induction row generalizing j with
  | nil => simp [findInRow]
  | cons t ts ih =>
    by_cases h : t.data = c
    · simp [findInRow, h]
    · simp [findInRow, h, ih]

theorem findInRow_some (c : Char) (i : Nat) (row : TileLine) (j : Nat) (co : Coords) :
    findInRow c i j row = some co ↔
      ∃ k : Nat, co = ((i : Int), ((j + k : Nat) : Int)) ∧ (row[k]?).map (·.data) = some c ∧
        ∀ k', k' < k → (row[k']?).map (·.data) ≠ some c := by
  induction row generalizing j with
  | nil => simp [findInRow]
  | cons t ts ih =>
    by_cases h : t.data = c
    · simp only [findInRow, h, if_true, Option.some.injEq]
      constructor
      · intro e
        exact ⟨0, by simp [← e], by simp [h], by simp⟩
      · rintro ⟨k, e, hk, hlt⟩
        cases k with
        | zero => simp [e]
        | succ k => exact absurd (by simp [h]) (hlt 0 (Nat.succ_pos k))
    · simp only [findInRow, h, if_false, ih]
      constructor
      · rintro ⟨k, e, hk, hlt⟩
        refine ⟨k + 1, ?_, by simpa using hk, ?_⟩
        · rw [e]; congr 2; omega
        · intro k' hk'
          cases k' with
          | zero => simp [h]
          | succ k' => simpa using hlt k' (by omega)
      · rintro ⟨k, e, hk, hlt⟩
        cases k with
        | zero => simp [h] at hk
        | succ k =>
          refine ⟨k, ?_, by simpa using hk, ?_⟩
          · rw [e]; congr 2; omega
          · intro k' hk'
            simpa using hlt (k' + 1) (by omega)
theorem symbolAt_eq_cellSym (tiles : TileLines) (co : Coords) :
    symbolAt tiles co = if 0 ≤ co.1 ∧ 0 ≤ co.2 then cellSym tiles co.1.toNat co.2.toNat else none := by
  unfold symbolAt tileAt? cellSym
  split
  · cases tiles[co.1.toNat]? <;> simp
  · simp

theorem symbolAt_cast (tiles : TileLines) (r k : Nat) :
    symbolAt tiles ((r : Int), (k : Int)) = cellSym tiles r k := by
  simp [symbolAt_eq_cellSym]

theorem findFrom_none (c : Char) (tiles : TileLines) (i : Nat) :
    findFrom c i tiles = none ↔ ∀ r k, cellSym tiles r k ≠ some c := by
  induction tiles generalizing i with
  | nil => simp [findFrom, cellSym]
  | cons row rows ih =>
    simp only [findFrom]
    cases hrow : findInRow c i 0 row with
    | some co =>
      simp only [false_iff, reduceCtorEq]
      obtain ⟨k, -, hk, -⟩ := (findInRow_some c i row 0 co).1 hrow
      intro hall
      exact hall 0 k (by simpa [cellSym] using hk)
    | none =>
      simp only [ih]
      rw [findInRow_none] at hrow
      constructor
      · intro hall r k
        cases r with
        | zero =>
          simp only [cellSym, List.getElem?_cons_zero]
          intro hk
          cases hg : row[k]? with
          | none => simp [hg] at hk
          | some t =>
            simp only [hg, Option.map_some', Option.some.injEq] at hk
            exact hrow t (List.getElem?_mem hg) hk
        | succ r => simpa [cellSym] using hall r k
      · intro hall r k
        simpa [cellSym] using hall (r + 1) k

theorem findFrom_some (c : Char) (tiles : TileLines) (i : Nat) (co : Coords) :
    findFrom c i tiles = some co ↔
      ∃ r k : Nat, co = (((i + r : Nat) : Int), ((k : Nat) : Int)) ∧ cellSym tiles r k = some c ∧
        ∀ r' k', (r' < r ∨ (r' = r ∧ k' < k)) → cellSym tiles r' k' ≠ some c := by
  induction tiles generalizing i with
  | nil => simp [findFrom, cellSym]
  | cons row rows ih =>
    simp only [findFrom]
    cases hrow : findInRow c i 0 row with
    | some co0 =>
      simp only [Option.some.injEq]
      obtain ⟨k, e, hk, hlt⟩ := (findInRow_some c i row 0 co0).1 hrow
      constructor
      · intro e'
        subst e'
        refine ⟨0, k, by simpa using e, by simpa [cellSym] using hk, ?_⟩
        rintro r' k' (h | ⟨rfl, h⟩)
        · omega
        · simpa [cellSym] using hlt k' h
      · rintro ⟨r, k2, e2, hk2, hlt2⟩
        cases r with
        | zero =>
          have h1 : ¬ k < k2 := fun h => hlt2 0 k (Or.inr ⟨rfl, h⟩) (by simpa [cellSym] using hk)
          have h2 : ¬ k2 < k := fun h => hlt k2 h (by simpa [cellSym] using hk2)
          have : k = k2 := by omega
          subst this
          rw [e, e2]; simp
        | succ r =>
          exact absurd (by simpa [cellSym] using hk) (hlt2 0 k (Or.inl (Nat.succ_pos r)))
    | none =>
      simp only [ih]
      rw [findInRow_none] at hrow
      have hrow0 : ∀ k, cellSym (row :: rows) 0 k ≠ some c := by
        intro k hk
        simp only [cellSym, List.getElem?_cons_zero] at hk
        cases hg : row[k]? with
        | none => simp [hg] at hk
        | some t =>
          simp only [hg, Option.map_some', Option.some.injEq] at hk
          exact hrow t (List.getElem?_mem hg) hk
      constructor
      · rintro ⟨r, k, e, hk, hlt⟩
        refine ⟨r + 1, k, ?_, by simpa [cellSym] using hk, ?_⟩
        · rw [e]; congr 2; omega
        · rintro r' k' h
          cases r' with
          | zero => exact hrow0 k'
          | succ r' =>
            have := hlt r' k' (by omega)
            simpa [cellSym] using this
      · rintro ⟨r, k, e, hk, hlt⟩
        cases r with
        | zero => exact absurd hk (hrow0 k)
        | succ r =>
          refine ⟨r, k, ?_, by simpa [cellSym] using hk, ?_⟩
          · rw [e]; congr 2; omega
          · rintro r' k' h
            have := hlt (r' + 1) k' (by omega)
            simpa [cellSym] using this

theorem findFrom_zero_some (c : Char) (tiles : TileLines) (co : Coords) :
    findFrom c 0 tiles = some co ↔ IsFirst c tiles co := by
  rw [findFrom_some]
  constructor
  · rintro ⟨r, k, e, hk, hlt⟩
    subst e
    refine ⟨by simpa [symbolAt_cast] using hk, ?_⟩
    intro co' h
    rw [symbolAt_eq_cellSym]
    split
    · rename_i hnn
      apply hlt
      simp only [Nat.zero_add] at h
      omega
    · simp
  · rintro ⟨hk, hlt⟩
    rw [symbolAt_eq_cellSym] at hk
    split at hk
    · rename_i hnn
      refine ⟨co.1.toNat, co.2.toNat, ?_, hk, ?_⟩
      · apply Prod.ext <;> simp <;> omega
      · intro r' k' h
        have := hlt ((r' : Int), (k' : Int)) (by simp only; omega)
        simpa [symbolAt_cast] using this
    · simp at hk

theorem findFrom_zero_none (c : Char) (tiles : TileLines) :
    findFrom c 0 tiles = none ↔ Absent c tiles := by
  rw [findFrom_none]
  constructor
  · intro h co
    rw [symbolAt_eq_cellSym]
    split
    · exact h _ _
    · simp
  · intro h r k
    simpa [symbolAt_cast] using h ((r : Int), (k : Int))

theorem tileAt_of_some {tiles : TileLines} {co : Coords} {t : Tile}
    (h : tileAt? tiles co = some t) : tileAt tiles co = t := by
  simp [tileAt, h]

theorem tileAt?_nonneg {tiles : TileLines} {co : Coords} {t : Tile}
    (h : tileAt? tiles co = some t) : 0 ≤ co.1 ∧ 0 ≤ co.2 := by
  unfold tileAt? at h
  split at h
  · assumption
  · cases h

theorem ne_noParent_of_some {tiles : TileLines} {co : Coords} {t : Tile}
    (h : tileAt? tiles co = some t) : co ≠ noParent := by
  intro hc
  have := tileAt?_nonneg h
  rw [hc] at this
  simp [noParent] at this

theorem symbolAt_setTile (tiles : TileLines) (co : Coords) (t : Tile)
    (h : t.data = (tileAt tiles co).data) (co' : Coords) :
    symbolAt (setTile tiles co t) co' = symbolAt tiles co' := by
  unfold symbolAt
  rw [tileAt?_setTile]
  split
  · rename_i heq
    subst heq
    cases h2 : tileAt? tiles co' with
    | none => simp
    | some t0 => simp [tileAt, h2] at h; simp [h]
  · rfl

theorem tileAt_setTile_ne (tiles : TileLines) (co : Coords) (t : Tile) (co' : Coords)
    (h : co' ≠ co) : tileAt (setTile tiles co t) co' = tileAt tiles co' := by
  simp [tileAt, tileAt?_setTile_ne _ _ _ _ h]

theorem mem_setInsert (ol : OpenList) (e x : Entry) (h : x ∈ setInsert ol e) :
    x ∈ ol ∨ x = e := by
  induction ol with
  | nil => simp [setInsert] at h; exact Or.inr h
  | cons y ys ih =>
    simp only [setInsert] at h
    split at h
    · simp only [List.mem_cons] at h ⊢
      rcases h with h | h | h
      · exact Or.inr h
      · exact Or.inl (Or.inl h)
      · exact Or.inl (Or.inr h)
    · split at h
      · simp only [List.mem_cons] at h ⊢
        rcases h with h | h
        · exact Or.inl (Or.inl h)
        · rcases ih h with h | h
          · exact Or.inl (Or.inr h)
          · exact Or.inr h
      · exact Or.inl h

theorem isValidTile_some {tiles : TileLines} {co : Coords} (h : isValidTile tiles co = true) :
    ∃ t, tileAt? tiles co = some t ∧ t.data ≠ 'o' ∧ t.closed = false := by
  rw [isValidTile_iff] at h
  exact h.2.2.2.2

/-- Relaxing a valid neighbour of a closed origin keeps the invariant. -/
theorem relax_inv {tiles0 : TileLines} {start finish : Coords} {tiles : TileLines}
    {ol : OpenList} {o : Coords} {oriTile : Tile} {og : Nat} {dir : Dbl × Coords}
    {newCo : Coords}
    (hinv : Inv tiles0 start finish tiles ol)
    (ho : tileAt? tiles o = some oriTile) (hoc : oriTile.closed = true)
    (hog : oriTile.gval = .fin og) (hogb : og ≤ 2 ^ 1128)
    (hsc : (tileAt tiles start).closed = true)
    (hdir : dir ∈ dirs) (hn : newCo = (o.1 + dir.2.1, o.2 + dir.2.2))
    (hvalid : isValidTile tiles newCo = true)
    (ol' : OpenList) (hol' : ∀ e ∈ ol', e ∈ ol ∨ e.2 = newCo) :
    Inv tiles0 start finish
      (setTile tiles newCo { tileAt tiles newCo with
        hval := calcHval tiles newCo finish,
        gval := dadd oriTile.gval dir.1, parent := o }) ol' := by
  obtain ⟨nt, hnt, hndata, hnclosed⟩ := isValidTile_some hvalid
  have hncol : newCo.2 < (lastCol tiles : Int) := ((isValidTile_iff tiles newCo).1 hvalid).2.2.2.1
  have hnt' : tileAt tiles newCo = nt := tileAt_of_some hnt
  have hno : newCo ≠ o := by
    intro h
    rw [h, ho] at hnt
    cases hnt
    rw [hoc] at hnclosed
    cases hnclosed
  have hnstart : newCo ≠ start := by
    intro h
    rw [h] at hnt'
    rw [hnt', hnclosed] at hsc
    cases hsc
  have honp : o ≠ noParent := ne_noParent_of_some ho
  rw [hnt']
  constructor
  · intro co
    rw [symbolAt_setTile _ _ _ (by simp [hnt'])]
    exact hinv.symbols co
  · obtain ⟨t, ht, h1, h2, h3⟩ := hinv.start_tile
    exact ⟨t, by rw [tileAt?_setTile_ne _ _ _ _ (Ne.symm hnstart)]; exact ht, h1, h2, h3⟩
  · left
    rw [tileAt_setTile_ne _ _ _ _ (Ne.symm hnstart)]
    exact hsc
  · intro co t ht hp
    by_cases hco : co = newCo
    · subst hco
      rw [tileAt?_setTile_self _ _ _ _ hnt] at ht
      cases ht
      refine ⟨oriTile, ?_, hoc, ⟨dir, hdir, hn, rfl⟩, hndata, by simp [calcHval], ?_, ?_⟩
      · simp only
        rw [tileAt?_setTile_ne _ _ _ _ (Ne.symm hno)]
        exact ho
      · rw [lastCol_setTile]
        exact hncol
      · simp only
        rw [hog]
        exact dadd_cost_bound hogb (dirs_cost hdir)
    · rw [tileAt?_setTile_ne _ _ _ _ hco] at ht
      obtain ⟨p, hp1, hp2, hp4, hp5, hp6, hp7, hp8⟩ := hinv.link co t ht hp
      have hpn : t.parent ≠ newCo := by
        intro h
        rw [h, hnt] at hp1
        cases hp1
        rw [hp2] at hnclosed
        cases hnclosed
      exact ⟨p, by rw [tileAt?_setTile_ne _ _ _ _ hpn]; exact hp1, hp2, hp4, hp5,
        by simpa [calcHval] using hp6, by rw [lastCol_setTile]; exact hp7, hp8⟩
  · intro co t ht hp hcs
    by_cases hco : co = newCo
    · subst hco
      rw [tileAt?_setTile_self _ _ _ _ hnt] at ht
      cases ht
      exact absurd hp honp
    · rw [tileAt?_setTile_ne _ _ _ _ hco] at ht
      exact hinv.fresh co t ht hp hcs
  · intro e he
    by_cases hco : e.2 = newCo
    · rw [hco, tileAt?_setTile_self _ _ _ _ hnt]
      exact ⟨_, rfl, Or.inr honp⟩
    · rcases hol' e he with h | h
      · rw [tileAt?_setTile_ne _ _ _ _ hco]
        exact hinv.open_ok e h
      · exact absurd h hco

theorem sum_set_add (l : List Nat) (i : Nat) (a b : Nat) (h : l[i]? = some a) :
    (l.set i b).sum + a = l.sum + b := by
  induction l generalizing i with
  | nil => simp at h
  | cons x xs ih =>
    cases i with
    | zero => simp at h; subst h; simp; omega
    | succ i =>
      simp at h
      have := ih i h
      simp only [List.set_cons_succ, List.sum_cons]
      omega

theorem gridSum_setTile (f : Tile → Nat) (tiles : TileLines) (co : Coords) (t t0 : Tile)
    (h : tileAt? tiles co = some t0) :
    ((setTile tiles co t).map (fun row => (row.map f).sum)).sum + f t0 =
      (tiles.map (fun row => (row.map f).sum)).sum + f t := by
  have hnn := tileAt?_nonneg h
  unfold tileAt? at h
  rw [if_pos hnn] at h
  cases hrow : tiles[co.1.toNat]? with
  | none => simp [hrow] at h
  | some row =>
    simp only [hrow] at h
    have hs : setTile tiles co t = tiles.set co.1.toNat (row.set co.2.toNat t) := by
      simp [setTile, hnn, hrow]
    rw [hs, List.map_set]
    have h1 : ((row.set co.2.toNat t).map f).sum + f t0 = (row.map f).sum + f t := by
      rw [List.map_set]
      exact sum_set_add _ _ _ _ (by simp [h])
    have h2 := sum_set_add (tiles.map (fun row => (row.map f).sum)) co.1.toNat
      ((row.map f).sum) (((row.set co.2.toNat t).map f).sum) (by simp [hrow])
    omega

theorem deq_dblMax {x : Dbl} (h : deq x dblMax = true) : x = dblMax := by
  unfold dblMax at h ⊢
  cases x with
  | fin k =>
    simp only [deq, decide_eq_true_eq] at h
    rw [h]
  | inf => simp only [deq] at h; cases h
  | nan => simp only [deq] at h; cases h

theorem key_fin (k : Nat) : (Dbl.fin k).key = k := rfl

theorem pow_1128_lt_max : 2 ^ 1128 < (2 ^ 53 - 1) * 2 ^ 2045 := by decide!

/-- Relaxing a valid neighbour lowers the termination measure. -/
theorem relax_measure {tiles0 : TileLines} {start finish : Coords} {tiles : TileLines}
    {ol : OpenList} {oriTile : Tile} {og : Nat} {c : Dbl} {o newCo : Coords}
    (hinv : Inv tiles0 start finish tiles ol) (honp : o ≠ noParent)
    (hog : oriTile.gval = .fin og) (hogb : og ≤ 2 ^ 1128) (hc : c = dOne ∨ c = d14)
    (hsc : (tileAt tiles start).closed = true)
    (hvalid : isValidTile tiles newCo = true)
    (hrelax : relaxCond (calcHval tiles newCo finish) (dadd oriTile.gval c)
      (tileAt tiles newCo) = true) :
    MeasureLt
      (setTile tiles newCo { tileAt tiles newCo with
        hval := calcHval tiles newCo finish,
        gval := dadd oriTile.gval c, parent := o }) tiles := by
  obtain ⟨nt, hnt, hndata, hnclosed⟩ := isValidTile_some hvalid
  have hnt' : tileAt tiles newCo = nt := tileAt_of_some hnt
  have hnstart : newCo ≠ start := by
    intro h
    rw [h] at hnt'
    rw [hnt', hnclosed] at hsc
    cases hsc
  rw [hnt'] at hrelax ⊢
  obtain ⟨k2, hk2, -⟩ := dadd_cost_bound hogb hc
  rw [← hog] at hk2
  have hU := gridSum_setTile (fun t => if t.parent = noParent then 1 else 0) tiles newCo
    { nt with hval := calcHval tiles newCo finish,
              gval := dadd oriTile.gval c, parent := o } nt hnt
  have hG := gridSum_setTile (fun t => t.gval.key) tiles newCo
    { nt with hval := calcHval tiles newCo finish,
              gval := dadd oriTile.gval c, parent := o } nt hnt
  unfold MeasureLt unknownCount gvalSum
  dsimp only at hU hG ⊢
  simp only [hk2] at hU hG hrelax ⊢
  simp only [if_neg honp, key_fin] at hU hG
  by_cases hp : nt.parent = noParent
  · rw [if_pos hp] at hU
    left
    omega
  · obtain ⟨p, -, -, -, -, hh, -, k, hg, hkb⟩ := hinv.link newCo nt hnt hp
    rw [if_neg hp] at hU
    rw [hg, key_fin] at hG
    have h1 : deq (Dbl.fin k) dblMax = false := by
      cases hd : deq (Dbl.fin k) dblMax with
      | false => rfl
      | true =>
        have := deq_dblMax hd
        unfold dblMax at this
        have := Dbl.fin.inj this
        have := pow_1128_lt_max
        omega
    have h2 : deq (calcHval tiles newCo finish) dblMax = false := by
      cases hd : deq (calcHval tiles newCo finish) dblMax with
      | false => rfl
      | true => exact absurd (deq_dblMax hd) (calcHval_ne_dblMax _ _ _)
    unfold relaxCond Tile.fval at hrelax
    rw [hg, hh, h1, h2, Bool.or_false, Bool.or_false] at hrelax
    have hlt : k2 < k := by
      rcases calcHval_cases tiles newCo finish with hn | ⟨h, hn, -⟩
      · rw [hn, dadd_nan_left, dlt_nan_left] at hrelax
        cases hrelax
      · rw [hn, dadd_comm (.fin k) (.fin h)] at hrelax
        exact lt_of_dadd_lt hrelax
    right
    omega

theorem MeasureLt.trans {a b c : TileLines} (h1 : MeasureLt a b) (h2 : MeasureLt b c) :
    MeasureLt a c := by
  unfold MeasureLt at *
  omega

/-- What the loop of `astar` over the directions `ds` guarantees when it starts from
a state that satisfies the invariant, with a closed origin of known cost. -/
theorem astarLoop_spec {tiles0 : TileLines} {start finish o : Coords} {oriTile : Tile}
    {og : Nat} (hoc : oriTile.closed = true) (hog : oriTile.gval = .fin og)
    (hogb : og ≤ 2 ^ 1128) (ds : List (Dbl × Coords)) (hds : ∀ d ∈ ds, d ∈ dirs) :
    ∀ (tiles : TileLines) (ol : OpenList), Inv tiles0 start finish tiles ol →
      tileAt? tiles o = some oriTile → (tileAt tiles start).closed = true →
      ∀ (r : Option Coords) (tiles' : TileLines) (ol' : OpenList),
        astarLoop oriTile o finish ds tiles ol = (r, tiles', ol') →
        Inv tiles0 start finish tiles' ol' ∧ (tileAt tiles' start).closed = true ∧
          tileAt? tiles' o = some oriTile ∧
          (r = none → (tiles' = tiles ∧ ol' = ol) ∨ MeasureLt tiles' tiles) ∧
          (∀ c, r = some c → c = finish ∧
            ∃ dir ∈ ds, finish = (o.1 + dir.2.1, o.2 + dir.2.2) ∧
              ∃ t, tileAt? tiles' finish = some t ∧ t.parent = o) := by
  induction ds with
  | nil =>
    intro tiles ol hinv ho hsc r tiles' ol' h
    simp only [astarLoop, Prod.mk.injEq] at h
    obtain ⟨rfl, rfl, rfl⟩ := h
    exact ⟨hinv, hsc, ho, fun _ => Or.inl ⟨rfl, rfl⟩, fun c hc => by cases hc⟩
  | cons dir rest ih =>
    have hrest : ∀ d ∈ rest, d ∈ dirs := fun d hd => hds d (List.mem_cons_of_mem _ hd)
    have hdir : dir ∈ dirs := hds dir (List.mem_cons_self _ _)
    intro tiles ol hinv ho hsc r tiles' ol' h
    simp only [astarLoop] at h
    split at h
    · -- invalid neighbour
      obtain ⟨h1, h2, h3, h4, h5⟩ := ih hrest tiles ol hinv ho hsc r tiles' ol' h
      refine ⟨h1, h2, h3, h4, ?_⟩
      intro c hc
      obtain ⟨hcf, d, hd, hrem⟩ := h5 c hc
      exact ⟨hcf, d, List.mem_cons_of_mem _ hd, hrem⟩
    · rename_i hvalidn
      have hvalid : isValidTile tiles (o.1 + dir.2.1, o.2 + dir.2.2) = true := by
        simpa using hvalidn
      obtain ⟨nt, hnt, -, hnclosed⟩ := isValidTile_some hvalid
      have hno : (o.1 + dir.2.1, o.2 + dir.2.2) ≠ o := by
        intro hc
        rw [hc, ho] at hnt
        cases hnt
        rw [hoc] at hnclosed
        cases hnclosed
      have hnstart : (o.1 + dir.2.1, o.2 + dir.2.2) ≠ start := by
        intro hc
        rw [hc] at hnt
        rw [tileAt_of_some hnt, hnclosed] at hsc
        cases hsc
      split at h
      · rename_i hrelax
        have hm := relax_measure (o := o) hinv (ne_noParent_of_some ho) hog hogb
          (dirs_cost hdir) hsc hvalid hrelax
        have ho1 := (tileAt?_setTile_ne tiles (o.1 + dir.2.1, o.2 + dir.2.2)
          { tileAt tiles (o.1 + dir.2.1, o.2 + dir.2.2) with
            hval := calcHval tiles (o.1 + dir.2.1, o.2 + dir.2.2) finish,
            gval := dadd oriTile.gval dir.1, parent := o } o (Ne.symm hno)).trans ho
        have hsc1 : (tileAt (setTile tiles (o.1 + dir.2.1, o.2 + dir.2.2)
          { tileAt tiles (o.1 + dir.2.1, o.2 + dir.2.2) with
            hval := calcHval tiles (o.1 + dir.2.1, o.2 + dir.2.2) finish,
            gval := dadd oriTile.gval dir.1, parent := o }) start).closed = true := by
          rw [tileAt_setTile_ne _ _ _ _ (Ne.symm hnstart)]
          exact hsc
        split at h
        · -- the neighbour is the finish
          rename_i hfin
          simp only [Prod.mk.injEq] at h
          obtain ⟨rfl, rfl, rfl⟩ := h
          have hinv1 := relax_inv hinv ho hoc hog hogb hsc hdir rfl hvalid ol
            (fun e he => Or.inl he)
          refine ⟨hinv1, hsc1, ho1, (fun hc => by cases hc), ?_⟩
          intro c hc
          cases hc
          have hcf : (o.1 + dir.2.1, o.2 + dir.2.2) = finish := Prod.ext hfin.1 hfin.2
          refine ⟨hcf, dir, List.mem_cons_self _ _, hcf.symm, ?_⟩
          rw [← hcf, tileAt?_setTile_self _ _ _ _ hnt]
          exact ⟨_, rfl, rfl⟩
        · have hinv1 := relax_inv hinv ho hoc hog hogb hsc hdir rfl hvalid
            (setInsert ol (dadd (calcHval tiles (o.1 + dir.2.1, o.2 + dir.2.2) finish)
              (dadd oriTile.gval dir.1), (o.1 + dir.2.1, o.2 + dir.2.2)))
            (fun e he => by
              rcases mem_setInsert _ _ _ he with h' | h'
              · exact Or.inl h'
              · exact Or.inr (by rw [h']))
          obtain ⟨h1, h2, h3, h4, h5⟩ := ih hrest _ _ hinv1 ho1 hsc1 r tiles' ol' h
          refine ⟨h1, h2, h3, ?_, ?_⟩
          · intro hr
            rcases h4 hr with ⟨e1, -⟩ | hlt
            · right; rw [e1]; exact hm
            · right; exact hlt.trans hm
          · intro c hc
            obtain ⟨hcf, d, hd, hrem⟩ := h5 c hc
            exact ⟨hcf, d, List.mem_cons_of_mem _ hd, hrem⟩
      · obtain ⟨h1, h2, h3, h4, h5⟩ := ih hrest tiles ol hinv ho hsc r tiles' ol' h
        refine ⟨h1, h2, h3, h4, ?_⟩
        intro c hc
        obtain ⟨hcf, d, hd, hrem⟩ := h5 c hc
        exact ⟨hcf, d, List.mem_cons_of_mem _ hd, hrem⟩

theorem tileAt?_closeTile (tiles : TileLines) (co x : Coords) :
    tileAt? (closeTile tiles co) x =
      (tileAt? tiles x).map (fun t => if x = co then { t with closed := true } else t) := by
  unfold closeTile
  rw [tileAt?_setTile]
  split
  · rename_i h
    subst h
    cases h2 : tileAt? tiles x with
    | none => simp
    | some t => simp [tileAt, h2]
  · cases tileAt? tiles x <;> simp

theorem list_set_same {α : Type} (l : List α) (i : Nat) (a : α) (h : l[i]? = some a) :
    l.set i a = l := by
  induction l generalizing i with
  | nil => rfl
  | cons x xs ih =>
    cases i with
    | zero => simp at h; simp [h]
    | succ i => simp at h; simp [ih i h]

theorem setTile_of_none (tiles : TileLines) (co : Coords) (t : Tile)
    (h : tileAt? tiles co = none) : setTile tiles co t = tiles := by
  unfold setTile
  unfold tileAt? at h
  split
  · rename_i hnn
    rw [if_pos hnn] at h
    cases hrow : tiles[co.1.toNat]? with
    | none => rfl
    | some row =>
      simp only [hrow] at h
      simp only
      rw [List.set_eq_of_length_le (l := row) (List.getElem?_eq_none_iff.1 h)]
      exact list_set_same _ _ _ hrow
  · rfl

theorem closeTile_measure (tiles : TileLines) (co : Coords) :
    unknownCount (closeTile tiles co) = unknownCount tiles ∧
      gvalSum (closeTile tiles co) = gvalSum tiles := by
  cases h : tileAt? tiles co with
  | none =>
    have : closeTile tiles co = tiles := setTile_of_none _ _ _ h
    rw [this]
    exact ⟨rfl, rfl⟩
  | some t =>
    have hU := gridSum_setTile (fun t => if t.parent = noParent then 1 else 0) tiles co
      { t with closed := true } t h
    have hG := gridSum_setTile (fun t => t.gval.key) tiles co
      { t with closed := true } t h
    unfold unknownCount gvalSum closeTile
    rw [tileAt_of_some h]
    dsimp only at hU hG ⊢
    omega

/-- Closing the coordinate of the first frontier entry keeps the invariant and
makes that tile a closed origin of known cost. -/
theorem close_inv {tiles0 : TileLines} {start finish : Coords} {tiles : TileLines}
    {p : Dbl} {co : Coords} {rest : OpenList}
    (hinv : Inv tiles0 start finish tiles ((p, co) :: rest)) :
    Inv tiles0 start finish (closeTile tiles co) rest ∧
      (tileAt (closeTile tiles co) start).closed = true ∧
      ∃ oriTile og, tileAt? (closeTile tiles co) co = some oriTile ∧
        oriTile.closed = true ∧ oriTile.gval = .fin og ∧ og ≤ 2 ^ 1128 ∧
        oriTile.data ≠ 'o' := by
  obtain ⟨ct, hct, hcp⟩ := hinv.open_ok (p, co) (List.mem_cons_self _ _)
  simp only at hct hcp
  obtain ⟨st, hst, hsp, hsg, hsh, hsd⟩ := hinv.start_tile
  have hsc : (tileAt (closeTile tiles co) start).closed = true := by
    rcases hinv.start_closed with h | h
    · rw [tileAt_of_some hst] at h
      unfold tileAt
      rw [tileAt?_closeTile, hst]
      simp only [Option.map_some', Option.getD_some]
      split <;> simp [h]
    · simp only [List.cons.injEq, Prod.mk.injEq] at h
      unfold tileAt
      rw [tileAt?_closeTile, hst]
      simp [h.1.2]
  refine ⟨?_, hsc, ?_⟩
  · constructor
    · intro x
      exact (symbolAt_setTile tiles co { tileAt tiles co with closed := true } rfl x).trans
        (hinv.symbols x)
    · refine ⟨if start = co then { st with closed := true } else st, ?_, ?_, ?_, ?_, ?_⟩
      · rw [tileAt?_closeTile, hst]; rfl
      · split <;> exact hsp
      · split <;> exact hsg
      · split <;> exact hsh
      · split <;> exact hsd
    · exact Or.inl hsc
    · intro x t ht hp
      rw [tileAt?_closeTile] at ht
      cases hx : tileAt? tiles x with
      | none => simp [hx] at ht
      | some t0 =>
        simp only [hx, Option.map_some', Option.some.injEq] at ht
        have hpar : t.parent = t0.parent := by rw [← ht]; split <;> rfl
        have hg : t.gval = t0.gval := by rw [← ht]; split <;> rfl
        have hh : t.hval = t0.hval := by rw [← ht]; split <;> rfl
        have hd : t.data = t0.data := by rw [← ht]; split <;> rfl
        rw [hpar] at hp
        obtain ⟨q, hq1, hq2, ⟨d, hd1, hd2, hd3⟩, hq5, hq6, hq7, hq8⟩ := hinv.link x t0 hx hp
        refine ⟨if t0.parent = co then { q with closed := true } else q, ?_, ?_, ?_,
          ?_, ?_, ?_, ?_⟩
        · rw [hpar, tileAt?_closeTile, hq1]; rfl
        · split
          · rfl
          · exact hq2
        · refine ⟨d, hd1, by rw [hpar]; exact hd2, ?_⟩
          rw [hg, hd3]
          split <;> rfl
        · rw [hd]; exact hq5
        · rw [hh]; simpa [calcHval] using hq6
        · unfold closeTile
          rw [lastCol_setTile]
          exact hq7
        · rw [hg]; exact hq8
    · intro x t ht hp hxs
      rw [tileAt?_closeTile] at ht
      cases hx : tileAt? tiles x with
      | none => simp [hx] at ht
      | some t0 =>
        simp only [hx, Option.map_some', Option.some.injEq] at ht
        by_cases hxc : x = co
        · subst hxc
          rw [hct] at hx
          cases hx
          rw [if_pos rfl] at ht
          rw [← ht] at hp
          rcases hcp with h | h
          · exact absurd h hxs
          · exact absurd hp h
        · rw [if_neg hxc] at ht
          subst ht
          exact hinv.fresh x t0 hx hp hxs
    · intro e he
      obtain ⟨t, ht, hor⟩ := hinv.open_ok e (List.mem_cons_of_mem _ he)
      refine ⟨if e.2 = co then { t with closed := true } else t, ?_, ?_⟩
      · rw [tileAt?_closeTile, ht]; rfl
      · rcases hor with h | h
        · exact Or.inl h
        · right; split <;> exact h
  · have hg : ∃ og, ct.gval = .fin og ∧ og ≤ 2 ^ 1128 ∧ ct.data ≠ 'o' := by
      rcases hcp with h | h
      · rw [h, hst] at hct
        cases hct
        exact ⟨0, hsg, Nat.zero_le _, hsd⟩
      · obtain ⟨q, -, -, -, hq5, -, -, k, hk, hkb⟩ := hinv.link co ct hct h
        exact ⟨k, hk, hkb, hq5⟩
    obtain ⟨og, hog, hogb, hod⟩ := hg
    refine ⟨{ ct with closed := true }, og, ?_, rfl, hog, hogb, hod⟩
    rw [tileAt?_closeTile, hct]
    simp

theorem createTilesLoop_ok (lines : List String) :
    ∀ (acc tiles : TileLines), createTilesLoop lines acc = .ok tiles →
      tiles = acc ++ mkGrid lines := by
  induction lines with
  | nil =>
    intro acc tiles h
    simp only [createTilesLoop, Except.ok.injEq] at h
    simp [mkGrid, h]
  | cons line rest ih =>
    intro acc tiles h
    simp only [createTilesLoop] at h
    split at h
    · cases h
    · rw [ih _ _ h]
      simp [mkGrid]

theorem createTiles_ok {lines : List String} {tiles : TileLines}
    (h : createTiles lines = .ok tiles) : tiles = mkGrid lines := by
  simpa using createTilesLoop_ok lines [] tiles h

theorem mkGrid_fresh (lines : List String) (co : Coords) (t : Tile)
    (h : tileAt? (mkGrid lines) co = some t) : t = Tile.new t.data := by
  unfold tileAt? at h
  split at h
  · cases hrow : (mkGrid lines)[co.1.toNat]? with
    | none => simp [hrow] at h
    | some row =>
      simp only [hrow] at h
      have hmem : row ∈ mkGrid lines := List.getElem?_mem hrow
      simp only [mkGrid, List.mem_map] at hmem
      obtain ⟨l, -, rfl⟩ := hmem
      have := List.getElem?_mem h
      simp only [List.mem_map] at this
      obtain ⟨c, -, rfl⟩ := this
      rfl
  · cases h

theorem findStart_ok_iff (tiles : TileLines) (co : Coords) :
    findStart tiles = .ok co ↔ IsFirst 'S' tiles co := by
  rw [← findFrom_zero_some]
  unfold findStart
  cases findFrom 'S' 0 tiles <;> simp

theorem findFinish_ok_iff (tiles : TileLines) (co : Coords) :
    findFinish tiles = .ok co ↔ IsFirst 'F' tiles co := by
  rw [← findFrom_zero_some]
  unfold findFinish
  cases findFrom 'F' 0 tiles <;> simp

theorem symbolAt_initTiles (tiles : TileLines) (start co : Coords) :
    symbolAt (initTiles tiles start) co = symbolAt tiles co :=
  symbolAt_setTile tiles start { tileAt tiles start with hval := dZero, gval := dZero } rfl co

theorem findFinish_initTiles (tiles : TileLines) (start : Coords) :
    findFinish (initTiles tiles start) = findFinish tiles := by
  cases h : findFinish tiles with
  | ok co =>
    rw [findFinish_ok_iff] at h ⊢
    unfold IsFirst at *
    simpa only [symbolAt_initTiles] using h
  | error e =>
    cases h2 : findFinish (initTiles tiles start) with
    | ok co =>
      rw [findFinish_ok_iff] at h2
      unfold IsFirst at h2
      simp only [symbolAt_initTiles] at h2
      have := (findFinish_ok_iff tiles co).2 h2
      rw [h] at this
      cases this
    | error e2 =>
      unfold findFinish at h h2
      split at h
      · cases h
      · split at h2
        · cases h2
        · rw [← h, ← h2]

/-- The state in which `main` enters its loop satisfies the invariant. -/
theorem inv_init {lines : List String} {tiles0 : TileLines} {start : Coords}
    (finish : Coords)
    (hload : createTiles lines = .ok tiles0) (hstart : findStart tiles0 = .ok start) :
    Inv tiles0 start finish (initTiles tiles0 start) (initOpen start) := by
  have hfresh : ∀ co t, tileAt? tiles0 co = some t → t = Tile.new t.data := by
    rw [createTiles_ok hload]
    exact mkGrid_fresh lines
  rw [findStart_ok_iff] at hstart
  have hS := hstart.1
  unfold symbolAt at hS
  cases hst : tileAt? tiles0 start with
  | none => simp [hst] at hS
  | some st =>
    simp only [hst, Option.map_some', Option.some.injEq] at hS
    have hstf := hfresh start st hst
    have hst' : tileAt tiles0 start = st := tileAt_of_some hst
    have hat : ∀ co t, tileAt? (initTiles tiles0 start) co = some t →
        (co = start ∧ t = { st with hval := dZero, gval := dZero }) ∨
          (co ≠ start ∧ tileAt? tiles0 co = some t) := by
      intro co t ht
      unfold initTiles at ht
      rw [tileAt?_setTile, hst'] at ht
      split at ht
      · rename_i h
        simp only [hst, Option.map_some', Option.some.injEq] at ht
        exact Or.inl ⟨h, ht.symm⟩
      · rename_i h
        exact Or.inr ⟨h, ht⟩
    have hsat : tileAt? (initTiles tiles0 start) start =
        some { st with hval := dZero, gval := dZero } := by
      unfold initTiles
      rw [hst', tileAt?_setTile_self _ _ _ _ hst]
    constructor
    · exact symbolAt_initTiles tiles0 start
    · refine ⟨_, hsat, ?_, rfl, rfl, ?_⟩
      · simp only; rw [hstf]; rfl
      · simp only; rw [hS]; decide
    · right; rfl
    · intro co t ht hp
      exfalso
      apply hp
      rcases hat co t ht with ⟨-, rfl⟩ | ⟨-, h⟩
      · simp only; rw [hstf]; rfl
      · rw [hfresh co t h]; rfl
    · intro co t ht _ hcs
      rcases hat co t ht with ⟨h, -⟩ | ⟨-, h⟩
      · exact absurd h hcs
      · rw [hfresh co t h]
        exact ⟨rfl, rfl, rfl⟩
    · intro e he
      simp only [initOpen, setInsert, List.mem_singleton] at he
      subst he
      exact ⟨_, hsat, Or.inl rfl⟩

/-- One iteration of the loop of `main` keeps the invariant; when it returns no
result either the tile measure drops or the frontier gets shorter; when it returns
a result this is the finish, reached from the popped coordinate. -/
theorem step_inv {tiles0 : TileLines} {start finish : Coords} {tiles : TileLines}
    {p : Dbl} {co : Coords} {rest : OpenList} {r : Option Coords} {tiles' : TileLines}
    {ol' : OpenList}
    (hinv : Inv tiles0 start finish tiles ((p, co) :: rest))
    (h : astar (closeTile tiles co) rest co finish = (r, tiles', ol')) :
    Inv tiles0 start finish tiles' ol' ∧
      (r = none → MeasureLt tiles' tiles ∨
        (unknownCount tiles' = unknownCount tiles ∧ gvalSum tiles' = gvalSum tiles ∧
          ol'.length < ((p, co) :: rest).length)) ∧
      (∀ c, r = some c → c = finish ∧
        ∃ dir ∈ dirs, finish = (co.1 + dir.2.1, co.2 + dir.2.2) ∧
          ∃ t, tileAt? tiles' finish = some t ∧ t.parent = co ∧ t.parent ≠ noParent) := by
  obtain ⟨hinv1, hsc, oriTile, og, ho, hoc, hog, hogb, -⟩ := close_inv hinv
  unfold astar at h
  rw [tileAt_of_some ho] at h
  obtain ⟨h1, -, h3, h4, h5⟩ := astarLoop_spec hoc hog hogb dirs (fun _ hd => hd) _ _ hinv1 ho hsc
    r tiles' ol' h
  obtain ⟨hU, hG⟩ := closeTile_measure tiles co
  refine ⟨h1, ?_, ?_⟩
  swap
  · intro c hc
    obtain ⟨hcf, dir, hd, hfin, t, ht, hpar⟩ := h5 c hc
    exact ⟨hcf, dir, hd, hfin, t, ht, hpar, hpar ▸ ne_noParent_of_some h3⟩
  intro hr
  rcases h4 hr with ⟨e1, e2⟩ | hlt
  · right
    rw [e1, e2]
    exact ⟨hU, hG, by simp⟩
  · left
    unfold MeasureLt at *
    omega

/-- The loop of `main` stops: enough fuel gives a result. -/
theorem searchLoop_terminates_aux (tiles0 : TileLines) (start finish : Coords) :
    ∀ (m : Nat × Nat × Nat) (tiles : TileLines) (ol : OpenList),
      (unknownCount tiles, gvalSum tiles, ol.length) = m → Inv tiles0 start finish tiles ol →
      ∃ fuel res, searchLoop finish fuel tiles ol = some res := by
  intro m
  have hwf : WellFounded (Prod.Lex (· < ·) (Prod.Lex (· < ·) (· < ·)) :
      Nat × Nat × Nat → Nat × Nat × Nat → Prop) :=
    WellFounded.prod_lex wellFounded_lt (WellFounded.prod_lex wellFounded_lt wellFounded_lt)
  refine hwf.induction (C := fun m => ∀ (tiles : TileLines) (ol : OpenList),
      (unknownCount tiles, gvalSum tiles, ol.length) = m → Inv tiles0 start finish tiles ol →
      ∃ fuel res, searchLoop finish fuel tiles ol = some res) m ?_
  intro x ih tiles ol hx hinv
  cases ol with
  | nil => exact ⟨0, (none, tiles, []), by simp [searchLoop]⟩
  | cons e rest =>
    obtain ⟨p, co⟩ := e
    rcases hres : astar (closeTile tiles co) rest co finish with ⟨r, tiles', ol'⟩
    obtain ⟨hinv', hm, -⟩ := step_inv hinv hres
    cases r with
    | some c =>
      exact ⟨1, (some c, tiles', ol'), by simp [searchLoop, hres]⟩
    | none =>
      have hlt : Prod.Lex (· < ·) (Prod.Lex (· < ·) (· < ·))
          (unknownCount tiles', gvalSum tiles', ol'.length) x := by
        rw [← hx]
        rcases hm rfl with h | ⟨h1, h2, h3⟩
        · rcases h with h | ⟨h1, h2⟩
          · exact Prod.Lex.left _ _ h
          · rw [h1]
            exact Prod.Lex.right _ (Prod.Lex.left _ _ h2)
        · rw [h1, h2]
          exact Prod.Lex.right _ (Prod.Lex.right _ h3)
      obtain ⟨fuel, res, hf⟩ := ih _ hlt tiles' ol' rfl hinv'
      exact ⟨fuel + 1, res, by simp [searchLoop, hres, hf]⟩

theorem orth_step (p d : Coords)
    (hd : d = (-1, 0) ∨ d = (0, -1) ∨ d = (0, 1) ∨ d = (1, 0)) :
    adjacent (p.1 + d.1, p.2 + d.2) p ∧ adjacent p (p.1 + d.1, p.2 + d.2) ∧
      stepCostD (p.1 + d.1, p.2 + d.2) p = dOne ∧ stepCostD p (p.1 + d.1, p.2 + d.2) = dOne ∧
      stepCost (p.1 + d.1, p.2 + d.2) p = 10 ∧ stepCost p (p.1 + d.1, p.2 + d.2) = 10 := by
  rcases hd with rfl | rfl | rfl | rfl <;>
    simp [adjacent, stepCost, stepCostD, Prod.ext_iff]

theorem diag_step (p d : Coords)
    (hd : d = (-1, -1) ∨ d = (-1, 1) ∨ d = (1, -1) ∨ d = (1, 1)) :
    adjacent (p.1 + d.1, p.2 + d.2) p ∧ adjacent p (p.1 + d.1, p.2 + d.2) ∧
      stepCostD (p.1 + d.1, p.2 + d.2) p = d14 ∧ stepCostD p (p.1 + d.1, p.2 + d.2) = d14 ∧
      stepCost (p.1 + d.1, p.2 + d.2) p = 14 ∧ stepCost p (p.1 + d.1, p.2 + d.2) = 14 := by
  rcases hd with rfl | rfl | rfl | rfl <;>
    simp [adjacent, stepCost, stepCostD, Prod.ext_iff]

/-- Every entry of the direction table is a step to an 8-neighbour, with the cost
of that step. -/
theorem dirs_step {dir : Dbl × Coords} (hdir : dir ∈ dirs) (p : Coords) :
    adjacent (p.1 + dir.2.1, p.2 + dir.2.2) p ∧ adjacent p (p.1 + dir.2.1, p.2 + dir.2.2) ∧
      stepCostD (p.1 + dir.2.1, p.2 + dir.2.2) p = dir.1 ∧
      stepCostD p (p.1 + dir.2.1, p.2 + dir.2.2) = dir.1 ∧
      ((dir.1 = dOne ∧ stepCost (p.1 + dir.2.1, p.2 + dir.2.2) p = 10 ∧
          stepCost p (p.1 + dir.2.1, p.2 + dir.2.2) = 10) ∨
        (dir.1 = d14 ∧ stepCost (p.1 + dir.2.1, p.2 + dir.2.2) p = 14 ∧
          stepCost p (p.1 + dir.2.1, p.2 + dir.2.2) = 14)) := by
  simp only [dirs, List.mem_cons, List.mem_singleton, List.not_mem_nil, or_false] at hdir
  have ho := fun d h => orth_step p d h
  have hd := fun d h => diag_step p d h
  rcases hdir with rfl | rfl | rfl | rfl | rfl | rfl | rfl | rfl
  · obtain ⟨h1, h2, h3, h4, h5, h6⟩ := hd (-1, -1) (by simp)
    exact ⟨h1, h2, h3, h4, Or.inr ⟨rfl, h5, h6⟩⟩
  · obtain ⟨h1, h2, h3, h4, h5, h6⟩ := ho (-1, 0) (by simp)
    exact ⟨h1, h2, h3, h4, Or.inl ⟨rfl, h5, h6⟩⟩
  · obtain ⟨h1, h2, h3, h4, h5, h6⟩ := hd (-1, 1) (by simp)
    exact ⟨h1, h2, h3, h4, Or.inr ⟨rfl, h5, h6⟩⟩
  · obtain ⟨h1, h2, h3, h4, h5, h6⟩ := ho (0, -1) (by simp)
    exact ⟨h1, h2, h3, h4, Or.inl ⟨rfl, h5, h6⟩⟩
  · obtain ⟨h1, h2, h3, h4, h5, h6⟩ := ho (0, 1) (by simp)
    exact ⟨h1, h2, h3, h4, Or.inl ⟨rfl, h5, h6⟩⟩
  · obtain ⟨h1, h2, h3, h4, h5, h6⟩ := hd (1, -1) (by simp)
    exact ⟨h1, h2, h3, h4, Or.inr ⟨rfl, h5, h6⟩⟩
  · obtain ⟨h1, h2, h3, h4, h5, h6⟩ := ho (1, 0) (by simp)
    exact ⟨h1, h2, h3, h4, Or.inl ⟨rfl, h5, h6⟩⟩
  · obtain ⟨h1, h2, h3, h4, h5, h6⟩ := hd (1, 1) (by simp)
    exact ⟨h1, h2, h3, h4, Or.inr ⟨rfl, h5, h6⟩⟩

/-- The loop of `main`, when it stops, leaves a state that satisfies the invariant;
without a result the frontier is empty, and a result is the finish, whose tile then
has a parent. -/
theorem searchLoop_inv {tiles0 : TileLines} {start finish : Coords} (fuel : Nat) :
    ∀ (tiles : TileLines) (ol : OpenList) (r : Option Coords) (tiles' : TileLines)
      (ol' : OpenList), Inv tiles0 start finish tiles ol →
      searchLoop finish fuel tiles ol = some (r, tiles', ol') →
      Inv tiles0 start finish tiles' ol' ∧ (r = none → ol' = []) ∧
        (∀ c, r = some c → c = finish ∧ ∃ o, ∃ dir ∈ dirs,
          finish = (o.1 + dir.2.1, o.2 + dir.2.2) ∧
            ∃ t, tileAt? tiles' finish = some t ∧ t.parent = o ∧ t.parent ≠ noParent) := by
  induction fuel with
  | zero =>
    intro tiles ol r tiles' ol' hinv h
    cases ol with
    | nil =>
      simp only [searchLoop, Option.some.injEq, Prod.mk.injEq] at h
      obtain ⟨rfl, rfl, rfl⟩ := h
      exact ⟨hinv, fun _ => rfl, fun c hc => by cases hc⟩
    | cons e rest => simp [searchLoop] at h
  | succ fuel ih =>
    intro tiles ol r tiles' ol' hinv h
    cases ol with
    | nil =>
      simp only [searchLoop, Option.some.injEq, Prod.mk.injEq] at h
      obtain ⟨rfl, rfl, rfl⟩ := h
      exact ⟨hinv, fun _ => rfl, fun c hc => by cases hc⟩
    | cons e rest =>
      obtain ⟨p, co⟩ := e
      rcases hres : astar (closeTile tiles co) rest co finish with ⟨r1, tiles1, ol1⟩
      obtain ⟨hinv1, -, hfound⟩ := step_inv hinv hres
      simp only [searchLoop, hres] at h
      cases r1 with
      | some c =>
        simp only [Option.some.injEq, Prod.mk.injEq] at h
        obtain ⟨rfl, rfl, rfl⟩ := h
        refine ⟨hinv1, (fun hc => by cases hc), ?_⟩
        intro c' hc'
        obtain ⟨h1, dir, hd, h2, h3⟩ := hfound c' hc'
        exact ⟨h1, co, dir, hd, h2, h3⟩
      | none =>
        exact ih tiles1 ol1 r tiles' ol' hinv1 h

theorem searchLoop_mono {finish : Coords} (fuel : Nat) :
    ∀ (tiles : TileLines) (ol : OpenList) (res : LoopState),
      searchLoop finish fuel tiles ol = some res →
      ∀ fuel', fuel ≤ fuel' → searchLoop finish fuel' tiles ol = some res := by
  induction fuel with
  | zero =>
    intro tiles ol res h fuel' _
    cases ol with
    | nil =>
      cases fuel' <;> simpa [searchLoop] using h
    | cons e rest => simp [searchLoop] at h
  | succ fuel ih =>
    intro tiles ol res h fuel' hle
    cases ol with
    | nil => cases fuel' <;> simpa [searchLoop] using h
    | cons e rest =>
      obtain ⟨p, co⟩ := e
      cases fuel' with
      | zero => omega
      | succ fuel' =>
        simp only [searchLoop] at h ⊢
        rcases hres : astar (closeTile tiles co) rest co finish with ⟨r1, tiles1, ol1⟩
        rw [hres] at h
        cases r1 with
        | some c => exact h
        | none => exact ih _ _ _ h fuel' (by omega)

/-- Every loop state that `main` goes through satisfies the invariant. -/
theorem reach_inv {lines : List String} {tiles0 : TileLines} {start finish : Coords}
    (hload : createTiles lines = .ok tiles0) (hstart : findStart tiles0 = .ok start)
    {s : LoopState} (hreach : Reach tiles0 start finish s) :
    Inv tiles0 start finish s.2.1 s.2.2 := by
  induction hreach with
  | init => exact inv_init finish hload hstart
  | @step s1 s2 _ hstep ih =>
    obtain ⟨r, tiles, ol⟩ := s1
    cases r with
    | some c => simp [loopStep] at hstep
    | none =>
      cases ol with
      | nil => simp [loopStep] at hstep
      | cons e rest =>
        obtain ⟨p, co⟩ := e
        simp only [loopStep, Option.some.injEq] at hstep
        obtain ⟨r2, tiles2, ol2⟩ := s2
        exact (step_inv ih hstep).1

theorem isValidTile_setTile_ne (tiles : TileLines) (co : Coords) (t : Tile) (x : Coords)
    (h : x ≠ co) : isValidTile (setTile tiles co t) x = isValidTile tiles x := by
  unfold isValidTile
  rw [length_setTile, lastCol_setTile, tileAt?_setTile_ne _ _ _ _ h]

/-- The loop of `astar` returns a coordinate exactly when one of the remaining
directions leads to the finish, the finish is valid and the relaxation test
succeeds for it; the coordinate is then the finish. -/
theorem astarLoop_result (oriTile : Tile) (o finish : Coords) (ds : List (Dbl × Coords)) :
    ∀ (tiles : TileLines) (ol : OpenList) (c : Coords),
      (astarLoop oriTile o finish ds tiles ol).1 = some c ↔
        c = finish ∧ ∃ dir ∈ ds, (o.1 + dir.2.1, o.2 + dir.2.2) = finish ∧
          isValidTile tiles finish = true ∧
          relaxCond (calcHval tiles finish finish) (dadd oriTile.gval dir.1)
            (tileAt tiles finish) = true := by
  induction ds with
  | nil =>
    intro tiles ol c
    simp [astarLoop]
  | cons dir rest ih =>
    intro tiles ol c
    rw [astarLoop]
    simp only
    by_cases hvalid : isValidTile tiles (o.1 + dir.2.1, o.2 + dir.2.2) = true
    · simp only [hvalid, Bool.not_true, Bool.false_eq_true, if_false]
      by_cases hfin : (o.1 + dir.2.1, o.2 + dir.2.2) = finish
      · subst hfin
        by_cases hrelax : relaxCond
            (calcHval tiles (o.1 + dir.2.1, o.2 + dir.2.2) (o.1 + dir.2.1, o.2 + dir.2.2))
            (dadd oriTile.gval dir.1) (tileAt tiles (o.1 + dir.2.1, o.2 + dir.2.2)) = true
        · rw [if_pos hrelax, if_pos ⟨rfl, rfl⟩]
          simp only [Option.some.injEq]
          constructor
          · intro h
            exact ⟨h.symm, dir, List.mem_cons_self _ _, rfl, hvalid, hrelax⟩
          · intro h
            exact h.1.symm
        · rw [if_neg hrelax, ih]
          constructor
          · rintro ⟨h1, d, hd, h2⟩
            exact ⟨h1, d, List.mem_cons_of_mem _ hd, h2⟩
          · rintro ⟨h1, d, hd, h2, h3, h4⟩
            rw [List.mem_cons] at hd
            rcases hd with rfl | hd
            · exact absurd h4 hrelax
            · exact ⟨h1, d, hd, h2, h3, h4⟩
      · have hfin' : ¬ (o.1 + dir.2.1 = finish.1 ∧ o.2 + dir.2.2 = finish.2) := by
          intro h
          exact hfin (Prod.ext h.1 h.2)
        have key : ∀ (tiles1 : TileLines) (ol1 : OpenList),
            isValidTile tiles1 finish = isValidTile tiles finish →
            tileAt tiles1 finish = tileAt tiles finish →
            ((astarLoop oriTile o finish rest tiles1 ol1).1 = some c ↔
              c = finish ∧ ∃ d ∈ dir :: rest, (o.1 + d.2.1, o.2 + d.2.2) = finish ∧
                isValidTile tiles finish = true ∧
                relaxCond (calcHval tiles finish finish) (dadd oriTile.gval d.1)
                  (tileAt tiles finish) = true) := by
          intro tiles1 ol1 hv ht
          rw [ih, hv, ht]
          constructor
          · rintro ⟨h1, d, hd, h2⟩
            exact ⟨h1, d, List.mem_cons_of_mem _ hd, by simpa [calcHval] using h2⟩
          · rintro ⟨h1, d, hd, h2, h3, h4⟩
            rw [List.mem_cons] at hd
            rcases hd with rfl | hd
            · exact absurd h2 hfin
            · exact ⟨h1, d, hd, h2, h3, by simpa [calcHval] using h4⟩
        split
        · try rw [if_neg hfin']
          apply key
          · exact isValidTile_setTile_ne _ _ _ _ (Ne.symm hfin)
          · exact tileAt_setTile_ne _ _ _ _ (Ne.symm hfin)
        · exact key tiles ol rfl rfl
    · have hv : isValidTile tiles (o.1 + dir.2.1, o.2 + dir.2.2) = false := by
        simpa using hvalid
      simp only [hv, Bool.not_false, if_true]
      rw [ih]
      constructor
      · rintro ⟨h1, d, hd, h2⟩
        exact ⟨h1, d, List.mem_cons_of_mem _ hd, h2⟩
      · rintro ⟨h1, d, hd, h2, h3, h4⟩
        rw [List.mem_cons] at hd
        rcases hd with rfl | hd
        · rw [h2, h3] at hv
          cases hv
        · exact ⟨h1, d, hd, h2, h3, h4⟩

theorem length_le_of_nodup_bounds (cells : List Coords) (rows cols : Nat)
    (hn : cells.Nodup)
    (hb : ∀ c ∈ cells, 0 ≤ c.1 ∧ c.1 < rows ∧ 0 ≤ c.2 ∧ c.2 < cols) :
    cells.length ≤ rows * cols := by
  have hsub : cells.toFinset ⊆ Finset.Ico (0 : Int) rows ×ˢ Finset.Ico (0 : Int) cols := by
    intro c hc
    rw [List.mem_toFinset] at hc
    obtain ⟨h1, h2, h3, h4⟩ := hb c hc
    simp only [Finset.mem_product, Finset.mem_Ico]
    exact ⟨⟨h1, h2⟩, ⟨h3, h4⟩⟩
  have hcard := Finset.card_le_card hsub
  rw [List.toFinset_card_of_nodup hn, Finset.card_product, Int.card_Ico, Int.card_Ico] at hcard
  simpa using hcard

theorem rect_bounds {tiles : TileLines} {cols : Nat} (hrect : Rect tiles cols)
    {co : Coords} {t : Tile} (h : tileAt? tiles co = some t) :
    0 ≤ co.1 ∧ co.1 < tiles.length ∧ 0 ≤ co.2 ∧ co.2 < cols := by
  have hnn := tileAt?_nonneg h
  unfold tileAt? at h
  rw [if_pos hnn] at h
  cases hrow : tiles[co.1.toNat]? with
  | none => simp [hrow] at h
  | some row =>
    simp only [hrow] at h
    have h1 : co.1.toNat < tiles.length := by
      by_contra hc
      rw [List.getElem?_eq_none (by omega)] at hrow
      cases hrow
    have h2 : co.2.toNat < row.length := by
      by_contra hc
      rw [List.getElem?_eq_none (by omega)] at h
      cases h
    rw [hrect row (List.getElem?_mem hrow)] at h2
    omega

theorem passable_inGrid {tiles : TileLines} {co : Coords} (h : passable tiles co) :
    inGrid tiles co := by
  obtain ⟨c, hc, -⟩ := h
  unfold inGrid
  unfold symbolAt at hc
  cases ht : tileAt? tiles co with
  | none => simp [ht] at hc
  | some t => rfl

theorem inGrid_iff_symbol (tiles : TileLines) (co : Coords) :
    inGrid tiles co ↔ (symbolAt tiles co).isSome = true := by
  unfold inGrid symbolAt
  cases tileAt? tiles co <;> simp

theorem mem_setInsert_of_mem (ol : OpenList) (e x : Entry) (h : x ∈ ol) :
    x ∈ setInsert ol e := by
  induction ol with
  | nil => cases h
  | cons y ys ih =>
    simp only [setInsert]
    split
    · exact List.mem_cons_of_mem _ h
    · split
      · rw [List.mem_cons] at h ⊢
        rcases h with h | h
        · exact Or.inl h
        · exact Or.inr (ih h)
      · exact h

theorem coords_eq_of_not_lt {a b : Coords} (h1 : coordsLt a b = false)
    (h2 : coordsLt b a = false) : a = b := by
  unfold coordsLt at h1 h2
  simp only [Bool.or_eq_false_iff, decide_eq_false_iff_not, Bool.and_eq_false_iff,
    Bool.not_eq_false', decide_eq_true_eq, not_lt] at h1 h2
  apply Prod.ext <;> omega

theorem entry_eq_of_not_lt {a b : Entry} (ha : ∃ k, a.1 = .fin k) (hb : ∃ k, b.1 = .fin k)
    (h1 : entryLt a b = false) (h2 : entryLt b a = false) : a = b := by
  obtain ⟨a1, a2⟩ := a
  obtain ⟨b1, b2⟩ := b
  obtain ⟨ka, hka⟩ := ha
  obtain ⟨kb, hkb⟩ := hb
  simp only at hka hkb
  subst hka hkb
  unfold entryLt at h1 h2
  simp only [Bool.or_eq_false_iff, Bool.and_eq_false_iff, Bool.not_eq_false', dlt_fin_fin,
    decide_eq_false_iff_not, decide_eq_true_eq, not_lt] at h1 h2
  obtain ⟨h1a, h1b⟩ := h1
  obtain ⟨h2a, h2b⟩ := h2
  have hk : ka = kb := by omega
  subst hk
  have hc : a2 = b2 := by
    rcases h1b with h | h
    · omega
    · rcases h2b with h' | h'
      · omega
      · exact coords_eq_of_not_lt h h'
  rw [hc]

/-- After `insert` the frontier holds the inserted entry, when the priorities are
finite. -/
theorem setInsert_self (ol : OpenList) (e : Entry) (hol : ∀ x ∈ ol, ∃ k, x.1 = .fin k)
    (he : ∃ k, e.1 = .fin k) : e ∈ setInsert ol e := by
  induction ol with
  | nil => simp [setInsert]
  | cons y ys ih =>
    simp only [setInsert]
    by_cases h1 : entryLt e y = true
    · rw [if_pos h1]
      exact List.mem_cons_self _ _
    · rw [if_neg h1]
      by_cases h2 : entryLt y e = true
      · rw [if_pos h2]
        exact List.mem_cons_of_mem _ (ih (fun x hx => hol x (List.mem_cons_of_mem _ hx)))
      · rw [if_neg h2]
        have := entry_eq_of_not_lt (hol y (List.mem_cons_self _ _)) he
          (by simpa using h2) (by simpa using h1)
        rw [← this]
        exact List.mem_cons_self _ _

theorem dirs_offsets_nodup : (dirs.map Prod.snd).Nodup := by decide

theorem dirs_inj {d1 d2 : Dbl × Coords} (h1 : d1 ∈ dirs) (h2 : d2 ∈ dirs) (o : Coords)
    (h : (o.1 + d1.2.1, o.2 + d1.2.2) = (o.1 + d2.2.1, o.2 + d2.2.2)) : d1 = d2 := by
  have hoff : d1.2 = d2.2 := by
    simp only [Prod.mk.injEq] at h
    apply Prod.ext <;> omega
  exact List.inj_on_of_nodup_map dirs_offsets_nodup h1 h2 hoff

theorem isValidTile_congr {tiles tiles' : TileLines} (x : Coords)
    (hlen : tiles'.map List.length = tiles.map List.length)
    (hx : (tileAt? tiles' x).map (fun t => (t.closed, t.data)) =
      (tileAt? tiles x).map (fun t => (t.closed, t.data))) :
    isValidTile tiles' x = isValidTile tiles x := by
  have h1 : tiles'.length = tiles.length := by
    simpa using congrArg List.length hlen
  have h2 : lastCol tiles' = lastCol tiles := by
    rw [lastCol_eq, lastCol_eq, hlen]
  unfold isValidTile
  rw [h1, h2]
  cases ht : tileAt? tiles x with
  | none =>
    rw [ht] at hx
    cases ht' : tileAt? tiles' x with
    | none => rfl
    | some t' => rw [ht'] at hx; cases hx
  | some t =>
    rw [ht] at hx
    cases ht' : tileAt? tiles' x with
    | none => rw [ht'] at hx; cases hx
    | some t' =>
      rw [ht'] at hx
      simp only [Option.map_some', Option.some.injEq, Prod.mk.injEq] at hx
      simp only [hx.1, hx.2]

/-- What one relaxation leaves alone: the dimensions of the grid, every closed flag
and symbol, every tile at another coordinate, every closed tile. -/
theorem relaxStep_frame (tiles : TileLines) (n : Coords) (nt1 : Tile)
    (hvalid : isValidTile tiles n = true)
    (hclosed : nt1.closed = (tileAt tiles n).closed) (hdata : nt1.data = (tileAt tiles n).data) :
    (setTile tiles n nt1).map List.length = tiles.map List.length ∧
      (∀ x, (tileAt? (setTile tiles n nt1) x).map (fun t => (t.closed, t.data)) =
        (tileAt? tiles x).map (fun t => (t.closed, t.data))) ∧
      (∀ x, x ≠ n → tileAt? (setTile tiles n nt1) x = tileAt? tiles x) ∧
      (∀ x t, tileAt? tiles x = some t → t.closed = true →
        tileAt? (setTile tiles n nt1) x = some t) := by
  obtain ⟨nt, hnt, -, hnc⟩ := isValidTile_some hvalid
  refine ⟨map_length_setTile _ _ _, ?_, ?_, ?_⟩
  · intro x
    rw [tileAt?_setTile]
    split
    · rename_i hx
      subst hx
      rw [hnt]
      rw [tileAt_of_some hnt] at hclosed hdata
      simp [hclosed, hdata]
    · rfl
  · intro x hx
    exact tileAt?_setTile_ne _ _ _ _ hx
  · intro x t ht hc
    have hx : x ≠ n := by
      intro hx
      rw [hx, hnt] at ht
      cases ht
      rw [hc] at hnc
      cases hnc
    rw [tileAt?_setTile_ne _ _ _ _ hx]
    exact ht

/-- What the loop of `astar` leaves alone, in every state: the dimensions of the
grid, every closed flag and symbol, every tile that is not a neighbour in one of the
directions tried, every closed tile, every frontier entry; a new frontier entry is
for a neighbour in one of the directions tried. -/
theorem astarLoop_frame (oriTile : Tile) (o finish : Coords) (ds : List (Dbl × Coords)) :
    ∀ (tiles : TileLines) (ol : OpenList) (r : Option Coords) (tiles' : TileLines)
      (ol' : OpenList), astarLoop oriTile o finish ds tiles ol = (r, tiles', ol') →
      tiles'.map List.length = tiles.map List.length ∧
      (∀ x, (tileAt? tiles' x).map (fun t => (t.closed, t.data)) =
        (tileAt? tiles x).map (fun t => (t.closed, t.data))) ∧
      (∀ x, (∀ d ∈ ds, x ≠ (o.1 + d.2.1, o.2 + d.2.2)) → tileAt? tiles' x = tileAt? tiles x) ∧
      (∀ x t, tileAt? tiles x = some t → t.closed = true → tileAt? tiles' x = some t) ∧
      (∀ e ∈ ol, e ∈ ol') ∧
      (∀ e ∈ ol', e ∈ ol ∨ ∃ d ∈ ds, e.2 = (o.1 + d.2.1, o.2 + d.2.2)) := by
  induction ds with
  | nil =>
    intro tiles ol r tiles' ol' h
    simp only [astarLoop, Prod.mk.injEq] at h
    obtain ⟨-, rfl, rfl⟩ := h
    exact ⟨rfl, fun _ => rfl, fun _ _ => rfl, fun _ _ ht _ => ht, fun _ he => he,
      fun _ he => Or.inl he⟩
  | cons dir rest ih =>
    intro tiles ol r tiles' ol' h
    have weaken : ∀ (T : TileLines) (L : OpenList),
        (T.map List.length = tiles.map List.length ∧
        (∀ x, (tileAt? T x).map (fun t => (t.closed, t.data)) =
          (tileAt? tiles x).map (fun t => (t.closed, t.data))) ∧
        (∀ x, x ≠ (o.1 + dir.2.1, o.2 + dir.2.2) → tileAt? T x = tileAt? tiles x) ∧
        (∀ x t, tileAt? tiles x = some t → t.closed = true → tileAt? T x = some t) ∧
        (∀ e ∈ ol, e ∈ L) ∧
        (∀ e ∈ L, e ∈ ol ∨ e.2 = (o.1 + dir.2.1, o.2 + dir.2.2))) →
        astarLoop oriTile o finish rest T L = (r, tiles', ol') →
        tiles'.map List.length = tiles.map List.length ∧
        (∀ x, (tileAt? tiles' x).map (fun t => (t.closed, t.data)) =
          (tileAt? tiles x).map (fun t => (t.closed, t.data))) ∧
        (∀ x, (∀ d ∈ dir :: rest, x ≠ (o.1 + d.2.1, o.2 + d.2.2)) →
          tileAt? tiles' x = tileAt? tiles x) ∧
        (∀ x t, tileAt? tiles x = some t → t.closed = true → tileAt? tiles' x = some t) ∧
        (∀ e ∈ ol, e ∈ ol') ∧
        (∀ e ∈ ol', e ∈ ol ∨ ∃ d ∈ dir :: rest, e.2 = (o.1 + d.2.1, o.2 + d.2.2)) := by
      intro T L ⟨a1, a2, a3, a4, a5, a6⟩ hrest
      obtain ⟨b1, b2, b3, b4, b5, b6⟩ := ih T L r tiles' ol' hrest
      refine ⟨b1.trans a1, fun x => (b2 x).trans (a2 x), ?_, ?_, fun e he => b5 e (a5 e he), ?_⟩
      · intro x hx
        rw [b3 x (fun d hd => hx d (List.mem_cons_of_mem _ hd))]
        exact a3 x (hx dir (List.mem_cons_self _ _))
      · intro x t ht hc
        exact b4 x t (a4 x t ht hc) hc
      · intro e he
        rcases b6 e he with h1 | ⟨d, hd, h1⟩
        · rcases a6 e h1 with h2 | h2
          · exact Or.inl h2
          · exact Or.inr ⟨dir, List.mem_cons_self _ _, h2⟩
        · exact Or.inr ⟨d, List.mem_cons_of_mem _ hd, h1⟩
    rw [astarLoop] at h
    simp only at h
    split at h
    · exact weaken tiles ol ⟨rfl, fun _ => rfl, fun _ _ => rfl, fun _ _ ht _ => ht,
        fun _ he => he, fun _ he => Or.inl he⟩ h
    · rename_i hvalidn
      have hvalid : isValidTile tiles (o.1 + dir.2.1, o.2 + dir.2.2) = true := by
        simpa using hvalidn
      split at h
      · obtain ⟨c1, c2, c3, c4⟩ := relaxStep_frame tiles (o.1 + dir.2.1, o.2 + dir.2.2)
          { tileAt tiles (o.1 + dir.2.1, o.2 + dir.2.2) with
            hval := calcHval tiles (o.1 + dir.2.1, o.2 + dir.2.2) finish,
            gval := dadd oriTile.gval dir.1, parent := o } hvalid rfl rfl
        split at h
        · simp only [Prod.mk.injEq] at h
          obtain ⟨-, rfl, rfl⟩ := h
          refine ⟨c1, c2, ?_, c4, fun _ he => he, fun _ he => Or.inl he⟩
          intro x hx
          exact c3 x (hx dir (List.mem_cons_self _ _))
        · refine weaken _ _ ⟨c1, c2, c3, c4, fun e he => mem_setInsert_of_mem _ _ _ he, ?_⟩ h
          intro e he
          rcases mem_setInsert _ _ _ he with h1 | h1
          · exact Or.inl h1
          · exact Or.inr (by rw [h1])
      · exact weaken tiles ol ⟨rfl, fun _ => rfl, fun _ _ => rfl, fun _ _ ht _ => ht,
          fun _ he => he, fun _ he => Or.inl he⟩ h

theorem closeTile_closed_same (tiles : TileLines) (co x : Coords) (t : Tile)
    (ht : tileAt? tiles x = some t) (hc : t.closed = true) :
    tileAt? (closeTile tiles co) x = some t := by
  rw [tileAt?_closeTile, ht]
  simp only [Option.map_some', Option.some.injEq]
  split
  · cases t
    simp only at hc
    simp [hc]
  · rfl

theorem closeTile_map_length (tiles : TileLines) (co : Coords) :
    (closeTile tiles co).map List.length = tiles.map List.length :=
  map_length_setTile _ _ _

/-- C18: in every state, a call of `astar` leaves every closed tile as it is (closed
flag, `gval`, `hval`, `parent`, symbol), changes no closed flag and no symbol, changes
no tile other than the 8 neighbours of the origin and keeps the row lengths of the
grid; an iteration of the driver (pop, close, `astar`) leaves every closed tile as it
is, resets no closed flag, changes no symbol and keeps the row lengths. -/
theorem closed_tiles_final (tiles : TileLines) (openList : OpenList)
    (oriCo finish : Coords) :
    ((∀ x t, tileAt? tiles x = some t → t.closed = true →
        tileAt? (astar tiles openList oriCo finish).2.1 x = some t) ∧
      (∀ x, (tileAt? (astar tiles openList oriCo finish).2.1 x).map
          (fun t => (t.closed, t.data)) = (tileAt? tiles x).map (fun t => (t.closed, t.data))) ∧
      (∀ x, (∀ d ∈ dirs, x ≠ (oriCo.1 + d.2.1, oriCo.2 + d.2.2)) →
        tileAt? (astar tiles openList oriCo finish).2.1 x = tileAt? tiles x) ∧
      (astar tiles openList oriCo finish).2.1.map List.length = tiles.map List.length) ∧
    (∀ (prio : Dbl) (s : LoopState),
      loopStep finish (none, tiles, (prio, oriCo) :: openList) = some s →
      (∀ x t, tileAt? tiles x = some t → t.closed = true → tileAt? s.2.1 x = some t) ∧
      (∀ x, (tileAt? s.2.1 x).map (fun t => t.data) = (tileAt? tiles x).map (fun t => t.data)) ∧
      s.2.1.map List.length = tiles.map List.length) := by
  constructor
  · rcases h : astar tiles openList oriCo finish with ⟨r, tiles', ol'⟩
    unfold astar at h
    obtain ⟨h1, h2, h3, h4, -, -⟩ := astarLoop_frame _ _ _ _ _ _ _ _ _ h
    exact ⟨h4, h2, h3, h1⟩
  · intro prio s hs
    simp only [loopStep, Option.some.injEq] at hs
    rcases h : astar (closeTile tiles oriCo) openList oriCo finish with ⟨r, tiles', ol'⟩
    rw [h] at hs
    subst hs
    unfold astar at h
    obtain ⟨h1, h2, -, h4, -, -⟩ := astarLoop_frame _ _ _ _ _ _ _ _ _ h
    refine ⟨?_, ?_, ?_⟩
    · intro x t ht hc
      exact h4 x t (closeTile_closed_same tiles oriCo x t ht hc) hc
    · intro x
      have e1 := congrArg (Option.map Prod.snd) (h2 x)
      simp only [Option.map_map] at e1
      have e2 : symbolAt (closeTile tiles oriCo) x = symbolAt tiles x :=
        symbolAt_setTile tiles oriCo { tileAt tiles oriCo with closed := true } rfl x
      unfold symbolAt at e2
      exact e1.trans e2
    · exact h1.trans (closeTile_map_length tiles oriCo)

theorem neighbour_ne {o : Coords} {d1 d2 : Coords} (h : d1 ≠ d2) :
    (o.1 + d1.1, o.2 + d1.2) ≠ (o.1 + d2.1, o.2 + d2.2) := by
  intro hc
  simp only [Prod.mk.injEq] at hc
  apply h
  apply Prod.ext <;> omega

theorem calcHval_tiles (tiles tiles' : TileLines) (co finish : Coords) :
    calcHval tiles' co finish = calcHval tiles co finish := rfl

theorem entryLt_nan_free {a b : Entry} (ha : a.1 ≠ .nan) (hb : b.1 ≠ .nan)
    (h1 : entryLt a b = false) (h2 : entryLt b a = false) : a = b := by
  obtain ⟨a1, a2⟩ := a
  obtain ⟨b1, b2⟩ := b
  simp only at ha hb
  unfold entryLt at h1 h2
  simp only [Bool.or_eq_false_iff, Bool.and_eq_false_iff, Bool.not_eq_false'] at h1 h2
  obtain ⟨h1a, h1b⟩ := h1
  obtain ⟨h2a, h2b⟩ := h2
  have hp : a1 = b1 := by
    cases a1 <;> cases b1 <;> simp_all [dlt]
    omega
  have hc : a2 = b2 := by
    rcases h1b with h | h
    · rw [h2a] at h; cases h
    · rcases h2b with h' | h'
      · rw [h1a] at h'; cases h'
      · exact coords_eq_of_not_lt h h'
  rw [hp, hc]

/-- After `insert` the frontier holds the inserted entry, when no priority is `NaN`. -/
theorem setInsert_mem (ol : OpenList) (e : Entry) (hol : ∀ x ∈ ol, x.1 ≠ .nan)
    (he : e.1 ≠ .nan) : e ∈ setInsert ol e := by
  induction ol with
  | nil => simp [setInsert]
  | cons y ys ih =>
    simp only [setInsert]
    by_cases h1 : entryLt e y = true
    · rw [if_pos h1]
      exact List.mem_cons_self _ _
    · rw [if_neg h1]
      by_cases h2 : entryLt y e = true
      · rw [if_pos h2]
        exact List.mem_cons_of_mem _ (ih (fun x hx => hol x (List.mem_cons_of_mem _ hx)))
      · rw [if_neg h2]
        have := entryLt_nan_free (hol y (List.mem_cons_self _ _)) he
          (by simpa using h2) (by simpa using h1)
        rw [← this]
        exact List.mem_cons_self _ _

/-- The relaxation rule, for the loop of `astar` over directions with distinct
offsets, when the loop returns no result and no priority is `NaN`: a valid
neighbour for which the test succeeds in the state before the loop ends up with the
new values and its entry in the frontier; a valid neighbour for which it fails is
unchanged. -/
theorem astarLoop_relax (oriTile : Tile) (o finish : Coords) (ds : List (Dbl × Coords))
    (hnd : (ds.map Prod.snd).Nodup) :
    ∀ (tiles : TileLines) (ol : OpenList) (tiles' : TileLines) (ol' : OpenList),
      astarLoop oriTile o finish ds tiles ol = (none, tiles', ol') →
      ∀ d ∈ ds, isValidTile tiles (o.1 + d.2.1, o.2 + d.2.2) = true →
        (relaxCond (calcHval tiles (o.1 + d.2.1, o.2 + d.2.2) finish)
            (dadd oriTile.gval d.1) (tileAt tiles (o.1 + d.2.1, o.2 + d.2.2)) = true →
          tileAt? tiles' (o.1 + d.2.1, o.2 + d.2.2) =
            some { tileAt tiles (o.1 + d.2.1, o.2 + d.2.2) with
              hval := calcHval tiles (o.1 + d.2.1, o.2 + d.2.2) finish,
              gval := dadd oriTile.gval d.1, parent := o } ∧
          ((∀ e ∈ ol, e.1 ≠ .nan) →
            (∀ d' ∈ ds, isValidTile tiles (o.1 + d'.2.1, o.2 + d'.2.2) = true →
              dadd (calcHval tiles (o.1 + d'.2.1, o.2 + d'.2.2) finish)
                (dadd oriTile.gval d'.1) ≠ .nan) →
            (dadd (calcHval tiles (o.1 + d.2.1, o.2 + d.2.2) finish) (dadd oriTile.gval d.1),
              (o.1 + d.2.1, o.2 + d.2.2)) ∈ ol')) ∧
        (relaxCond (calcHval tiles (o.1 + d.2.1, o.2 + d.2.2) finish)
            (dadd oriTile.gval d.1) (tileAt tiles (o.1 + d.2.1, o.2 + d.2.2)) = false →
          tileAt? tiles' (o.1 + d.2.1, o.2 + d.2.2) =
            tileAt? tiles (o.1 + d.2.1, o.2 + d.2.2)) := by
  induction ds with
  | nil => intro _ _ _ _ _ d hd; cases hd
  | cons dir rest ih =>
    rw [List.map_cons, List.nodup_cons] at hnd
    obtain ⟨hnotin, hnd'⟩ := hnd
    have hdistinct : ∀ d ∈ rest, (o.1 + dir.2.1, o.2 + dir.2.2) ≠ (o.1 + d.2.1, o.2 + d.2.2) := by
      intro d hd
      apply neighbour_ne
      intro hc
      apply hnotin
      rw [hc]
      exact List.mem_map_of_mem _ hd
    intro tiles ol tiles' ol' h d hd hvalid
    rw [astarLoop] at h
    simp only at h
    rw [List.mem_cons] at hd
    by_cases hv0 : isValidTile tiles (o.1 + dir.2.1, o.2 + dir.2.2) = true
    · simp only [hv0, Bool.not_true, Bool.false_eq_true, if_false] at h
      by_cases hr0 : relaxCond (calcHval tiles (o.1 + dir.2.1, o.2 + dir.2.2) finish)
          (dadd oriTile.gval dir.1) (tileAt tiles (o.1 + dir.2.1, o.2 + dir.2.2)) = true
      · rw [if_pos hr0] at h
        split at h
        · simp at h
        · obtain ⟨nt, hnt, -, -⟩ := isValidTile_some hv0
          obtain ⟨-, -, f3, -, f5, -⟩ := astarLoop_frame _ _ _ _ _ _ _ _ _ h
          rcases hd with rfl | hd
          · constructor
            · intro _
              constructor
              · rw [f3 _ (fun d' hd' => hdistinct d' hd')]
                exact tileAt?_setTile_self _ _ _ _ hnt
              · intro hol hnew
                exact f5 _ (setInsert_mem ol _ hol (hnew d (List.mem_cons_self _ _) hv0))
            · intro hf
              rw [hr0] at hf
              cases hf
          · have hne := (hdistinct d hd).symm
            have := ih hnd' _ _ tiles' ol' h d hd
              (by rw [isValidTile_setTile_ne _ _ _ _ hne]; exact hvalid)
            rw [tileAt_setTile_ne _ _ _ _ hne, tileAt?_setTile_ne _ _ _ _ hne] at this
            refine ⟨fun hr => ⟨(this.1 hr).1, fun hol hnew => (this.1 hr).2 ?_ ?_⟩, this.2⟩
            · intro e he
              rcases mem_setInsert _ _ _ he with h1 | h1
              · exact hol e h1
              · rw [h1]
                exact hnew dir (List.mem_cons_self _ _) hv0
            · intro d' hd' hv'
              rw [isValidTile_setTile_ne _ _ _ _ (hdistinct d' hd').symm] at hv'
              exact hnew d' (List.mem_cons_of_mem _ hd') hv'
      · rw [if_neg hr0] at h
        rcases hd with rfl | hd
        · obtain ⟨-, -, f3, -, -, -⟩ := astarLoop_frame _ _ _ _ _ _ _ _ _ h
          constructor
          · intro ht
            exact absurd ht hr0
          · intro _
            exact f3 _ (fun d' hd' => hdistinct d' hd')
        · have := ih hnd' _ _ tiles' ol' h d hd hvalid
          exact ⟨fun hr => ⟨(this.1 hr).1, fun hol hnew => (this.1 hr).2 hol
            (fun d' hd' hv' => hnew d' (List.mem_cons_of_mem _ hd') hv')⟩, this.2⟩
    · have hv0' : isValidTile tiles (o.1 + dir.2.1, o.2 + dir.2.2) = false := by
        simpa using hv0
      simp only [hv0', Bool.not_false, if_true] at h
      rcases hd with rfl | hd
      · exact absurd hvalid hv0
      · have := ih hnd' _ _ tiles' ol' h d hd hvalid
        exact ⟨fun hr => ⟨(this.1 hr).1, fun hol hnew => (this.1 hr).2 hol
          (fun d' hd' hv' => hnew d' (List.mem_cons_of_mem _ hd') hv')⟩, this.2⟩

/-- Every frontier entry that the loop of `astar` adds is the entry of a neighbour
that was valid and passed the relaxation test in the state before the loop. -/
theorem astarLoop_entries (oriTile : Tile) (o finish : Coords) (ds : List (Dbl × Coords))
    (hnd : (ds.map Prod.snd).Nodup) :
    ∀ (tiles : TileLines) (ol : OpenList) (r : Option Coords) (tiles' : TileLines)
      (ol' : OpenList), astarLoop oriTile o finish ds tiles ol = (r, tiles', ol') →
      ∀ e ∈ ol', e ∈ ol ∨ ∃ d ∈ ds,
        e = (dadd (calcHval tiles (o.1 + d.2.1, o.2 + d.2.2) finish) (dadd oriTile.gval d.1),
          (o.1 + d.2.1, o.2 + d.2.2)) ∧
        isValidTile tiles (o.1 + d.2.1, o.2 + d.2.2) = true ∧
        relaxCond (calcHval tiles (o.1 + d.2.1, o.2 + d.2.2) finish)
          (dadd oriTile.gval d.1) (tileAt tiles (o.1 + d.2.1, o.2 + d.2.2)) = true := by
  induction ds with
  | nil =>
    intro tiles ol r tiles' ol' h e he
    simp only [astarLoop, Prod.mk.injEq] at h
    obtain ⟨-, -, rfl⟩ := h
    exact Or.inl he
  | cons dir rest ih =>
    rw [List.map_cons, List.nodup_cons] at hnd
    obtain ⟨hnotin, hnd'⟩ := hnd
    have hdistinct : ∀ d ∈ rest, (o.1 + dir.2.1, o.2 + dir.2.2) ≠ (o.1 + d.2.1, o.2 + d.2.2) := by
      intro d hd
      apply neighbour_ne
      intro hc
      apply hnotin
      rw [hc]
      exact List.mem_map_of_mem _ hd
    intro tiles ol r tiles' ol' h e he
    rw [astarLoop] at h
    simp only at h
    have lift : (e ∈ ol ∨ ∃ d ∈ rest,
        e = (dadd (calcHval tiles (o.1 + d.2.1, o.2 + d.2.2) finish) (dadd oriTile.gval d.1),
          (o.1 + d.2.1, o.2 + d.2.2)) ∧
        isValidTile tiles (o.1 + d.2.1, o.2 + d.2.2) = true ∧
        relaxCond (calcHval tiles (o.1 + d.2.1, o.2 + d.2.2) finish)
          (dadd oriTile.gval d.1) (tileAt tiles (o.1 + d.2.1, o.2 + d.2.2)) = true) →
        (e ∈ ol ∨ ∃ d ∈ dir :: rest,
        e = (dadd (calcHval tiles (o.1 + d.2.1, o.2 + d.2.2) finish) (dadd oriTile.gval d.1),
          (o.1 + d.2.1, o.2 + d.2.2)) ∧
        isValidTile tiles (o.1 + d.2.1, o.2 + d.2.2) = true ∧
        relaxCond (calcHval tiles (o.1 + d.2.1, o.2 + d.2.2) finish)
          (dadd oriTile.gval d.1) (tileAt tiles (o.1 + d.2.1, o.2 + d.2.2)) = true) := by
      rintro (h1 | ⟨d, hd, h1⟩)
      · exact Or.inl h1
      · exact Or.inr ⟨d, List.mem_cons_of_mem _ hd, h1⟩
    by_cases hv0 : isValidTile tiles (o.1 + dir.2.1, o.2 + dir.2.2) = true
    · simp only [hv0, Bool.not_true, Bool.false_eq_true, if_false] at h
      by_cases hr0 : relaxCond (calcHval tiles (o.1 + dir.2.1, o.2 + dir.2.2) finish)
          (dadd oriTile.gval dir.1) (tileAt tiles (o.1 + dir.2.1, o.2 + dir.2.2)) = true
      · rw [if_pos hr0] at h
        split at h
        · simp only [Prod.mk.injEq] at h
          obtain ⟨-, -, rfl⟩ := h
          exact Or.inl he
        · rcases ih hnd' _ _ r tiles' ol' h e he with h1 | ⟨d, hd, h1, h2, h3⟩
          · rcases mem_setInsert _ _ _ h1 with h4 | h4
            · exact Or.inl h4
            · exact Or.inr ⟨dir, List.mem_cons_self _ _, h4, hv0, hr0⟩
          · have hne := (hdistinct d hd).symm
            rw [isValidTile_setTile_ne _ _ _ _ hne] at h2
            rw [tileAt_setTile_ne _ _ _ _ hne] at h3
            exact Or.inr ⟨d, List.mem_cons_of_mem _ hd, h1, h2, h3⟩
      · rw [if_neg hr0] at h
        exact lift (ih hnd' _ _ r tiles' ol' h e he)
    · have hv0' : isValidTile tiles (o.1 + dir.2.1, o.2 + dir.2.2) = false := by
        simpa using hv0
      simp only [hv0', Bool.not_false, if_true] at h
      exact lift (ih hnd' _ _ r tiles' ol' h e he)

/-- A call of the loop of `astar` that returns a coordinate has tried a list `pre` of
directions without a result, and then relaxed the finish in the next direction. -/
theorem astarLoop_found_split (oriTile : Tile) (o finish : Coords)
    (ds : List (Dbl × Coords)) :
    ∀ (tiles : TileLines) (ol : OpenList) (c : Coords) (tiles' : TileLines)
      (ol' : OpenList), astarLoop oriTile o finish ds tiles ol = (some c, tiles', ol') →
      ∃ pre d post tiles1, ds = pre ++ d :: post ∧
        astarLoop oriTile o finish pre tiles ol = (none, tiles1, ol') ∧
        (o.1 + d.2.1, o.2 + d.2.2) = finish ∧ c = finish ∧
        isValidTile tiles1 finish = true ∧
        tiles' = setTile tiles1 finish { tileAt tiles1 finish with
          hval := calcHval tiles1 finish finish,
          gval := dadd oriTile.gval d.1, parent := o } := by
  induction ds with
  | nil =>
    intro tiles ol c tiles' ol' h
    simp [astarLoop] at h
  | cons dir rest ih =>
    intro tiles ol c tiles' ol' h
    rw [astarLoop] at h
    simp only at h
    by_cases hv0 : isValidTile tiles (o.1 + dir.2.1, o.2 + dir.2.2) = true
    · simp only [hv0, Bool.not_true, Bool.false_eq_true, if_false] at h
      by_cases hr0 : relaxCond (calcHval tiles (o.1 + dir.2.1, o.2 + dir.2.2) finish)
          (dadd oriTile.gval dir.1) (tileAt tiles (o.1 + dir.2.1, o.2 + dir.2.2)) = true
      · rw [if_pos hr0] at h
        by_cases hfin : o.1 + dir.2.1 = finish.1 ∧ o.2 + dir.2.2 = finish.2
        · rw [if_pos hfin] at h
          simp only [Prod.mk.injEq, Option.some.injEq] at h
          obtain ⟨hc, ht, hol⟩ := h
          have hf : (o.1 + dir.2.1, o.2 + dir.2.2) = finish := Prod.ext hfin.1 hfin.2
          refine ⟨[], dir, rest, tiles, rfl, ?_, hf, ?_, ?_, ?_⟩
          · simp [astarLoop, hol]
          · rw [← hc, hf]
          · rw [← hf]; exact hv0
          · rw [← ht]
            subst hf
            rfl
        · rw [if_neg hfin] at h
          obtain ⟨pre, d, post, tiles1, e1, e2, e3⟩ := ih _ _ c tiles' ol' h
          refine ⟨dir :: pre, d, post, tiles1, by rw [e1]; rfl, ?_, e3⟩
          rw [astarLoop]
          simp only [hv0, Bool.not_true, Bool.false_eq_true, if_false, hr0, if_true, hfin]
          exact e2
      · rw [if_neg hr0] at h
        obtain ⟨pre, d, post, tiles1, e1, e2, e3⟩ := ih _ _ c tiles' ol' h
        refine ⟨dir :: pre, d, post, tiles1, by rw [e1]; rfl, ?_, e3⟩
        rw [astarLoop]
        simp only [hv0, Bool.not_true, Bool.false_eq_true, if_false, hr0]
        exact e2
    · have hv0' : isValidTile tiles (o.1 + dir.2.1, o.2 + dir.2.2) = false := by
        simpa using hv0
      simp only [hv0', Bool.not_false, if_true] at h
      obtain ⟨pre, d, post, tiles1, e1, e2, e3⟩ := ih _ _ c tiles' ol' h
      refine ⟨dir :: pre, d, post, tiles1, by rw [e1]; rfl, ?_, e3⟩
      rw [astarLoop]
      simp only [hv0', Bool.not_false, if_true]
      exact e2

/-- C17: when `astar` returns a coordinate it is the finish, reached in a direction
`d` of the table; every neighbour in a direction after `d` keeps its tile, every
frontier entry for the finish or for such a neighbour was in the frontier before the
call, and the finish tile has the origin as parent and `gval = origin.gval + stepCost`. -/
theorem early_return_frame (tiles : TileLines) (openList : OpenList) (oriCo finish : Coords)
    (c : Coords) (tiles' : TileLines) (openList' : OpenList)
    (hcall : astar tiles openList oriCo finish = (some c, tiles', openList')) :
    c = finish ∧ ∃ pre d post, dirs = pre ++ d :: post ∧
      finish = (oriCo.1 + d.2.1, oriCo.2 + d.2.2) ∧
      (∀ d' ∈ post, tileAt? tiles' (oriCo.1 + d'.2.1, oriCo.2 + d'.2.2) =
        tileAt? tiles (oriCo.1 + d'.2.1, oriCo.2 + d'.2.2)) ∧
      (∀ e ∈ openList', e ∈ openList ∨ ∃ d' ∈ pre, e.2 = (oriCo.1 + d'.2.1, oriCo.2 + d'.2.2)) ∧
      (∀ e ∈ openList', (e.2 = finish ∨
          ∃ d' ∈ post, e.2 = (oriCo.1 + d'.2.1, oriCo.2 + d'.2.2)) → e ∈ openList) ∧
      (tileAt tiles' finish).parent = oriCo ∧
      (tileAt tiles' finish).gval =
        dadd (tileAt tiles oriCo).gval (stepCostD oriCo finish) := by
  unfold astar at hcall
  obtain ⟨pre, d, post, tiles1, hsplit, hpre, hfin, hc, hvalid, ht⟩ :=
    astarLoop_found_split _ _ _ _ _ _ _ _ _ hcall
  obtain ⟨-, -, f3, -, -, f6⟩ := astarLoop_frame _ _ _ _ _ _ _ _ _ hpre
  have hnd : (pre ++ d :: post).Nodup := by
    rw [← hsplit]
    exact List.Nodup.of_map _ dirs_offsets_nodup
  have hmem : ∀ x ∈ pre ++ d :: post, x ∈ dirs := by
    intro x hx
    rw [hsplit]
    exact hx
  have hd : d ∈ dirs := hmem d (by simp)
  have hpre_ne : ∀ x ∈ pre, ∀ y ∈ d :: post,
      (oriCo.1 + y.2.1, oriCo.2 + y.2.2) ≠ (oriCo.1 + x.2.1, oriCo.2 + x.2.2) := by
    intro x hx y hy hc
    have hxy : y = x := dirs_inj (hmem y (by simp [List.mem_append, hy]))
      (hmem x (by simp [List.mem_append, hx])) oriCo hc
    subst hxy
    exact (List.disjoint_of_nodup_append hnd) hx hy
  have hpost_ne : ∀ y ∈ post, (oriCo.1 + y.2.1, oriCo.2 + y.2.2) ≠ finish := by
    intro y hy hc
    rw [← hfin] at hc
    have hyd : y = d := dirs_inj (hmem y (by simp [List.mem_append, hy])) hd oriCo hc
    subst hyd
    have := (List.nodup_append.1 hnd).2.1
    rw [List.nodup_cons] at this
    exact this.1 hy
  obtain ⟨nt, hnt, -, -⟩ := isValidTile_some hvalid
  refine ⟨hc, pre, d, post, hsplit, hfin.symm, ?_, f6, ?_, ?_, ?_⟩
  · intro d' hd'
    rw [ht, tileAt?_setTile_ne _ _ _ _ (hpost_ne d' hd')]
    exact f3 _ (fun x hx => hpre_ne x hx d' (List.mem_cons_of_mem _ hd'))
  · intro e he hcase
    rcases f6 e he with h1 | ⟨x, hx, h1⟩
    · exact h1
    · exfalso
      rcases hcase with h2 | ⟨y, hy, h2⟩
      · rw [h2, ← hfin] at h1
        exact hpre_ne x hx d (List.mem_cons_self _ _) h1
      · rw [h2] at h1
        exact hpre_ne x hx y (List.mem_cons_of_mem _ hy) h1
  · rw [ht]
    unfold tileAt
    rw [tileAt?_setTile_self _ _ _ _ hnt]
    rfl
  · rw [ht]
    unfold tileAt
    rw [tileAt?_setTile_self _ _ _ _ hnt]
    simp only [Option.getD_some]
    rw [← hfin, (dirs_step hd oriCo).2.2.2.1]

theorem setTile_same (tiles : TileLines) (co : Coords) (t : Tile)
    (h : tileAt? tiles co = some t) : setTile tiles co t = tiles := by
  have hnn := tileAt?_nonneg h
  unfold tileAt? at h
  rw [if_pos hnn] at h
  unfold setTile
  rw [if_pos hnn]
  cases hrow : tiles[co.1.toNat]? with
  | none => rfl
  | some row =>
    simp only [hrow] at h
    simp only
    rw [list_set_same row _ _ h]
    exact list_set_same _ _ _ hrow

theorem deq_fin_self (k : Nat) : deq (.fin k) (.fin k) = true := by
  simp [deq]

theorem fin_ne_dblMax {k : Nat} (hk : k ≤ 2 ^ 1128) : deq (.fin k) dblMax = false := by
  cases hd : deq (Dbl.fin k) dblMax with
  | false => rfl
  | true =>
    have := deq_dblMax hd
    unfold dblMax at this
    have := Dbl.fin.inj this
    have := pow_1128_lt_max
    omega

theorem calcHval_deq (tiles : TileLines) (co finish : Coords) :
    deq (calcHval tiles co finish) dblMax = false := by
  cases hd : deq (calcHval tiles co finish) dblMax with
  | false => rfl
  | true => exact absurd (deq_dblMax hd) (calcHval_ne_dblMax _ _ _)

/-- Under the invariant, the relaxation test for a valid neighbour that has a
parent is the comparison of the two sums. -/
theorem relaxCond_known {tiles0 : TileLines} {start finish : Coords} {tiles : TileLines}
    {ol : OpenList} (hinv : Inv tiles0 start finish tiles ol) {n : Coords}
    (hvalid : isValidTile tiles n = true)
    (hp : (tileAt tiles n).parent ≠ noParent) (x y : Dbl) :
    relaxCond x y (tileAt tiles n) = dlt (dadd x y) (tileAt tiles n).fval := by
  obtain ⟨nt, hnt, -, hnc⟩ := isValidTile_some hvalid
  rw [tileAt_of_some hnt] at hp ⊢
  obtain ⟨_, -, -, -, -, hh, -, k, hk, hkb⟩ := hinv.link n nt hnt hp
  unfold relaxCond
  rw [hk, fin_ne_dblMax hkb, hh, calcHval_deq, Bool.or_false, Bool.or_false]

/-- Under the invariant, the relaxation test succeeds for a valid neighbour that
has no parent. -/
theorem relaxCond_fresh {tiles0 : TileLines} {start finish : Coords} {tiles : TileLines}
    {ol : OpenList} (hinv : Inv tiles0 start finish tiles ol)
    (hsc : (tileAt tiles start).closed = true) {n : Coords}
    (hvalid : isValidTile tiles n = true)
    (hp : (tileAt tiles n).parent = noParent) (x y : Dbl) :
    relaxCond x y (tileAt tiles n) = true := by
  obtain ⟨nt, hnt, -, hnc⟩ := isValidTile_some hvalid
  rw [tileAt_of_some hnt] at hp ⊢
  have hns : n ≠ start := by
    intro hc
    rw [hc] at hnt
    rw [tileAt_of_some hnt, hnc] at hsc
    cases hsc
  obtain ⟨hg, -, -⟩ := hinv.fresh n nt hnt hp hns
  have hd : deq dblMax dblMax = true := deq_fin_self _
  unfold relaxCond
  rw [hg, hd, Bool.or_true, Bool.true_or]

/-- When the relaxation test fails for every valid neighbour, the loop of `astar`
returns no result and changes nothing. -/
theorem astarLoop_noop (oriTile : Tile) (o finish : Coords) (ds : List (Dbl × Coords))
    (tiles : TileLines) (ol : OpenList)
    (h : ∀ d ∈ ds, isValidTile tiles (o.1 + d.2.1, o.2 + d.2.2) = true →
      relaxCond (calcHval tiles (o.1 + d.2.1, o.2 + d.2.2) finish)
        (dadd oriTile.gval d.1) (tileAt tiles (o.1 + d.2.1, o.2 + d.2.2)) = false) :
    astarLoop oriTile o finish ds tiles ol = (none, tiles, ol) := by
  induction ds with
  | nil => rfl
  | cons dir rest ih =>
    have ih' := ih (fun d hd => h d (List.mem_cons_of_mem _ hd))
    rw [astarLoop]
    simp only
    by_cases hv : isValidTile tiles (o.1 + dir.2.1, o.2 + dir.2.2) = true
    · have hr := h dir (List.mem_cons_self _ _) hv
      simp only [hv, Bool.not_true, Bool.false_eq_true, if_false, hr]
      exact ih'
    · have hv' : isValidTile tiles (o.1 + dir.2.1, o.2 + dir.2.2) = false := by simpa using hv
      simp only [hv', Bool.not_false, if_true]
      exact ih'

theorem init_not_closed {lines : List String} {tiles0 : TileLines} (start : Coords)
    (hload : createTiles lines = .ok tiles0) (co : Coords) (t : Tile)
    (ht : tileAt? (initTiles tiles0 start) co = some t) : t.closed = false := by
  have hfresh : ∀ co t, tileAt? tiles0 co = some t → t = Tile.new t.data := by
    rw [createTiles_ok hload]
    exact mkGrid_fresh lines
  unfold initTiles at ht
  rw [tileAt?_setTile] at ht
  split at ht
  · rename_i hco
    subst hco
    cases hst : tileAt? tiles0 co with
    | none => rw [hst] at ht; cases ht
    | some st =>
      rw [hst, tileAt_of_some hst] at ht
      simp only [Option.map_some', Option.some.injEq] at ht
      rw [← ht]
      simp only
      rw [hfresh co st hst]
      rfl
  · rw [hfresh co t ht]
    rfl

theorem isValidTile_closeTile {tiles : TileLines} {co x : Coords}
    (h : isValidTile (closeTile tiles co) x = true) :
    x ≠ co ∧ isValidTile tiles x = true := by
  have hne : x ≠ co := by
    intro hc
    subst hc
    obtain ⟨t, ht, -, hcl⟩ := isValidTile_some h
    rw [tileAt?_closeTile] at ht
    cases hx : tileAt? tiles x with
    | none => rw [hx] at ht; cases ht
    | some t0 =>
      rw [hx] at ht
      simp only [Option.map_some', if_true, Option.some.injEq] at ht
      rw [← ht] at hcl
      cases hcl
  refine ⟨hne, ?_⟩
  unfold closeTile at h
  rw [isValidTile_setTile_ne _ _ _ _ hne] at h
  exact h

theorem dlt_of_lt_of_not {a b x : Dbl} (h1 : dlt a b = true) (h2 : dlt x b = false) :
    dlt x a = false := by
  cases hx : dlt x a with
  | false => rfl
  | true =>
    rw [dlt_trans hx h1] at h2
    cases h2

/-- An iteration of the driver that returns no result keeps "every closed tile has
been expanded". -/
theorem expanded_step {tiles0 : TileLines} {start finish : Coords} {tiles : TileLines}
    {p : Dbl} {co : Coords} {rest : OpenList} {tiles' : TileLines} {ol' : OpenList}
    (hinv : Inv tiles0 start finish tiles ((p, co) :: rest)) (hexp : Expanded finish tiles)
    (h : astar (closeTile tiles co) rest co finish = (none, tiles', ol')) :
    Expanded finish tiles' := by
  obtain ⟨hinv1, hsc, oriTile, og, ho, hoc, hog, -⟩ := close_inv hinv
  have honp : co ≠ noParent := ne_noParent_of_some ho
  unfold astar at h
  rw [tileAt_of_some ho] at h
  obtain ⟨f1, f2, f3, f4, -, -⟩ := astarLoop_frame _ _ _ _ _ _ _ _ _ h
  have hrelax := astarLoop_relax _ _ _ dirs dirs_offsets_nodup _ _ _ _ h
  -- a valid tile with a parent keeps one, and its sum does not go up
  have hmono : ∀ n, isValidTile (closeTile tiles co) n = true →
      (tileAt (closeTile tiles co) n).parent ≠ noParent →
      (tileAt tiles' n).parent ≠ noParent ∧
        ∀ X, dlt X (tileAt (closeTile tiles co) n).fval = false →
          dlt X (tileAt tiles' n).fval = false := by
    intro n hv hpn
    by_cases hnb : ∃ d ∈ dirs, n = (co.1 + d.2.1, co.2 + d.2.2)
    · obtain ⟨d, hd, rfl⟩ := hnb
      obtain ⟨r1, r2⟩ := hrelax d hd hv
      have hk := relaxCond_known hinv1 hv hpn
        (calcHval (closeTile tiles co) (co.1 + d.2.1, co.2 + d.2.2) finish)
        (dadd oriTile.gval d.1)
      cases hr : relaxCond (calcHval (closeTile tiles co) (co.1 + d.2.1, co.2 + d.2.2) finish)
          (dadd oriTile.gval d.1) (tileAt (closeTile tiles co) (co.1 + d.2.1, co.2 + d.2.2)) with
      | true =>
        rw [hr] at hk
        have ht := (r1 hr).1
        rw [tileAt, ht]
        refine ⟨honp, ?_⟩
        intro X hX
        simp only [Option.getD_some, Tile.fval]
        rw [dadd_comm]
        exact dlt_of_lt_of_not hk.symm hX
      | false =>
        rw [tileAt, r2 hr]
        exact ⟨hpn, fun X hX => hX⟩
    · rw [tileAt, f3 n (fun d hd hc => hnb ⟨d, hd, hc⟩)]
      exact ⟨hpn, fun X hX => hX⟩
  intro x t' ht' hc' d hd hvn'
  -- validity and the closed tile, traced back to the state after closing
  have hvn1 : isValidTile (closeTile tiles co) (x.1 + d.2.1, x.2 + d.2.2) = true := by
    rw [← isValidTile_congr _ f1 (f2 _)]
    exact hvn'
  obtain ⟨hnco, hvn⟩ := isValidTile_closeTile hvn1
  have hx1 : tileAt? (closeTile tiles co) x = some t' := by
    have h2 := f2 x
    rw [ht'] at h2
    cases ht1 : tileAt? (closeTile tiles co) x with
    | none => rw [ht1] at h2; cases h2
    | some t1 =>
      rw [ht1] at h2
      simp only [Option.map_some', Option.some.injEq, Prod.mk.injEq] at h2
      have hc1 : t1.closed = true := by rw [← h2.1]; exact hc'
      have := f4 x t1 ht1 hc1
      rw [ht'] at this
      rw [this]
  by_cases hxco : x = co
  · subst hxco
    rw [ho] at hx1
    cases hx1
    obtain ⟨r1, r2⟩ := hrelax d hd hvn1
    cases hr : relaxCond (calcHval (closeTile tiles x) (x.1 + d.2.1, x.2 + d.2.2) finish)
        (dadd oriTile.gval d.1) (tileAt (closeTile tiles x) (x.1 + d.2.1, x.2 + d.2.2)) with
    | true =>
      rw [tileAt, (r1 hr).1]
      refine ⟨honp, ?_⟩
      simp only [Option.getD_some, Tile.fval]
      rw [dadd_comm]
      exact dlt_irrefl _
    | false =>
      have hpn : (tileAt (closeTile tiles x) (x.1 + d.2.1, x.2 + d.2.2)).parent ≠ noParent := by
        intro hpn
        rw [relaxCond_fresh hinv1 hsc hvn1 hpn] at hr
        cases hr
      have hr2 := hr
      rw [relaxCond_known hinv1 hvn1 hpn] at hr2
      rw [tileAt, r2 hr]
      exact ⟨hpn, hr2⟩
  · have hx0 : tileAt? tiles x = some t' := by
      rw [tileAt?_closeTile] at hx1
      cases hx : tileAt? tiles x with
      | none => rw [hx] at hx1; cases hx1
      | some t0 =>
        rw [hx] at hx1
        simp only [Option.map_some', if_neg hxco, Option.some.injEq] at hx1
        rw [hx1]
    obtain ⟨hpn, hle⟩ := hexp x t' hx0 hc' d hd hvn
    have hsame : tileAt (closeTile tiles co) (x.1 + d.2.1, x.2 + d.2.2) =
        tileAt tiles (x.1 + d.2.1, x.2 + d.2.2) := by
      unfold closeTile
      exact tileAt_setTile_ne _ _ _ _ hnco
    obtain ⟨hp', hm⟩ := hmono _ hvn1 (by rw [hsame]; exact hpn)
    refine ⟨hp', hm _ ?_⟩
    rw [hsame]
    exact hle

/-- In every loop state of the driver in which no result has been returned, every
closed tile has been expanded. -/
theorem reach_expanded {lines : List String} {tiles0 : TileLines} {start finish : Coords}
    (hload : createTiles lines = .ok tiles0) (hstart : findStart tiles0 = .ok start)
    {s : LoopState} (hreach : Reach tiles0 start finish s) :
    s.1 = none → Expanded finish s.2.1 := by
  induction hreach with
  | init =>
    intro _ x t ht hc
    have := init_not_closed start hload x t ht
    rw [hc] at this
    cases this
  | @step s1 s2 hr1 hstep ih =>
    intro hnone
    obtain ⟨r, tiles, ol⟩ := s1
    cases r with
    | some c => simp [loopStep] at hstep
    | none =>
      cases ol with
      | nil => simp [loopStep] at hstep
      | cons e rest =>
        obtain ⟨p, co⟩ := e
        simp only [loopStep, Option.some.injEq] at hstep
        obtain ⟨r2, tiles2, ol2⟩ := s2
        simp only at hnone
        subst hnone
        exact expanded_step (reach_inv hload hstart hr1) (ih rfl) hstep

/-- C12: in every loop state of the driver on a grid within the size bound whose
first frontier entry is for a tile
that is already closed, the next iteration (pop, close, `astar`) returns no result,
leaves the grid exactly as it is and leaves the rest of the frontier as it is. -/
theorem stale_pop_harmless (lines : List String) (tiles0 : TileLines)
    (start finish : Coords) (s : LoopState) (prio : Dbl) (co : Coords) (rest : OpenList)
    (hload : createTiles lines = .ok tiles0) (hsize : SizeOk tiles0)
    (hstart : findStart tiles0 = .ok start)
    (hreach : Reach tiles0 start finish s) (hnone : s.1 = none)
    (hpop : s.2.2 = (prio, co) :: rest) (hclosed : (tileAt s.2.1 co).closed = true) :
    loopStep finish s = some (none, s.2.1, rest) := by
  have _ := hsize
  have hinv := reach_inv hload hstart hreach
  have hexp := reach_expanded hload hstart hreach hnone
  obtain ⟨r, tiles, ol⟩ := s
  simp only at hnone hpop hclosed hinv hexp
  subst hnone
  subst hpop
  simp only [loopStep, Option.some.injEq]
  obtain ⟨ct, hct, -⟩ := hinv.open_ok (prio, co) (List.mem_cons_self _ _)
  simp only at hct
  rw [tileAt_of_some hct] at hclosed
  have hsame : closeTile tiles co = tiles := by
    unfold closeTile
    rw [tileAt_of_some hct]
    have : ({ ct with closed := true } : Tile) = ct := by
      cases ct
      simp only at hclosed
      simp [hclosed]
    rw [this]
    exact setTile_same tiles co ct hct
  obtain ⟨hinv1, hsc, oriTile, og, ho, hoc, hog, -⟩ := close_inv hinv
  rw [hsame] at hinv1 hsc ho ⊢
  unfold astar
  rw [tileAt_of_some ho]
  apply astarLoop_noop
  intro d hd hv
  rw [ho] at hct
  cases hct
  obtain ⟨hpn, hle⟩ := hexp co ct ho hoc d hd hv
  rw [relaxCond_known hinv1 hv hpn]
  exact hle

/-- The tiles after the loop of `astar`: a tile is as before, or it is the relaxed
copy of a neighbour that was valid and passed the relaxation test. -/
theorem astarLoop_tiles (oriTile : Tile) (o finish : Coords) (ds : List (Dbl × Coords))
    (hnd : (ds.map Prod.snd).Nodup) :
    ∀ (tiles : TileLines) (ol : OpenList) (r : Option Coords) (tiles' : TileLines)
      (ol' : OpenList), astarLoop oriTile o finish ds tiles ol = (r, tiles', ol') →
      ∀ x, tileAt? tiles' x = tileAt? tiles x ∨ ∃ d ∈ ds,
        x = (o.1 + d.2.1, o.2 + d.2.2) ∧ isValidTile tiles x = true ∧
        relaxCond (calcHval tiles x finish) (dadd oriTile.gval d.1) (tileAt tiles x) = true ∧
        tileAt? tiles' x = some { tileAt tiles x with
          hval := calcHval tiles x finish, gval := dadd oriTile.gval d.1, parent := o } := by
  induction ds with
  | nil =>
    intro tiles ol r tiles' ol' h x
    simp only [astarLoop, Prod.mk.injEq] at h
    obtain ⟨-, rfl, -⟩ := h
    exact Or.inl rfl
  | cons dir rest ih =>
    rw [List.map_cons, List.nodup_cons] at hnd
    obtain ⟨hnotin, hnd'⟩ := hnd
    have hdistinct : ∀ d ∈ rest, (o.1 + dir.2.1, o.2 + dir.2.2) ≠ (o.1 + d.2.1, o.2 + d.2.2) := by
      intro d hd
      apply neighbour_ne
      intro hc
      apply hnotin
      rw [hc]
      exact List.mem_map_of_mem _ hd
    intro tiles ol r tiles' ol' h x
    rw [astarLoop] at h
    simp only at h
    have lift : (tileAt? tiles' x = tileAt? tiles x ∨ ∃ d ∈ rest,
        x = (o.1 + d.2.1, o.2 + d.2.2) ∧ isValidTile tiles x = true ∧
        relaxCond (calcHval tiles x finish) (dadd oriTile.gval d.1) (tileAt tiles x) = true ∧
        tileAt? tiles' x = some { tileAt tiles x with
          hval := calcHval tiles x finish, gval := dadd oriTile.gval d.1, parent := o }) →
        (tileAt? tiles' x = tileAt? tiles x ∨ ∃ d ∈ dir :: rest,
        x = (o.1 + d.2.1, o.2 + d.2.2) ∧ isValidTile tiles x = true ∧
        relaxCond (calcHval tiles x finish) (dadd oriTile.gval d.1) (tileAt tiles x) = true ∧
        tileAt? tiles' x = some { tileAt tiles x with
          hval := calcHval tiles x finish, gval := dadd oriTile.gval d.1, parent := o }) := by
      rintro (h1 | ⟨d, hd, h1⟩)
      · exact Or.inl h1
      · exact Or.inr ⟨d, List.mem_cons_of_mem _ hd, h1⟩
    by_cases hv0 : isValidTile tiles (o.1 + dir.2.1, o.2 + dir.2.2) = true
    · simp only [hv0, Bool.not_true, Bool.false_eq_true, if_false] at h
      obtain ⟨nt, hnt, -, -⟩ := isValidTile_some hv0
      by_cases hr0 : relaxCond (calcHval tiles (o.1 + dir.2.1, o.2 + dir.2.2) finish)
          (dadd oriTile.gval dir.1) (tileAt tiles (o.1 + dir.2.1, o.2 + dir.2.2)) = true
      · rw [if_pos hr0] at h
        have self : ∀ T : TileLines, tileAt? T (o.1 + dir.2.1, o.2 + dir.2.2) =
            tileAt? (setTile tiles (o.1 + dir.2.1, o.2 + dir.2.2)
              { tileAt tiles (o.1 + dir.2.1, o.2 + dir.2.2) with
                hval := calcHval tiles (o.1 + dir.2.1, o.2 + dir.2.2) finish,
                gval := dadd oriTile.gval dir.1, parent := o }) (o.1 + dir.2.1, o.2 + dir.2.2) →
            x = (o.1 + dir.2.1, o.2 + dir.2.2) →
            ∃ d ∈ dir :: rest,
              x = (o.1 + d.2.1, o.2 + d.2.2) ∧ isValidTile tiles x = true ∧
              relaxCond (calcHval tiles x finish) (dadd oriTile.gval d.1) (tileAt tiles x) = true ∧
              tileAt? T x = some { tileAt tiles x with
                hval := calcHval tiles x finish, gval := dadd oriTile.gval d.1, parent := o } := by
          intro T hT hx
          subst hx
          refine ⟨dir, List.mem_cons_self _ _, rfl, hv0, hr0, ?_⟩
          rw [hT]
          exact tileAt?_setTile_self _ _ _ _ hnt
        split at h
        · simp only [Prod.mk.injEq] at h
          obtain ⟨-, rfl, -⟩ := h
          by_cases hx : x = (o.1 + dir.2.1, o.2 + dir.2.2)
          · exact Or.inr (self _ rfl hx)
          · exact Or.inl (tileAt?_setTile_ne _ _ _ _ hx)
        · rcases ih hnd' _ _ r tiles' ol' h x with h1 | ⟨d, hd, h1, h2, h3, h4⟩
          · by_cases hx : x = (o.1 + dir.2.1, o.2 + dir.2.2)
            · refine Or.inr (self _ ?_ hx)
              rw [hx] at h1
              exact h1
            · left
              rw [h1]
              exact tileAt?_setTile_ne _ _ _ _ hx
          · have hne : x ≠ (o.1 + dir.2.1, o.2 + dir.2.2) := by
              rw [h1]
              exact (hdistinct d hd).symm
            rw [isValidTile_setTile_ne _ _ _ _ hne] at h2
            rw [tileAt_setTile_ne _ _ _ _ hne] at h3 h4
            exact Or.inr ⟨d, List.mem_cons_of_mem _ hd, h1, h2, h3, h4⟩
      · rw [if_neg hr0] at h
        exact lift (ih hnd' _ _ r tiles' ol' h x)
    · have hv0' : isValidTile tiles (o.1 + dir.2.1, o.2 + dir.2.2) = false := by
        simpa using hv0
      simp only [hv0', Bool.not_false, if_true] at h
      exact lift (ih hnd' _ _ r tiles' ol' h x)

/-- A call of `astar` does not change the number of closed tiles. -/
theorem astarLoop_closedCount (oriTile : Tile) (o finish : Coords) (ds : List (Dbl × Coords)) :
    ∀ (tiles : TileLines) (ol : OpenList) (r : Option Coords) (tiles' : TileLines)
      (ol' : OpenList), astarLoop oriTile o finish ds tiles ol = (r, tiles', ol') →
      closedCount tiles' = closedCount tiles := by
  induction ds with
  | nil =>
    intro tiles ol r tiles' ol' h
    simp only [astarLoop, Prod.mk.injEq] at h
    obtain ⟨-, rfl, -⟩ := h
    rfl
  | cons dir rest ih =>
    intro tiles ol r tiles' ol' h
    rw [astarLoop] at h
    simp only at h
    by_cases hv0 : isValidTile tiles (o.1 + dir.2.1, o.2 + dir.2.2) = true
    · simp only [hv0, Bool.not_true, Bool.false_eq_true, if_false] at h
      obtain ⟨nt, hnt, -, -⟩ := isValidTile_some hv0
      have hcc : closedCount (setTile tiles (o.1 + dir.2.1, o.2 + dir.2.2)
          { tileAt tiles (o.1 + dir.2.1, o.2 + dir.2.2) with
            hval := calcHval tiles (o.1 + dir.2.1, o.2 + dir.2.2) finish,
            gval := dadd oriTile.gval dir.1, parent := o }) = closedCount tiles := by
        have := gridSum_setTile (fun t => if t.closed = true then 1 else 0) tiles
          (o.1 + dir.2.1, o.2 + dir.2.2)
          { tileAt tiles (o.1 + dir.2.1, o.2 + dir.2.2) with
            hval := calcHval tiles (o.1 + dir.2.1, o.2 + dir.2.2) finish,
            gval := dadd oriTile.gval dir.1, parent := o } nt hnt
        unfold closedCount
        rw [tileAt_of_some hnt] at this ⊢
        dsimp only at this ⊢
        omega
      split at h
      · split at h
        · simp only [Prod.mk.injEq] at h
          obtain ⟨-, rfl, -⟩ := h
          exact hcc
        · exact (ih _ _ r tiles' ol' h).trans hcc
      · exact ih _ _ r tiles' ol' h
    · have hv0' : isValidTile tiles (o.1 + dir.2.1, o.2 + dir.2.2) = false := by
        simpa using hv0
      simp only [hv0', Bool.not_false, if_true] at h
      exact ih _ _ r tiles' ol' h

theorem sum_indicator_le (f : Tile → Nat) (hf : ∀ t, f t ≤ 1) (row : List Tile) :
    (row.map f).sum ≤ row.length := by
  induction row with
  | nil => simp
  | cons t ts ih =>
    simp only [List.map_cons, List.sum_cons, List.length_cons]
    have := hf t
    omega

theorem closedCount_le_gridSize (tiles : TileLines) : closedCount tiles ≤ gridSize tiles := by
  unfold closedCount gridSize
  induction tiles with
  | nil => simp
  | cons row rows ih =>
    simp only [List.map_cons, List.sum_cons]
    have := sum_indicator_le (fun t => if t.closed = true then 1 else 0)
      (fun t => by dsimp only; split <;> omega) row
    omega

theorem sum_le_of_forall_le (l : List Nat) (b : Nat) (h : ∀ x ∈ l, x ≤ b) :
    l.sum ≤ l.length * b := by
  induction l with
  | nil => simp
  | cons x xs ih =>
    simp only [List.sum_cons, List.length_cons]
    have h1 := h x (List.mem_cons_self _ _)
    have h2 := ih (fun y hy => h y (List.mem_cons_of_mem _ hy))
    rw [Nat.add_mul]
    omega

theorem gridSize_le {tiles : TileLines} (h : SizeOk tiles) : gridSize tiles ≤ 2 ^ 30 := by
  unfold gridSize
  have h1 := sum_le_of_forall_le (tiles.map List.length) 32768 (by
    intro x hx
    rw [List.mem_map] at hx
    obtain ⟨row, hrow, rfl⟩ := hx
    exact h.2 row hrow)
  rw [List.length_map] at h1
  have h2 := Nat.mul_le_mul_right 32768 h.1
  have : (32768 : Nat) * 32768 = 2 ^ 30 := by norm_num
  omega

theorem closedCount_le {tiles0 tiles : TileLines} (hsize : SizeOk tiles0)
    (hdims : tiles.map List.length = tiles0.map List.length) : closedCount tiles ≤ 2 ^ 30 := by
  have h1 := closedCount_le_gridSize tiles
  have h2 := gridSize_le hsize
  unfold gridSize at h1 h2
  rw [hdims] at h1
  omega

theorem step_consts : 2 ^ 1074 ≤ 6305039478318694 * 2 ^ 1022 ∧
    6305039478318694 * 2 ^ 1022 + 2 ^ 1053 ≤ 2 ^ 1075 ∧
    2 ^ 1075 * 2 ^ 30 + 2 ^ 1075 ≤ 2 ^ 1106 ∧ 2 ^ 1106 = 2 ^ 53 * 2 ^ 1053 ∧
    (2:Nat) ^ 1106 < 2 ^ 2098 ∧ (2:Nat) ^ 1053 < 2 ^ 1074 := by decide!

/-- Adding a step cost to a cost of at most `2 ^ 31` gives a finite cost that is
larger, by at most `2`. -/
theorem dadd_step_bounds {k : Nat} {c : Dbl} (hk : k ≤ 2 ^ 1075 * 2 ^ 30)
    (hc : c = dOne ∨ c = d14) :
    ∃ k', dadd (.fin k) c = .fin k' ∧ k < k' ∧ k' ≤ k + 2 ^ 1075 := by
  obtain ⟨c1, c2, c3, c4, c5, c6⟩ := step_consts
  have hc' : ∃ ck, c = .fin ck ∧ 2 ^ 1074 ≤ ck ∧ ck ≤ 6305039478318694 * 2 ^ 1022 := by
    rcases hc with rfl | rfl
    · exact ⟨_, rfl, le_refl _, c1⟩
    · exact ⟨_, rfl, c1, le_refl _⟩
  obtain ⟨ck, rfl, hck1, hck2⟩ := hc'
  obtain ⟨e1, e2⟩ := round53_err (k + ck)
  have hb : round53 (k + ck) < 2 ^ 2098 := by omega
  refine ⟨round53 (k + ck), ?_, ?_, ?_⟩
  · simp only [dadd, rnd]
    rw [if_pos hb]
  · omega
  · omega

theorem err_consts : 10 * (6305039478318694 * 2 ^ 1022) + 2 ^ 1024 = 14 * 2 ^ 1074 ∧
    2 ^ 1024 + 10 * 2 ^ 1053 ≤ 11 * 2 ^ 1053 := by decide!

/-- Adding a step cost to a cost of at most `2 ^ 31`: the result differs from the
exact sum with the cost in tenths (`10` or `14`) by less than `2 ^ (-20)`. -/
theorem dadd_step_err {k P : Nat} {c : Dbl} (hk : k ≤ 2 ^ 1075 * 2 ^ 30)
    (hc : (c = dOne ∧ P = 10) ∨ (c = d14 ∧ P = 14)) :
    ∃ k', dadd (.fin k) c = .fin k' ∧
      10 * k' ≤ 10 * k + P * 2 ^ 1074 + 11 * 2 ^ 1053 ∧
      10 * k + P * 2 ^ 1074 ≤ 10 * k' + 11 * 2 ^ 1053 := by
  obtain ⟨c1, c2, c3, c4, c5, c6⟩ := step_consts
  obtain ⟨d1, d2⟩ := err_consts
  have hc' : ∃ ck, c = .fin ck ∧ ck ≤ 6305039478318694 * 2 ^ 1022 ∧
      10 * ck ≤ P * 2 ^ 1074 ∧ P * 2 ^ 1074 ≤ 10 * ck + 2 ^ 1024 := by
    rcases hc with ⟨rfl, rfl⟩ | ⟨rfl, rfl⟩
    · exact ⟨_, rfl, c1, le_refl _, by omega⟩
    · exact ⟨_, rfl, le_refl _, by omega, by omega⟩
  obtain ⟨ck, rfl, hck1, hck2, hck3⟩ := hc'
  obtain ⟨e1, e2⟩ := round53_err (k + ck)
  have hb : round53 (k + ck) < 2 ^ 2098 := by omega
  refine ⟨round53 (k + ck), ?_, ?_, ?_⟩
  · simp only [dadd, rnd]
    rw [if_pos hb]
  · omega
  · omega

theorem closedCount_closeTile (tiles : TileLines) (co : Coords) (t : Tile)
    (ht : tileAt? tiles co = some t) :
    closedCount (closeTile tiles co) =
      closedCount tiles + (if t.closed = true then 0 else 1) := by
  have := gridSum_setTile (fun t => if t.closed = true then 1 else 0) tiles co
    { t with closed := true } t ht
  unfold closedCount closeTile
  rw [tileAt_of_some ht]
  dsimp only at this ⊢
  split <;> simp_all

/-- The state in which `main` enters its loop satisfies the bound on the costs. -/
theorem gbound_init {lines : List String} {tiles0 : TileLines} {start : Coords}
    (finish : Coords)
    (hload : createTiles lines = .ok tiles0) (hstart : findStart tiles0 = .ok start) :
    GBound tiles0 start (initTiles tiles0 start) := by
  have hinv := inv_init finish hload hstart
  constructor
  · exact map_length_setTile _ _ _
  · intro co t ht hk
    obtain ⟨st, hst, hsp, hsg, -⟩ := hinv.start_tile
    have hclosed := init_not_closed start hload co t ht
    by_cases hco : co = start
    · subst hco
      rw [hst] at ht
      cases ht
      refine ⟨0, hsg, ?_⟩
      rw [hclosed]
      simp only [Bool.false_eq_true, if_false]
      omega
    · rcases hk with hk | hk
      · exfalso
        by_contra
        have hfresh : ∀ co t, tileAt? tiles0 co = some t → t = Tile.new t.data := by
          rw [createTiles_ok hload]
          exact mkGrid_fresh lines
        unfold initTiles at ht
        rw [tileAt?_setTile_ne _ _ _ _ hco] at ht
        apply hk
        rw [hfresh co t ht]
        rfl
      · exact absurd hk hco

/-- One iteration of the loop of `main` keeps the bound on the costs. -/
theorem step_gbound {tiles0 : TileLines} {start finish : Coords} {tiles : TileLines}
    {p : Dbl} {co : Coords} {rest : OpenList} {r : Option Coords} {tiles' : TileLines}
    {ol' : OpenList} (hsize : SizeOk tiles0)
    (hinv : Inv tiles0 start finish tiles ((p, co) :: rest))
    (hgb : GBound tiles0 start tiles)
    (h : astar (closeTile tiles co) rest co finish = (r, tiles', ol')) :
    GBound tiles0 start tiles' := by
  obtain ⟨hinv1, hsc, oriTile, og, ho, hoc, hog, -, -⟩ := close_inv hinv
  obtain ⟨ct, hct, hcp⟩ := hinv.open_ok (p, co) (List.mem_cons_self _ _)
  simp only at hct hcp
  have hdims1 : (closeTile tiles co).map List.length = tiles0.map List.length :=
    (closeTile_map_length tiles co).trans hgb.dims
  have hcc1 := closedCount_closeTile tiles co ct hct
  -- the bound after closing
  have hb1 : ∀ x t, tileAt? (closeTile tiles co) x = some t →
      (t.parent ≠ noParent ∨ x = start) →
      ∃ k, t.gval = .fin k ∧
        k + (if t.closed = true then 2 ^ 1075 else 0) ≤
          2 ^ 1075 * closedCount (closeTile tiles co) := by
    intro x t ht hk
    rw [tileAt?_closeTile] at ht
    cases hx : tileAt? tiles x with
    | none => rw [hx] at ht; cases ht
    | some t0 =>
      rw [hx] at ht
      simp only [Option.map_some', Option.some.injEq] at ht
      by_cases hxc : x = co
      · subst hxc
        rw [hct] at hx
        cases hx
        rw [if_pos rfl] at ht
        subst ht
        obtain ⟨k, hk1, hk2⟩ := hgb.bound x ct hct (by
          rcases hcp with h1 | h1
          · exact Or.inr h1
          · exact Or.inl h1)
        refine ⟨k, hk1, ?_⟩
        rw [hcc1, Nat.mul_add]
        dsimp only
        rw [if_pos rfl]
        by_cases hcl : ct.closed = true
        · rw [if_pos hcl] at hk2 ⊢
          omega
        · rw [if_neg hcl] at hk2 ⊢
          omega
      · rw [if_neg hxc] at ht
        subst ht
        obtain ⟨k, hk1, hk2⟩ := hgb.bound x t0 hx hk
        refine ⟨k, hk1, ?_⟩
        rw [hcc1, Nat.mul_add]
        omega
  unfold astar at h
  rw [tileAt_of_some ho] at h
  obtain ⟨f1, -, -, -, -, -⟩ := astarLoop_frame _ _ _ _ _ _ _ _ _ h
  have hcc := astarLoop_closedCount _ _ _ _ _ _ _ _ _ h
  have htiles := astarLoop_tiles _ _ _ dirs dirs_offsets_nodup _ _ _ _ _ h
  have hdims' : tiles'.map List.length = tiles0.map List.length := f1.trans hdims1
  have hle := closedCount_le hsize hdims1
  refine ⟨hdims', ?_⟩
  intro x t ht hk
  rw [hcc]
  rcases htiles x with hsame | ⟨d, hd, hx, hv, -, hnew⟩
  · rw [hsame] at ht
    exact hb1 x t ht hk
  · rw [hnew] at ht
    simp only [Option.some.injEq] at ht
    subst ht
    obtain ⟨nt, hnt, -, hnc⟩ := isValidTile_some hv
    rw [tileAt_of_some hnt]
    dsimp only
    rw [hnc]
    obtain ⟨ko, hko1, hko2⟩ := hb1 co oriTile ho (by
      rcases hcp with h1 | h1
      · exact Or.inr h1
      · left
        have := tileAt?_closeTile tiles co co
        rw [hct, ho] at this
        simp only [Option.map_some', if_true, Option.some.injEq] at this
        rw [this]
        exact h1)
    rw [hoc, if_pos rfl] at hko2
    have hko3 : ko ≤ 2 ^ 1075 * 2 ^ 30 := by
      have := Nat.mul_le_mul_left (2 ^ 1075) hle
      omega
    obtain ⟨k', hk'1, -, hk'3⟩ := dadd_step_bounds hko3 (dirs_cost hd)
    rw [hko1]
    refine ⟨k', hk'1, ?_⟩
    simp only [Bool.false_eq_true, if_false]
    omega

/-- Every loop state that `main` goes through on a grid within the size bound
satisfies the bound on the costs. -/
theorem reach_gbound {lines : List String} {tiles0 : TileLines} {start finish : Coords}
    (hload : createTiles lines = .ok tiles0) (hstart : findStart tiles0 = .ok start)
    (hsize : SizeOk tiles0) {s : LoopState} (hreach : Reach tiles0 start finish s) :
    GBound tiles0 start s.2.1 := by
  induction hreach with
  | init => exact gbound_init finish hload hstart
  | @step s1 s2 hr1 hstep ih =>
    obtain ⟨r, tiles, ol⟩ := s1
    cases r with
    | some c => simp [loopStep] at hstep
    | none =>
      cases ol with
      | nil => simp [loopStep] at hstep
      | cons e rest =>
        obtain ⟨p, co⟩ := e
        simp only [loopStep, Option.some.injEq] at hstep
        obtain ⟨r2, tiles2, ol2⟩ := s2
        exact step_gbound hsize (reach_inv hload hstart hr1) ih hstep

theorem stepCost_comm (a b : Coords) : stepCost a b = stepCost b a := by
  unfold stepCost
  simp only [eq_comm]

theorem adjacent_symm {a b : Coords} (h : adjacent a b) : adjacent b a := by
  unfold adjacent at *
  obtain ⟨h1, h2, h3⟩ := h
  exact ⟨Ne.symm h1, by omega, by omega⟩

theorem pathCost_append_singleton (l : List Coords) (a : Coords) :
    pathCost (l ++ [a]) =
      pathCost l + (match l.getLast? with
        | some b => stepCost b a
        | none => 0) := by
  induction l with
  | nil => simp [pathCost]
  | cons x xs ih =>
    cases xs with
    | nil => simp [pathCost]
    | cons y ys =>
      have ih' : pathCost (y :: (ys ++ [a])) = pathCost (y :: ys) +
          (match (y :: ys).getLast? with
            | some b => stepCost b a
            | none => 0) := ih
      show stepCost x y + pathCost (y :: (ys ++ [a])) = _
      rw [ih', List.getLast?_cons_cons]
      show _ = stepCost x y + pathCost (y :: ys) + _
      omega

theorem pathCost_reverse (l : List Coords) : pathCost l.reverse = pathCost l := by
  induction l with
  | nil => rfl
  | cons x xs ih =>
    rw [List.reverse_cons, pathCost_append_singleton, ih, List.getLast?_reverse]
    cases xs with
    | nil => simp [pathCost]
    | cons y ys =>
      simp only [List.head?_cons, pathCost]
      rw [stepCost_comm]
      omega

theorem stepsOk_iff_chain (p : List Coords) : stepsOk p ↔ List.Chain' adjacent p := by
  induction p with
  | nil => simp [stepsOk]
  | cons a l ih =>
    cases l with
    | nil => simp [stepsOk]
    | cons b rest =>
      rw [List.chain'_cons]
      rw [← ih]
      rfl

theorem isPath_reverse {tiles : TileLines} {p : List Coords} (h : IsPath tiles p) :
    IsPath tiles p.reverse := by
  obtain ⟨h1, h2⟩ := h
  refine ⟨fun c hc => h1 c (List.mem_reverse.1 hc), ?_⟩
  rw [stepsOk_iff_chain] at h2 ⊢
  rw [List.chain'_reverse]
  exact h2.imp (fun a b hab => adjacent_symm hab)

theorem closed_passable {tiles0 : TileLines} {start finish : Coords} {tiles : TileLines}
    {ol : OpenList} (hinv : Inv tiles0 start finish tiles ol) {co : Coords} {p : Tile}
    (hp : tileAt? tiles co = some p) (hc : p.closed = true) : passable tiles0 co := by
  have hd : p.data ≠ 'o' := by
    by_cases hpar : p.parent = noParent
    · by_cases hs : co = start
      · subst hs
        obtain ⟨st, hst, -, -, -, hsd⟩ := hinv.start_tile
        rw [hp] at hst
        cases hst
        exact hsd
      · have := (hinv.fresh co p hp hpar hs).2.2
        rw [hc] at this
        cases this
    · obtain ⟨_, -, -, -, hdata, -⟩ := hinv.link co p hp hpar
      exact hdata
  refine ⟨p.data, ?_, hd⟩
  rw [← hinv.symbols co]
  simp [symbolAt, hp]

theorem parentChain_noParent (fuel : Nat) (tiles : TileLines) :
    parentChain fuel tiles noParent = some [] := by
  unfold parentChain
  simp [noParent]

theorem parentChain_succ (fuel : Nat) (tiles : TileLines) (co : Coords)
    (h : 0 ≤ co.1 ∧ 0 ≤ co.2) :
    parentChain (fuel + 1) tiles co =
      (parentChain fuel tiles (tileAt tiles co).parent).map (co :: ·) := by
  rw [parentChain]
  have : co.1 ≠ -1 ∧ co.2 ≠ -1 := by omega
  rw [if_pos this]

theorem walkCostD_snoc (g : Dbl) (l : List Coords) (x a : Coords) :
    walkCostD g (l ++ [x, a]) = dadd (walkCostD g (l ++ [x])) (stepCostD x a) := by
  induction l generalizing g with
  | nil => simp [walkCostD]
  | cons y ys ih =>
    cases ys with
    | nil => simp [walkCostD]
    | cons z zs =>
      have h1 : (y :: z :: zs) ++ [x, a] = y :: z :: (zs ++ [x, a]) := rfl
      have h2 : (y :: z :: zs) ++ [x] = y :: z :: (zs ++ [x]) := rfl
      rw [h1, h2, walkCostD, walkCostD]
      exact ih _

theorem stepCostD_comm (a b : Coords) : stepCostD a b = stepCostD b a := by
  unfold stepCostD
  simp only [eq_comm]

theorem gbound_closed {tiles0 tiles : TileLines} {start : Coords} (hsize : SizeOk tiles0)
    (hgb : GBound tiles0 start tiles) {co : Coords} {t : Tile}
    (ht : tileAt? tiles co = some t) (hk : t.parent ≠ noParent ∨ co = start) :
    ∃ k, t.gval = .fin k ∧ k ≤ 2 ^ 1075 * 2 ^ 30 := by
  obtain ⟨k, h1, h2⟩ := hgb.bound co t ht hk
  have := Nat.mul_le_mul_left (2 ^ 1075) (closedCount_le hsize hgb.dims)
  exact ⟨k, h1, by omega⟩

/-- Under the invariants, the parent links from a reached tile lead to the start
along a walk of passable cells without repetition; the cost of the tile is the sum
of the step costs along the walk from the start, in binary64, and differs from the
exact sum by less than `2 ^ (-20)` per step. -/
theorem chain_spec {tiles0 : TileLines} {start finish : Coords} {tiles : TileLines}
    {ol : OpenList} (hinv : Inv tiles0 start finish tiles ol)
    (hgb : GBound tiles0 start tiles) (hsize : SizeOk tiles0) :
    ∀ (g : Nat) (co : Coords) (t : Tile), tileAt? tiles co = some t →
      (t.parent ≠ noParent ∨ co = start) → t.gval = .fin g →
      ∃ cells : List Coords,
        (∀ fuel, cells.length ≤ fuel → parentChain fuel tiles co = some cells) ∧
        cells.head? = some co ∧ cells.getLast? = some start ∧
        List.Chain' adjacent cells ∧ (∀ c ∈ cells, passable tiles0 c) ∧
        pathCostD cells.reverse = .fin g ∧
        (10 * g ≤ pathCost cells * 2 ^ 1074 + 11 * 2 ^ 1053 * (cells.length - 1) ∧
          pathCost cells * 2 ^ 1074 ≤ 10 * g + 11 * 2 ^ 1053 * (cells.length - 1)) ∧
        (∀ c ∈ cells, ∃ tc gc, tileAt? tiles c = some tc ∧ tc.gval = .fin gc ∧ gc ≤ g) ∧
        cells.Nodup ∧ (∀ c ∈ cells, c ≠ start → c.2 < (lastCol tiles : Int)) := by
  intro g
  induction g using Nat.strong_induction_on with
  | _ g ih =>
    intro co t ht hknown hg
    have hnn := tileAt?_nonneg ht
    by_cases hp : t.parent = noParent
    · have hcs : co = start := by
        rcases hknown with h | h
        · exact absurd hp h
        · exact h
      subst hcs
      obtain ⟨st, hst, -, hsg, -, hsd⟩ := hinv.start_tile
      rw [ht] at hst
      cases hst
      rw [hg] at hsg
      have hg0 : g = 0 := Dbl.fin.inj hsg
      subst hg0
      refine ⟨[co], ?_, rfl, rfl, List.chain'_singleton _, ?_, rfl, ?_, ?_,
        List.nodup_singleton _, ?_⟩
      · intro fuel hf
        cases fuel with
        | zero => simp at hf
        | succ fuel =>
          rw [parentChain_succ _ _ _ hnn, tileAt_of_some ht, hp, parentChain_noParent]
          rfl
      · intro c hc
        simp only [List.mem_singleton] at hc
        subst hc
        refine ⟨t.data, ?_, hsd⟩
        rw [← hinv.symbols c]
        simp [symbolAt, ht]
      · have hp0 : pathCost [co] = 0 := rfl
        rw [hp0]
        constructor <;> omega
      · intro c hc
        simp only [List.mem_singleton] at hc
        subst hc
        exact ⟨t, 0, ht, hg, le_refl _⟩
      · intro c hc hne
        simp only [List.mem_singleton] at hc
        exact absurd hc hne
    · obtain ⟨p, hp1, hp2, ⟨dir, hdir, hco, hgt⟩, hdata, -, hcol, -⟩ := hinv.link co t ht hp
      obtain ⟨hadj, -, -, hcostD, hcost⟩ := dirs_step hdir t.parent
      rw [← hco] at hadj hcostD hcost
      have hpknown : p.parent ≠ noParent ∨ t.parent = start := by
        by_cases hpp : p.parent = noParent
        · right
          by_contra hne
          have := (hinv.fresh t.parent p hp1 hpp hne).2.2
          rw [hp2] at this
          cases this
        · exact Or.inl hpp
      obtain ⟨g', hpg, hpb⟩ := gbound_closed hsize hgb hp1 hpknown
      have hcost' : (dir.1 = dOne ∧ stepCost co t.parent = 10) ∨
          (dir.1 = d14 ∧ stepCost co t.parent = 14) := by
        rcases hcost with ⟨h1, h2, -⟩ | ⟨h1, h2, -⟩
        · exact Or.inl ⟨h1, h2⟩
        · exact Or.inr ⟨h1, h2⟩
      obtain ⟨k1, hk1, hlt, -⟩ := dadd_step_bounds hpb (dirs_cost hdir)
      obtain ⟨k2, hk2, herr1, herr2⟩ := dadd_step_err hpb hcost'
      rw [hg, hpg, hk1] at hgt
      have hgk : g = k1 := Dbl.fin.inj hgt
      rw [hk1] at hk2
      have hk12 : k1 = k2 := Dbl.fin.inj hk2
      subst hgk
      subst hk12
      obtain ⟨cells, hc1, hc2, hc3, hc4, hc5, hc6, hc6', hc7, hc8, hc9⟩ :=
        ih g' hlt t.parent p hp1 hpknown hpg
      have hne : cells ≠ [] := by
        intro h
        rw [h] at hc2
        cases hc2
      obtain ⟨x, xs, rfl⟩ := List.exists_cons_of_ne_nil hne
      simp only [List.head?_cons, Option.some.injEq] at hc2
      subst hc2
      refine ⟨co :: t.parent :: xs, ?_, rfl, ?_, ?_, ?_, ?_, ?_, ?_, ?_, ?_⟩
      · intro fuel hf
        cases fuel with
        | zero => simp at hf
        | succ fuel =>
          rw [parentChain_succ _ _ _ hnn, tileAt_of_some ht,
            hc1 fuel (by simpa using hf)]
          rfl
      · rw [List.getLast?_cons_cons]
        exact hc3
      · exact List.Chain'.cons hadj hc4
      · intro c hc
        rw [List.mem_cons] at hc
        rcases hc with rfl | hc
        · refine ⟨t.data, ?_, hdata⟩
          rw [← hinv.symbols c]
          simp [symbolAt, ht]
        · exact hc5 c hc
      · have hrev : (co :: t.parent :: xs).reverse = xs.reverse ++ [t.parent, co] := by
          simp
        have hrev' : (t.parent :: xs).reverse = xs.reverse ++ [t.parent] := by
          simp
        unfold pathCostD at hc6 ⊢
        rw [hrev, walkCostD_snoc, ← hrev', hc6, hcostD]
        exact hk1
      · have hp : pathCost (co :: t.parent :: xs) =
            stepCost co t.parent + pathCost (t.parent :: xs) := rfl
        rw [hp]
        simp only [List.length_cons, Nat.add_sub_cancel] at hc6' ⊢
        obtain ⟨a1, a2⟩ := hc6'
        generalize pathCost (t.parent :: xs) = P at a1 a2 ⊢
        generalize stepCost co t.parent = S at herr1 herr2 ⊢
        rw [Nat.add_mul, Nat.mul_add]
        constructor <;> omega
      · intro c hc
        rw [List.mem_cons] at hc
        rcases hc with rfl | hc
        · exact ⟨t, g, ht, hg, le_refl _⟩
        · obtain ⟨tc, gc, h1, h2, h3⟩ := hc7 c hc
          exact ⟨tc, gc, h1, h2, by omega⟩
      · rw [List.nodup_cons]
        refine ⟨?_, hc8⟩
        intro hmem
        obtain ⟨tc, gc, h1, h2, h3⟩ := hc7 co hmem
        rw [ht] at h1
        cases h1
        rw [hg] at h2
        have := Dbl.fin.inj h2
        omega
      · intro c hc hcs
        rw [List.mem_cons] at hc
        rcases hc with rfl | hc
        · exact hcol
        · exact hc9 c hc hcs

theorem writePath_cells (fuel : Nat) :
    ∀ (tiles tiles2 : TileLines) (co : Coords),
      (∀ x, (tileAt tiles2 x).parent = (tileAt tiles x).parent) →
      (writePath fuel tiles2 co).map Prod.snd = parentChain fuel tiles co := by
  induction fuel with
  | zero =>
    intro tiles tiles2 co _
    rw [writePath, parentChain]
    split <;> rfl
  | succ fuel ih =>
    intro tiles tiles2 co hpar
    rw [writePath, parentChain]
    split
    · simp only
      have hpar2 : ∀ x, (tileAt (setTile tiles2 co { tileAt tiles2 co with data := '*' })
          x).parent = (tileAt tiles x).parent := by
        intro x
        rw [← hpar x]
        unfold tileAt
        rw [tileAt?_setTile]
        split
        · rename_i hx
          subst hx
          cases tileAt? tiles2 x <;> rfl
        · rfl
      have := ih tiles _
        (tileAt (setTile tiles2 co { tileAt tiles2 co with data := '*' }) co).parent hpar2
      rw [← hpar2 co, ← this]
      generalize writePath fuel (setTile tiles2 co { tileAt tiles2 co with data := '*' })
        (tileAt (setTile tiles2 co { tileAt tiles2 co with data := '*' }) co).parent = w
      cases w <;> rfl
    · rfl

theorem writePath_of_chain {fuel : Nat} {tiles : TileLines} {co : Coords}
    {cells : List Coords} (h : parentChain fuel tiles co = some cells) :
    ∃ tiles', writePath fuel tiles co = some (tiles', cells) := by
  have := writePath_cells fuel tiles tiles co (fun _ => rfl)
  rw [h] at this
  cases hw : writePath fuel tiles co with
  | none => rw [hw] at this; cases this
  | some res =>
    rw [hw] at this
    simp only [Option.map_some', Option.some.injEq] at this
    exact ⟨res.1, by rw [← this]⟩

theorem search_eq {tiles0 : TileLines} {start finish : Coords}
    (hstart : findStart tiles0 = .ok start) (hfinish : findFinish tiles0 = .ok finish)
    (fuel : Nat) :
    search fuel tiles0 =
      .ok (searchLoop finish fuel (initTiles tiles0 start) (initOpen start)) := by
  unfold search
  rw [hstart]
  simp only
  rw [findFinish_initTiles, hfinish]

theorem searchLoop_reach {tiles0 : TileLines} {start finish : Coords} (fuel : Nat) :
    ∀ (tiles : TileLines) (ol : OpenList) (res : LoopState),
      Reach tiles0 start finish (none, tiles, ol) →
      searchLoop finish fuel tiles ol = some res → Reach tiles0 start finish res := by
  induction fuel with
  | zero =>
    intro tiles ol res hr h
    cases ol with
    | nil =>
      simp only [searchLoop, Option.some.injEq] at h
      rw [← h]; exact hr
    | cons e rest => simp [searchLoop] at h
  | succ fuel ih =>
    intro tiles ol res hr h
    cases ol with
    | nil =>
      simp only [searchLoop, Option.some.injEq] at h
      rw [← h]; exact hr
    | cons e rest =>
      obtain ⟨p, co⟩ := e
      rcases hres : astar (closeTile tiles co) rest co finish with ⟨r1, tiles1, ol1⟩
      have hr1 : Reach tiles0 start finish (r1, tiles1, ol1) :=
        Reach.step hr (by simp [loopStep, hres])
      simp only [searchLoop, hres] at h
      cases r1 with
      | some c =>
        simp only [Option.some.injEq] at h
        rw [← h]; exact hr1
      | none => exact ih tiles1 ol1 res hr1 h

theorem search_reach {tiles0 : TileLines} {start finish : Coords}
    (hstart : findStart tiles0 = .ok start) (hfinish : findFinish tiles0 = .ok finish)
    {fuel : Nat} {res : LoopState} (h : search fuel tiles0 = .ok (some res)) :
    Reach tiles0 start finish res := by
  rw [search_eq hstart hfinish] at h
  simp only [Except.ok.injEq] at h
  exact searchLoop_reach fuel _ _ res Reach.init h

theorem search_of_finalState {fuel : Nat} {tiles0 : TileLines} {s : LoopState}
    (h : finalState fuel tiles0 = some s) : search fuel tiles0 = .ok (some s) := by
  unfold finalState at h
  split at h
  · rename_i r hr
    rw [hr, h]
  · cases h

/-- When the driver has found the finish: the final state satisfies the invariant,
the returned coordinate is the finish and its tile has a parent. -/
theorem search_found {lines : List String} {tiles0 : TileLines} {start finish : Coords}
    (hload : createTiles lines = .ok tiles0) (hstart : findStart tiles0 = .ok start)
    (hfinish : findFinish tiles0 = .ok finish)
    {fuel : Nat} {fin : Coords} {tiles : TileLines} {ol : OpenList}
    (hfound : search fuel tiles0 = .ok (some (some fin, tiles, ol))) :
    Inv tiles0 start finish tiles ol ∧ fin = finish ∧
      ∃ t, tileAt? tiles finish = some t ∧ t.parent ≠ noParent ∧
        ∃ p, tileAt? tiles t.parent = some p ∧ adjacent finish t.parent := by
  rw [search_eq hstart hfinish] at hfound
  simp only [Except.ok.injEq] at hfound
  obtain ⟨hinv, -, hf⟩ := searchLoop_inv fuel _ _ _ _ _ (inv_init finish hload hstart) hfound
  obtain ⟨hfin, o, dir, hdir, hco, t, ht, hpar, hpn⟩ := hf fin rfl
  refine ⟨hinv, hfin, ?_⟩
  obtain ⟨p, hp1, -, ⟨d, hd, hdco, hg⟩, -, -⟩ := hinv.link finish t ht hpn
  refine ⟨t, ht, hpn, p, hp1, ?_⟩
  rw [hdco]
  exact (dirs_step hd t.parent).1

theorem pathCost_ge (cells : List Coords) : 10 * (cells.length - 1) ≤ pathCost cells := by
  induction cells with
  | nil => simp [pathCost]
  | cons a l ih =>
    cases l with
    | nil => simp [pathCost]
    | cons b rest =>
      have h : pathCost (a :: b :: rest) = stepCost a b + pathCost (b :: rest) := rfl
      have hs : 10 ≤ stepCost a b := by
        unfold stepCost
        split <;> omega
      rw [h]
      simp only [List.length_cons, Nat.add_sub_cancel] at ih ⊢
      omega

/-- When the driver has found the finish on a grid within the size bound, the
parent links from the finish form a duplicate-free walk over passable cells back to
the start, `writePath` visits exactly this walk, and the cost stored in the finish
tile is the cost of the walk from the start, added up in binary64. -/
theorem found_chain {lines : List String} {tiles0 : TileLines} {start finish : Coords}
    (hload : createTiles lines = .ok tiles0) (hsize : SizeOk tiles0)
    (hstart : findStart tiles0 = .ok start)
    (hfinish : findFinish tiles0 = .ok finish)
    {fuel : Nat} {fin : Coords} {tiles : TileLines} {ol : OpenList}
    (hfound : search fuel tiles0 = .ok (some (some fin, tiles, ol))) :
    ∃ (cells : List Coords) (g : Nat),
      (∀ fuel', cells.length ≤ fuel' →
        ∃ tiles', writePath fuel' tiles fin = some (tiles', cells)) ∧
      cells.head? = some finish ∧ cells.getLast? = some start ∧
      List.Chain' adjacent cells ∧ (∀ c ∈ cells, passable tiles0 c) ∧
      (tileAt tiles finish).gval = .fin g ∧ pathCostD cells.reverse = .fin g ∧
      (10 * g ≤ pathCost cells * 2 ^ 1074 + 11 * 2 ^ 1053 * (cells.length - 1) ∧
        pathCost cells * 2 ^ 1074 ≤ 10 * g + 11 * 2 ^ 1053 * (cells.length - 1)) ∧
      cells.Nodup ∧ (tileAt tiles start).parent = noParent ∧
      (∀ c ∈ cells, c ≠ start → c.2 < (lastCol tiles0 : Int)) := by
  obtain ⟨hinv, hfin, t, ht, hpn, -⟩ := search_found hload hstart hfinish hfound
  have hgb := reach_gbound hload hstart hsize (search_reach hstart hfinish hfound)
  simp only at hgb
  obtain ⟨g, hg, -⟩ := gbound_closed hsize hgb ht (Or.inl hpn)
  obtain ⟨cells, h1, h2, h3, h4, h5, h6, h6', -, h8, h9⟩ :=
    chain_spec hinv hgb hsize g finish t ht (Or.inl hpn) hg
  obtain ⟨st, hst, hsp, -, -⟩ := hinv.start_tile
  have hlc : lastCol tiles = lastCol tiles0 := by
    rw [lastCol_eq, lastCol_eq, hgb.dims]
  refine ⟨cells, g, ?_, h2, h3, h4, h5, ?_, h6, h6', h8, ?_, ?_⟩
  · intro fuel' hf
    rw [hfin]
    exact writePath_of_chain (h1 fuel' hf)
  · rw [tileAt_of_some ht, hg]
  · rw [tileAt_of_some hst, hsp]
  · rw [← hlc]
    exact h9

/-- In a state that satisfies the invariants the parent links from any cell of the
grid form a duplicate-free chain over cells of the grid. -/
theorem chain_any {tiles0 : TileLines} {start finish : Coords} {tiles : TileLines}
    {ol : OpenList} (hinv : Inv tiles0 start finish tiles ol)
    (hgb : GBound tiles0 start tiles) (hsize : SizeOk tiles0) {co : Coords}
    (hco : inGrid tiles0 co) :
    ∃ cells : List Coords,
      (∀ fuel, cells.length ≤ fuel → parentChain fuel tiles co = some cells) ∧
        cells.Nodup ∧ ∀ c ∈ cells, inGrid tiles0 c := by
  have hin : inGrid tiles co := by
    rw [inGrid_iff_symbol, hinv.symbols, ← inGrid_iff_symbol]
    exact hco
  unfold inGrid at hin
  cases ht : tileAt? tiles co with
  | none => rw [ht] at hin; cases hin
  | some t =>
    by_cases hk : t.parent ≠ noParent ∨ co = start
    · obtain ⟨g, hg, -⟩ := gbound_closed hsize hgb ht hk
      obtain ⟨cells, h1, -, -, -, h5, -, -, -, h8, -⟩ :=
        chain_spec hinv hgb hsize g co t ht hk hg
      exact ⟨cells, h1, h8, fun c hc => passable_inGrid (h5 c hc)⟩
    · have hp : t.parent = noParent := by
        by_contra hp
        exact hk (Or.inl hp)
      refine ⟨[co], ?_, List.nodup_singleton _, ?_⟩
      · intro fuel hf
        cases fuel with
        | zero => simp at hf
        | succ fuel =>
          rw [parentChain_succ _ _ _ (tileAt?_nonneg ht), tileAt_of_some ht, hp,
            parentChain_noParent]
          rfl
      · intro c hc
        simp only [List.mem_singleton] at hc
        rw [hc]
        exact hco

/-- C3: when the driver ends in Found on a grid within the size bound, `writePath`
(with enough fuel) visits a list of cells that starts at the finish, ends at the
start tile, whose parent is still the sentinel `(-1,-1)`, in which consecutive cells
are 8-neighbours and every cell is a cell of the loaded grid that does not hold the
obstacle symbol. -/
theorem writePath_valid_path (lines : List String) (tiles0 : TileLines)
    (start finish : Coords) (fuel : Nat) (fin : Coords) (tiles : TileLines) (ol : OpenList)
    (hload : createTiles lines = .ok tiles0) (hsize : SizeOk tiles0)
    (hstart : findStart tiles0 = .ok start)
    (hfinish : findFinish tiles0 = .ok finish)
    (hfound : search fuel tiles0 = .ok (some (some fin, tiles, ol))) :
    ∃ cells : List Coords,
      (∀ fuel', cells.length ≤ fuel' →
        ∃ tiles', writePath fuel' tiles fin = some (tiles', cells)) ∧
      cells.head? = some finish ∧ cells.getLast? = some start ∧
      (tileAt tiles start).parent = (-1, -1) ∧ stepsOk cells ∧
      ∀ c ∈ cells, inGrid tiles0 c ∧ symbolAt tiles0 c ≠ some 'o' := by
  obtain ⟨cells, g, h1, h2, h3, h4, h5, -, -, -, -, h8, -⟩ :=
    found_chain hload hsize hstart hfinish hfound
  refine ⟨cells, h1, h2, h3, h8, (stepsOk_iff_chain cells).2 h4, ?_⟩
  intro c hc
  refine ⟨passable_inGrid (h5 c hc), ?_⟩
  obtain ⟨ch, hch, hne⟩ := h5 c hc
  rw [hch]
  intro h
  cases h
  exact hne rfl

/-- C4 (amended): when the driver ends in Found on a grid within the size bound, the cost
stored in the finish tile is the sum of the step costs `1.0` and `1.4` along the
cells that `writePath` visits, added up from the start in binary64 as the program
adds them; it differs from the sum in exact arithmetic (`pathCost`, in tenths) by
less than one millionth of that sum. -/
theorem path_cost_eq_gval (lines : List String) (tiles0 : TileLines)
    (start finish : Coords) (fuel : Nat) (fin : Coords) (tiles : TileLines) (ol : OpenList)
    (hload : createTiles lines = .ok tiles0) (hsize : SizeOk tiles0)
    (hstart : findStart tiles0 = .ok start)
    (hfinish : findFinish tiles0 = .ok finish)
    (hfound : search fuel tiles0 = .ok (some (some fin, tiles, ol))) :
    ∃ (cells : List Coords) (tiles' : TileLines) (g : Nat),
      writePath cells.length tiles fin = some (tiles', cells) ∧
      cells.head? = some finish ∧ cells.getLast? = some start ∧
      (tileAt tiles finish).gval = pathCostD cells.reverse ∧
      (tileAt tiles finish).gval = .fin g ∧
      2 ^ 20 * (10 * g - pathCost cells * 2 ^ 1074) ≤ pathCost cells * 2 ^ 1074 ∧
      2 ^ 20 * (pathCost cells * 2 ^ 1074 - 10 * g) ≤ pathCost cells * 2 ^ 1074 := by
  obtain ⟨cells, g, h1, h2, h3, -, -, h6, h7, ⟨e1, e2⟩, -, -, -⟩ :=
    found_chain hload hsize hstart hfinish hfound
  obtain ⟨tiles', hw⟩ := h1 cells.length (le_refl _)
  have hge := pathCost_ge cells
  have hc : (2:Nat) ^ 20 * (11 * 2 ^ 1053) = 11 * 2 ^ 1073 ∧ (2:Nat) ^ 1074 = 2 * 2 ^ 1073 := by
    decide!
  refine ⟨cells, tiles', g, hw, h2, h3, by rw [h6, h7], h6, ?_, ?_⟩
  · have h : 10 * g - pathCost cells * 2 ^ 1074 ≤ 11 * 2 ^ 1053 * (cells.length - 1) := by
      omega
    have h' := Nat.mul_le_mul_left (2 ^ 20) h
    rw [← Nat.mul_assoc, hc.1] at h'
    have h2' := Nat.mul_le_mul_right (2 ^ 1073) hge
    rw [hc.2]
    have e : 11 * 2 ^ 1073 * (cells.length - 1) ≤ 2 * (10 * (cells.length - 1) * 2 ^ 1073) := by
      generalize cells.length - 1 = n
      generalize (2:Nat) ^ 1073 = X
      have : 11 * X * n = 11 * (n * X) := by ring
      have : 10 * n * X = 10 * (n * X) := by ring
      omega
    have e2 : pathCost cells * (2 * 2 ^ 1073) = 2 * (pathCost cells * 2 ^ 1073) := by ring
    omega
  · have h : pathCost cells * 2 ^ 1074 - 10 * g ≤ 11 * 2 ^ 1053 * (cells.length - 1) := by
      omega
    have h' := Nat.mul_le_mul_left (2 ^ 20) h
    rw [← Nat.mul_assoc, hc.1] at h'
    have h2' := Nat.mul_le_mul_right (2 ^ 1073) hge
    rw [hc.2]
    have e : 11 * 2 ^ 1073 * (cells.length - 1) ≤ 2 * (10 * (cells.length - 1) * 2 ^ 1073) := by
      generalize cells.length - 1 = n
      generalize (2:Nat) ^ 1073 = X
      have : 11 * X * n = 11 * (n * X) := by ring
      have : 10 * n * X = 10 * (n * X) := by ring
      omega
    have e2 : pathCost cells * (2 * 2 ^ 1073) = 2 * (pathCost cells * 2 ^ 1073) := by ring
    omega

/-- C5: in every loop state of the driver on a grid of `tiles0.length` rows and
`cols` columns within the size bound, following the parent links from any cell ends
within `rows * cols` steps and visits no coordinate twice; after Found, `writePath`
started at the result stops within `rows * cols` steps. -/
theorem parent_links_acyclic (lines : List String) (tiles0 : TileLines) (cols : Nat)
    (start finish : Coords)
    (hload : createTiles lines = .ok tiles0) (hrect : Rect tiles0 cols)
    (hsize : SizeOk tiles0)
    (hstart : findStart tiles0 = .ok start) (hfinish : findFinish tiles0 = .ok finish) :
    (∀ s : LoopState, Reach tiles0 start finish s → ∀ co, inGrid tiles0 co →
      ∃ cells, parentChain (tiles0.length * cols) s.2.1 co = some cells ∧ cells.Nodup ∧
        cells.length ≤ tiles0.length * cols) ∧
    (∀ fuel fin tiles ol, search fuel tiles0 = .ok (some (some fin, tiles, ol)) →
      ∃ tiles' cells, writePath (tiles0.length * cols) tiles fin = some (tiles', cells) ∧
        cells.Nodup ∧ cells.length ≤ tiles0.length * cols) := by
  have hbound : ∀ cells : List Coords, cells.Nodup → (∀ c ∈ cells, inGrid tiles0 c) →
      cells.length ≤ tiles0.length * cols := by
    intro cells hn hin
    apply length_le_of_nodup_bounds cells _ _ hn
    intro c hc
    have := hin c hc
    unfold inGrid at this
    cases ht : tileAt? tiles0 c with
    | none => rw [ht] at this; cases this
    | some t => exact rect_bounds hrect ht
  have part1 : ∀ s : LoopState, Reach tiles0 start finish s → ∀ co, inGrid tiles0 co →
      ∃ cells, parentChain (tiles0.length * cols) s.2.1 co = some cells ∧ cells.Nodup ∧
        cells.length ≤ tiles0.length * cols := by
    intro s hs co hco
    obtain ⟨cells, h1, h2, h3⟩ := chain_any (reach_inv hload hstart hs)
      (reach_gbound hload hstart hsize hs) hsize hco
    have hb := hbound cells h2 h3
    exact ⟨cells, h1 _ hb, h2, hb⟩
  refine ⟨part1, ?_⟩
  intro fuel fin tiles ol hfound
  obtain ⟨hinv, hfin, t, ht, -⟩ := search_found hload hstart hfinish hfound
  have hin : inGrid tiles0 finish := by
    rw [inGrid_iff_symbol, ← hinv.symbols, ← inGrid_iff_symbol]
    unfold inGrid
    rw [ht]
    rfl
  obtain ⟨cells, h1, h2, h3⟩ := part1 _ (search_reach hstart hfinish hfound) finish hin
  obtain ⟨tiles', hw⟩ := writePath_of_chain h1
  exact ⟨tiles', cells, by rw [hfin]; exact hw, h2, h3⟩

/-- The loop of the driver stops on every loaded grid with a start and a finish. -/
theorem search_stops {lines : List String} {tiles0 : TileLines} {start finish : Coords}
    (hload : createTiles lines = .ok tiles0) (hstart : findStart tiles0 = .ok start)
    (hfinish : findFinish tiles0 = .ok finish) :
    ∃ (n : Nat) (res : LoopState), ∀ fuel, n ≤ fuel →
      search fuel tiles0 = .ok (some res) := by
  obtain ⟨n, res, h⟩ := searchLoop_terminates_aux tiles0 start finish _ _ _ rfl
    (inv_init finish hload hstart)
  refine ⟨n, res, ?_⟩
  intro fuel hf
  rw [search_eq hstart hfinish, searchLoop_mono n _ _ _ h fuel hf]

/-- C6: on every loaded grid within the size bound that has a start and a finish
the loop of the driver stops: from some amount of fuel on, the driver returns one
and the same result. -/
theorem search_terminates (lines : List String) (tiles0 : TileLines)
    (start finish : Coords)
    (hload : createTiles lines = .ok tiles0) (hsize : SizeOk tiles0)
    (hstart : findStart tiles0 = .ok start)
    (hfinish : findFinish tiles0 = .ok finish) :
    ∃ (n : Nat) (res : LoopState), ∀ fuel, n ≤ fuel →
      search fuel tiles0 = .ok (some res) := by
  have _ := hsize
  exact search_stops hload hstart hfinish

/-- C7: on a grid within the size bound, when every cell of the grid that is an
8-neighbour of the finish holds the obstacle symbol, the driver stops with an empty
frontier and without a result. -/
theorem enclosed_finish_exhausted (lines : List String) (tiles0 : TileLines)
    (start finish : Coords)
    (hload : createTiles lines = .ok tiles0) (hsize : SizeOk tiles0)
    (hstart : findStart tiles0 = .ok start)
    (hfinish : findFinish tiles0 = .ok finish)
    (henc : ∀ co, adjacent finish co → inGrid tiles0 co → symbolAt tiles0 co = some 'o') :
    ∃ (n : Nat) (tiles : TileLines), ∀ fuel, n ≤ fuel →
      search fuel tiles0 = .ok (some (none, tiles, [])) := by
  have _ := hsize
  obtain ⟨n, res, h⟩ := search_stops hload hstart hfinish
  obtain ⟨r, tiles, ol⟩ := res
  have hn := h n (le_refl _)
  cases r with
  | some fin =>
    exfalso
    obtain ⟨hinv, -, t, ht, hpn, p, hp, hadj⟩ := search_found hload hstart hfinish hn
    obtain ⟨q, hq, hqc, -⟩ := hinv.link finish t ht hpn
    obtain ⟨ch, hch, hne⟩ := closed_passable hinv hq hqc
    have := henc t.parent hadj (passable_inGrid ⟨ch, hch, hne⟩)
    rw [hch] at this
    cases this
    exact hne rfl
  | none =>
    have hol : ol = [] := by
      rw [search_eq hstart hfinish] at hn
      simp only [Except.ok.injEq] at hn
      exact (searchLoop_inv n _ _ _ _ _ (inv_init finish hload hstart) hn).2.1 rfl
    subst hol
    exact ⟨n, tiles, h⟩

theorem relaxCond_iff (x y : Dbl) (t : Tile) :
    relaxCond x y t = true ↔
      (dlt (dadd x y) (dadd t.gval t.hval) = true ∨ t.gval = dblMax ∨ t.hval = dblMax) := by
  have hd : deq dblMax dblMax = true := deq_fin_self _
  unfold relaxCond Tile.fval
  rw [Bool.or_eq_true, Bool.or_eq_true]
  constructor
  · rintro ((h | h) | h)
    · exact Or.inl h
    · exact Or.inr (Or.inl (deq_dblMax h))
    · exact Or.inr (Or.inr (deq_dblMax h))
  · rintro (h | h | h)
    · exact Or.inl (Or.inl h)
    · rw [h]
      exact Or.inl (Or.inr hd)
    · rw [h]
      exact Or.inr hd

/-- While the driver has no result, the finish tile has not been relaxed. -/
theorem reach_finish_fresh {lines : List String} {tiles0 : TileLines} {start finish : Coords}
    (hload : createTiles lines = .ok tiles0) (hstart : findStart tiles0 = .ok start)
    (hfinish : findFinish tiles0 = .ok finish)
    {s : LoopState} (hreach : Reach tiles0 start finish s) :
    s.1 = none → ∃ t, tileAt? s.2.1 finish = some t ∧ t.parent = noParent ∧ finish ≠ start := by
  have hne : finish ≠ start := by
    intro hc
    rw [findStart_ok_iff] at hstart
    rw [findFinish_ok_iff, hc] at hfinish
    have := hstart.1.symm.trans hfinish.1
    simp at this
  induction hreach with
  | init =>
    intro _
    have hinv := inv_init finish hload hstart
    rw [findFinish_ok_iff] at hfinish
    have hsym := hfinish.1
    rw [← hinv.symbols] at hsym
    unfold symbolAt at hsym
    cases ht : tileAt? (initTiles tiles0 start) finish with
    | none => rw [ht] at hsym; cases hsym
    | some t =>
      refine ⟨t, rfl, ?_, hne⟩
      by_contra hp
      obtain ⟨p, hp1, hp2, -⟩ := hinv.link finish t ht hp
      have := init_not_closed start hload _ p hp1
      rw [hp2] at this
      cases this
  | @step s1 s2 hr1 hstep ih =>
    intro hnone
    obtain ⟨r, tiles, ol⟩ := s1
    cases r with
    | some c => simp [loopStep] at hstep
    | none =>
      cases ol with
      | nil => simp [loopStep] at hstep
      | cons e rest =>
        obtain ⟨p, co⟩ := e
        simp only [loopStep, Option.some.injEq] at hstep
        obtain ⟨r2, tiles2, ol2⟩ := s2
        simp only at hnone
        subst hnone
        obtain ⟨t, ht, hpar, -⟩ := ih rfl
        simp only at ht
        have hinv := reach_inv hload hstart hr1
        obtain ⟨hinv1, hsc, oriTile, og, ho, -⟩ := close_inv hinv
        have ht1 : ∃ t1, tileAt? (closeTile tiles co) finish = some t1 ∧
            t1.parent = noParent := by
          rw [tileAt?_closeTile, ht]
          refine ⟨_, rfl, ?_⟩
          split <;> exact hpar
        obtain ⟨t1, ht1, hpar1⟩ := ht1
        unfold astar at hstep
        rcases astarLoop_tiles _ _ _ dirs dirs_offsets_nodup _ _ _ _ _ hstep finish with
          hsame | ⟨d, hd, hx, hv, hr, -⟩
        · exact ⟨t1, by rw [hsame]; exact ht1, hpar1, hne⟩
        · exfalso
          have hres := (astarLoop_result (tileAt (closeTile tiles co) co) co finish dirs
            (closeTile tiles co) rest finish).2 ⟨rfl, d, hd, hx.symm, hv, hr⟩
          rw [hstep] at hres
          cases hres

/-- C10: in every state in which `main` calls `astar` (a state of its loop with no
result, after the first frontier entry has been popped and its tile closed) the
finish tile still has the cost `DBL_MAX`; and in every grid state whose finish tile
has the cost `DBL_MAX`, `astar` returns the finish exactly when one of the 8
neighbours of the origin is the finish and `isValidTile` accepts it, returns no
result otherwise, and never returns another coordinate. -/
theorem astar_result_iff (lines : List String) (tiles0 : TileLines) (start finish : Coords)
    (hload : createTiles lines = .ok tiles0) (hsize : SizeOk tiles0)
    (hstart : findStart tiles0 = .ok start) (hfinish : findFinish tiles0 = .ok finish) :
    (∀ (s : LoopState) (prio : Dbl) (co : Coords) (rest : OpenList),
      Reach tiles0 start finish s → s.1 = none → s.2.2 = (prio, co) :: rest →
      (tileAt (closeTile s.2.1 co) finish).gval = dblMax) ∧
    (∀ (tiles : TileLines) (openList : OpenList) (oriCo : Coords),
      (tileAt tiles finish).gval = dblMax →
      ((astar tiles openList oriCo finish).1 = some finish ↔
        ∃ dir ∈ dirs, (oriCo.1 + dir.2.1, oriCo.2 + dir.2.2) = finish ∧
          isValidTile tiles finish = true) ∧
      (∀ c, (astar tiles openList oriCo finish).1 = some c → c = finish) ∧
      ((astar tiles openList oriCo finish).1 = none ∨
        (astar tiles openList oriCo finish).1 = some finish)) := by
  have _ := hsize
  constructor
  · intro s prio co rest hreach hnone hpop
    obtain ⟨t, ht, hpar, hne⟩ := reach_finish_fresh hload hstart hfinish hreach hnone
    have hinv := reach_inv hload hstart hreach
    have hg := (hinv.fresh finish t ht hpar hne).1
    unfold tileAt
    rw [tileAt?_closeTile, ht]
    simp only [Option.map_some', Option.getD_some]
    split <;> exact hg
  · intro tiles openList oriCo hfresh
    have key := astarLoop_result (tileAt tiles oriCo) oriCo finish dirs tiles openList
    have hrel : ∀ x y, relaxCond x y (tileAt tiles finish) = true := by
      intro x y
      rw [relaxCond_iff]
      exact Or.inr (Or.inl hfresh)
    refine ⟨?_, ?_, ?_⟩
    · unfold astar
      rw [key finish]
      constructor
      · rintro ⟨-, d, hd, h1, h2, -⟩
        exact ⟨d, hd, h1, h2⟩
      · rintro ⟨d, hd, h1, h2⟩
        exact ⟨rfl, d, hd, h1, h2, hrel _ _⟩
    · intro c hc
      unfold astar at hc
      exact ((key c).1 hc).1
    · cases h : (astar tiles openList oriCo finish).1 with
      | none => exact Or.inl rfl
      | some c =>
        unfold astar at h
        rw [((key c).1 h).1]
        exact Or.inr rfl

/-- C11: for every call of `astar` that returns no result, in a state without `NaN`
priorities (in the frontier and for the neighbours that `isValidTile` accepts), and
every neighbour `n` of the origin that `isValidTile` accepts, with
`newG = origin.gval + stepCost` and `newH = calcHval(n, finish)`: if
`newH + newG < n.fval`, or `n.gval` or `n.hval` is `DBL_MAX`, in the state before the
call, then afterwards `n` has `gval = newG`, `hval = newH`, `parent` the origin, its
closed flag and symbol as before, and the frontier contains the entry
`(newH + newG, n)`; if the condition does not hold, the tile of `n` is unchanged. -/
theorem relaxation_rule (tiles : TileLines) (openList : OpenList) (oriCo finish : Coords)
    (tiles' : TileLines) (openList' : OpenList)
    (hcall : astar tiles openList oriCo finish = (none, tiles', openList'))
    (hnan : ∀ e ∈ openList, e.1 ≠ .nan)
    (hnew : ∀ d ∈ dirs, isValidTile tiles (oriCo.1 + d.2.1, oriCo.2 + d.2.2) = true →
      dadd (calcHval tiles (oriCo.1 + d.2.1, oriCo.2 + d.2.2) finish)
        (dadd (tileAt tiles oriCo).gval d.1) ≠ .nan)
    (dir : Dbl × Coords) (hdir : dir ∈ dirs)
    (hvalid : isValidTile tiles (oriCo.1 + dir.2.1, oriCo.2 + dir.2.2) = true) :
    dir.1 = stepCostD oriCo (oriCo.1 + dir.2.1, oriCo.2 + dir.2.2) ∧
    ((dlt (dadd (calcHval tiles (oriCo.1 + dir.2.1, oriCo.2 + dir.2.2) finish)
          (dadd (tileAt tiles oriCo).gval dir.1))
        (dadd (tileAt tiles (oriCo.1 + dir.2.1, oriCo.2 + dir.2.2)).gval
          (tileAt tiles (oriCo.1 + dir.2.1, oriCo.2 + dir.2.2)).hval) = true ∨
      (tileAt tiles (oriCo.1 + dir.2.1, oriCo.2 + dir.2.2)).gval = dblMax ∨
      (tileAt tiles (oriCo.1 + dir.2.1, oriCo.2 + dir.2.2)).hval = dblMax) →
      tileAt? tiles' (oriCo.1 + dir.2.1, oriCo.2 + dir.2.2) =
        some { tileAt tiles (oriCo.1 + dir.2.1, oriCo.2 + dir.2.2) with
          hval := calcHval tiles (oriCo.1 + dir.2.1, oriCo.2 + dir.2.2) finish,
          gval := dadd (tileAt tiles oriCo).gval dir.1, parent := oriCo } ∧
      (dadd (calcHval tiles (oriCo.1 + dir.2.1, oriCo.2 + dir.2.2) finish)
          (dadd (tileAt tiles oriCo).gval dir.1),
        (oriCo.1 + dir.2.1, oriCo.2 + dir.2.2)) ∈ openList') ∧
    (¬ (dlt (dadd (calcHval tiles (oriCo.1 + dir.2.1, oriCo.2 + dir.2.2) finish)
          (dadd (tileAt tiles oriCo).gval dir.1))
        (dadd (tileAt tiles (oriCo.1 + dir.2.1, oriCo.2 + dir.2.2)).gval
          (tileAt tiles (oriCo.1 + dir.2.1, oriCo.2 + dir.2.2)).hval) = true ∨
      (tileAt tiles (oriCo.1 + dir.2.1, oriCo.2 + dir.2.2)).gval = dblMax ∨
      (tileAt tiles (oriCo.1 + dir.2.1, oriCo.2 + dir.2.2)).hval = dblMax) →
      tileAt? tiles' (oriCo.1 + dir.2.1, oriCo.2 + dir.2.2) =
        tileAt? tiles (oriCo.1 + dir.2.1, oriCo.2 + dir.2.2)) := by
  unfold astar at hcall
  obtain ⟨h1, h2⟩ := astarLoop_relax _ _ _ dirs dirs_offsets_nodup _ _ _ _ hcall dir hdir hvalid
  refine ⟨((dirs_step hdir oriCo).2.2.2.1).symm, ?_, ?_⟩
  · intro hcond
    obtain ⟨a, b⟩ := h1 ((relaxCond_iff _ _ _).2 hcond)
    exact ⟨a, b hnan hnew⟩
  · intro hcond
    apply h2
    cases hr : relaxCond (calcHval tiles (oriCo.1 + dir.2.1, oriCo.2 + dir.2.2) finish)
        (dadd (tileAt tiles oriCo).gval dir.1)
        (tileAt tiles (oriCo.1 + dir.2.1, oriCo.2 + dir.2.2)) with
    | false => rfl
    | true => exact absurd ((relaxCond_iff _ _ _).1 hr) hcond

theorem getD_append_last (acc : TileLines) (row : TileLine) :
    (acc ++ [row]).getD ((acc ++ [row]).length - 1) [] = row := by
  simp [List.getD_eq_getElem?_getD, List.getElem?_append_right]

theorem getD_append_prev (acc : TileLines) (x row : TileLine) :
    ((acc ++ [x]) ++ [row]).getD (((acc ++ [x]) ++ [row]).length - 2) [] = x := by
  have h : ((acc ++ [x]) ++ [row]).length - 2 = acc.length := by simp
  rw [h, List.append_assoc, List.getD_eq_getElem?_getD,
    List.getElem?_append_right (le_refl _)]
  simp

/-- The loop of `createTiles`, started on rows of one common length, succeeds with
the rows built so far followed by the rows of the remaining lines when all these
rows have one length, and fails with "Invalid map" otherwise. -/
theorem createTilesLoop_spec (lines : List String) :
    ∀ acc : TileLines, (∀ r1 ∈ acc, ∀ r2 ∈ acc, r1.length = r2.length) →
      (createTilesLoop lines acc = .ok (acc ++ mkGrid lines) ∧
        ∀ r1 ∈ acc ++ mkGrid lines, ∀ r2 ∈ acc ++ mkGrid lines, r1.length = r2.length) ∨
      (createTilesLoop lines acc = .error "Invalid map" ∧
        ¬ ∀ r1 ∈ acc ++ mkGrid lines, ∀ r2 ∈ acc ++ mkGrid lines, r1.length = r2.length) := by
  induction lines with
  | nil =>
    intro acc hacc
    left
    simp only [createTilesLoop, mkGrid, List.map_nil, List.append_nil]
    exact ⟨trivial, hacc⟩
  | cons line rest ih =>
    intro acc hacc
    have hassoc : (acc ++ [line.toList.map Tile.new]) ++ mkGrid rest =
        acc ++ mkGrid (line :: rest) := by
      simp [mkGrid]
    rw [createTilesLoop]
    rcases List.eq_nil_or_concat acc with hnil | ⟨acc0, x, hx⟩
    · subst hnil
      have hcond : ¬ (2 ≤ ([] ++ [line.toList.map Tile.new] : TileLines).length ∧
          (([] ++ [line.toList.map Tile.new] : TileLines).getD
            (([] ++ [line.toList.map Tile.new] : TileLines).length - 1) []).length ≠
          (([] ++ [line.toList.map Tile.new] : TileLines).getD
            (([] ++ [line.toList.map Tile.new] : TileLines).length - 2) []).length) := by
        simp
      rw [if_neg hcond, ← hassoc]
      exact ih _ (by simp)
    · subst hx
      rw [List.concat_eq_append] at hacc hassoc ⊢
      rw [getD_append_last, getD_append_prev]
      by_cases hlen : (line.toList.map Tile.new).length = x.length
      · have hcond : ¬ (2 ≤ ((acc0 ++ [x]) ++ [line.toList.map Tile.new]).length ∧
            (line.toList.map Tile.new).length ≠ x.length) := by
          intro hc
          exact hc.2 hlen
        rw [if_neg hcond, ← hassoc]
        apply ih
        intro r1 h1 r2 h2
        have key : ∀ r ∈ (acc0 ++ [x]) ++ [line.toList.map Tile.new], r.length = x.length := by
          intro r hr
          rw [List.mem_append] at hr
          rcases hr with hr | hr
          · exact hacc r hr x (by simp)
          · simp only [List.mem_singleton] at hr
            rw [hr, hlen]
        rw [key r1 h1, key r2 h2]
      · have hcond : 2 ≤ ((acc0 ++ [x]) ++ [line.toList.map Tile.new]).length ∧
            (line.toList.map Tile.new).length ≠ x.length := by
          refine ⟨by simp, hlen⟩
        rw [if_pos hcond]
        right
        refine ⟨rfl, ?_⟩
        intro hall
        apply hlen
        apply hall
        · simp [mkGrid]
        · simp

theorem mkGrid_uniform_iff (lines : List String) :
    (∀ r1 ∈ mkGrid lines, ∀ r2 ∈ mkGrid lines, r1.length = r2.length) ↔
      ∀ l1 ∈ lines, ∀ l2 ∈ lines, l1.length = l2.length := by
  have hlen : ∀ l : String, (l.toList.map Tile.new).length = l.length := by
    intro l
    rw [List.length_map]
    rfl
  constructor
  · intro h l1 h1 l2 h2
    rw [← hlen l1, ← hlen l2]
    exact h _ (List.mem_map_of_mem _ h1) _ (List.mem_map_of_mem _ h2)
  · intro h r1 h1 r2 h2
    simp only [mkGrid, List.mem_map] at h1 h2
    obtain ⟨l1, hl1, rfl⟩ := h1
    obtain ⟨l2, hl2, rfl⟩ := h2
    rw [hlen, hlen]
    exact h l1 hl1 l2 hl2

/-- C16: `createTiles` fails with "Invalid map" exactly when two lines have
different lengths, and fails in no other way; when it succeeds the grid has one row
per line, all rows have one length, and row `i` consists of the fresh tiles (parent
`(-1,-1)`, not closed, `gval` and `hval` unknown) of the characters of line `i`. -/
theorem createTiles_rectangular_load (lines : List String) :
    (createTiles lines = .error "Invalid map" ↔
      ∃ l1 ∈ lines, ∃ l2 ∈ lines, l1.length ≠ l2.length) ∧
    (∀ e, createTiles lines = .error e → e = "Invalid map") ∧
    (∀ tiles, createTiles lines = .ok tiles →
      tiles.length = lines.length ∧
      (∀ r1 ∈ tiles, ∀ r2 ∈ tiles, r1.length = r2.length) ∧
      ∀ (i : Nat) (l : String), lines[i]? = some l →
        tiles[i]? = some (l.toList.map (fun c =>
          { parent := (-1, -1), closed := false, gval := dblMax, hval := dblMax, data := c }))) := by
  have key := createTilesLoop_spec lines [] (by simp)
  simp only [List.nil_append] at key
  rw [mkGrid_uniform_iff] at key
  unfold createTiles
  rcases key with ⟨hok, huni⟩ | ⟨herr, hnon⟩
  · rw [hok]
    refine ⟨?_, ?_, ?_⟩
    · constructor
      · intro h; cases h
      · rintro ⟨l1, h1, l2, h2, hne⟩
        exact absurd (huni l1 h1 l2 h2) hne
    · intro e h; cases h
    · intro tiles h
      simp only [Except.ok.injEq] at h
      subst h
      refine ⟨by simp [mkGrid], (mkGrid_uniform_iff lines).2 huni, ?_⟩
      intro i l hl
      simp only [mkGrid, List.getElem?_map, hl, Option.map_some']
      rfl
  · rw [herr]
    refine ⟨?_, ?_, ?_⟩
    · constructor
      · intro _
        by_contra hc
        apply hnon
        intro l1 h1 l2 h2
        by_contra hne
        exact hc ⟨l1, h1, l2, h2, hne⟩
      · intro _; rfl
    · intro e h
      simp only [Except.error.injEq] at h
      exact h.symm
    · intro tiles h; cases h

/-- C8, evaluated on the one-row grid `..`: the cell in the last column is inside
the grid, is not an obstacle and is not closed, yet `isValidTile` rejects it. -/
theorem isValidTile_rejects_last_column :
    inGrid (mkGrid [".."]) (0, 1) ∧ symbolAt (mkGrid [".."]) (0, 1) = some '.' ∧
      (tileAt (mkGrid [".."]) (0, 1)).closed = false ∧
      isValidTile (mkGrid [".."]) (0, 1) = false := by
  decide

set_option maxRecDepth 100000 in
/-- C2, evaluated on the map `SF`: the finish is next to the start, so
`[(0,0), (0,1)]` is an obstacle-free path, yet the driver stops with an empty
frontier and no result ("Not found!"). -/
theorem adjacent_finish_not_found :
    createTiles adjacentLines = .ok (mkGrid adjacentLines) ∧
      findStart (mkGrid adjacentLines) = .ok (0, 0) ∧
      findFinish (mkGrid adjacentLines) = .ok (0, 1) ∧
      IsPathFromTo (mkGrid adjacentLines) (0, 0) (0, 1) [(0, 0), (0, 1)] ∧
      ∃ tiles, search 1 (mkGrid adjacentLines) = .ok (some (none, tiles, [])) := by
  refine ⟨rfl, rfl, rfl, by decide, ?_⟩
  have h : (finalState 1 (mkGrid adjacentLines)).map (fun s => (s.1, s.2.2)) =
      some (none, []) := by decide!
  cases hs : finalState 1 (mkGrid adjacentLines) with
  | none => rw [hs] at h; cases h
  | some s =>
    obtain ⟨r, tiles, ol⟩ := s
    rw [hs] at h
    simp only [Option.map_some', Option.some.injEq, Prod.mk.injEq] at h
    obtain ⟨rfl, rfl⟩ := h
    exact ⟨tiles, search_of_finalState hs⟩

set_option maxRecDepth 100000 in
/-- C14, evaluated on the map of the worked example: `examplePath` is an
obstacle-free 8-directional route of cost `3.4` from the start to the finish, yet
`isValidTile` rejects the finish, which lies in the last column, and the driver
stops with an empty frontier and no result ("Not found!"). -/
theorem worked_example_not_found :
    createTiles exampleLines = .ok (mkGrid exampleLines) ∧
      findStart (mkGrid exampleLines) = .ok (0, 0) ∧
      findFinish (mkGrid exampleLines) = .ok (2, 2) ∧
      IsPathFromTo (mkGrid exampleLines) (0, 0) (2, 2) examplePath ∧
      pathCost examplePath = 34 ∧
      isValidTile (mkGrid exampleLines) (2, 2) = false ∧
      ∃ tiles, search 9 (mkGrid exampleLines) = .ok (some (none, tiles, [])) := by
  refine ⟨rfl, rfl, rfl, by decide, by decide, by decide, ?_⟩
  have h : (finalState 9 (mkGrid exampleLines)).map (fun s => (s.1, s.2.2)) =
      some (none, []) := by decide!
  cases hs : finalState 9 (mkGrid exampleLines) with
  | none => rw [hs] at h; cases h
  | some s =>
    obtain ⟨r, tiles, ol⟩ := s
    rw [hs] at h
    simp only [Option.map_some', Option.some.injEq, Prod.mk.injEq] at h
    obtain ⟨rfl, rfl⟩ := h
    exact ⟨tiles, search_of_finalState hs⟩

/-- Every call of `astar` indexes the grid at the north-west neighbour of the
origin, whether that coordinate lies in the grid or not. -/
theorem astarIndexed_north_west (tiles : TileLines) (openList : OpenList)
    (oriCo finish : Coords) :
    (oriCo.1 + -1, oriCo.2 + -1) ∈ astarIndexed tiles openList oriCo finish := by
  unfold astarIndexed dirs
  rw [astarLoopIndexed]
  simp only [isValidTileIndexed]
  split
  · simp
  · split
    · split <;> simp
    · simp

set_option maxRecDepth 100000 in
/-- C19, evaluated on the first call of `astar` that `main` makes on the map
`S.F.`: the origin `(0,0)` is a cell of the grid, `(-1,-1)` is not, and `astar`
indexes the grid at `(-1,-1)`, where `isValidTile` binds its tile reference before
it finds the coordinate out of bounds. -/
theorem astar_indexes_off_grid :
    findStart (mkGrid rowLines) = .ok (0, 0) ∧ findFinish (mkGrid rowLines) = .ok (0, 2) ∧
      inGrid rowFirstTiles (0, 0) ∧ ¬ inGrid rowFirstTiles (-1, -1) ∧
      isValidTile rowFirstTiles (-1, -1) = false ∧
      isValidTileIndexed rowFirstTiles (-1, -1) = [(-1, -1)] ∧
      (-1, -1) ∈ astarIndexed rowFirstTiles [] (0, 0) (0, 2) := by
  refine ⟨rfl, rfl, by decide, by decide, by decide, rfl, astarIndexed_north_west _ _ _ _⟩

theorem loopIter_reach {tiles0 : TileLines} {start finish : Coords} (k : Nat) :
    ∀ (s s' : LoopState), Reach tiles0 start finish s → loopIter finish k s = some s' →
      Reach tiles0 start finish s' := by
  induction k with
  | zero =>
    intro s s' hr h
    simp only [loopIter, Option.some.injEq] at h
    rw [← h]
    exact hr
  | succ k ih =>
    intro s s' hr h
    rw [loopIter] at h
    cases hs : loopStep finish s with
    | none => rw [hs] at h; cases h
    | some s1 =>
      rw [hs] at h
      exact ih s1 s' (Reach.step hr hs) h

theorem demo_load : createTiles demoLines = .ok (mkGrid demoLines) := by rfl

theorem demo_size : SizeOk (mkGrid demoLines) := by decide

theorem demo_start : findStart (mkGrid demoLines) = .ok (0, 0) := by rfl

theorem demo_finish : findFinish (mkGrid demoLines) = .ok (2, 2) := by rfl

set_option maxRecDepth 100000 in
theorem demo_found :
    search 10 (mkGrid demoLines) = .ok (some (some (2, 2), demoFinal.2.1, demoFinal.2.2)) :=
  search_of_finalState (by decide!)

/-- C3 (witness): the map `demoLines`, on which the driver ends in Found. -/
theorem writePath_valid_path_witness :
    createTiles demoLines = .ok (mkGrid demoLines) ∧ SizeOk (mkGrid demoLines) ∧
    findStart (mkGrid demoLines) = .ok (0, 0) ∧ findFinish (mkGrid demoLines) = .ok (2, 2) ∧
    search 10 (mkGrid demoLines) = .ok (some (some (2, 2), demoFinal.2.1, demoFinal.2.2)) ∧
    ∃ cells : List Coords,
      (∀ fuel', cells.length ≤ fuel' →
        ∃ tiles', writePath fuel' demoFinal.2.1 (2, 2) = some (tiles', cells)) ∧
      cells.head? = some (2, 2) ∧ cells.getLast? = some (0, 0) ∧
      (tileAt demoFinal.2.1 (0, 0)).parent = (-1, -1) ∧ stepsOk cells ∧
      ∀ c ∈ cells, inGrid (mkGrid demoLines) c ∧ symbolAt (mkGrid demoLines) c ≠ some 'o' :=
  ⟨demo_load, demo_size, demo_start, demo_finish, demo_found,
    writePath_valid_path demoLines (mkGrid demoLines) (0, 0) (2, 2) 10 (2, 2) demoFinal.2.1
      demoFinal.2.2 demo_load demo_size demo_start demo_finish demo_found⟩

/-- C4 (witness of the amended claim): the map `demoLines`, on which the driver
ends in Found. -/
theorem path_cost_eq_gval_witness :
    createTiles demoLines = .ok (mkGrid demoLines) ∧ SizeOk (mkGrid demoLines) ∧
    findStart (mkGrid demoLines) = .ok (0, 0) ∧ findFinish (mkGrid demoLines) = .ok (2, 2) ∧
    search 10 (mkGrid demoLines) = .ok (some (some (2, 2), demoFinal.2.1, demoFinal.2.2)) ∧
    ∃ (cells : List Coords) (tiles' : TileLines) (g : Nat),
      writePath cells.length demoFinal.2.1 (2, 2) = some (tiles', cells) ∧
      cells.head? = some (2, 2) ∧ cells.getLast? = some (0, 0) ∧
      (tileAt demoFinal.2.1 (2, 2)).gval = pathCostD cells.reverse ∧
      (tileAt demoFinal.2.1 (2, 2)).gval = .fin g ∧
      2 ^ 20 * (10 * g - pathCost cells * 2 ^ 1074) ≤ pathCost cells * 2 ^ 1074 ∧
      2 ^ 20 * (pathCost cells * 2 ^ 1074 - 10 * g) ≤ pathCost cells * 2 ^ 1074 :=
  ⟨demo_load, demo_size, demo_start, demo_finish, demo_found,
    path_cost_eq_gval demoLines (mkGrid demoLines) (0, 0) (2, 2) 10 (2, 2) demoFinal.2.1
      demoFinal.2.2 demo_load demo_size demo_start demo_finish demo_found⟩

set_option maxRecDepth 100000 in
/-- C4 (counterexample): on the map `corridorLines` the driver ends in Found, the
cells that `writePath` visits form twenty diagonal steps, whose costs sum to `28.0`
in exact arithmetic (`280` tenths), and the finish tile holds the binary64 value
`27.99999999999999`, which is below `28.0` and below twenty times the binary64
constant `1.4`. -/
theorem path_cost_counterexample :
    createTiles corridorLines = .ok (mkGrid corridorLines) ∧
    findStart (mkGrid corridorLines) = .ok (0, 0) ∧
    findFinish (mkGrid corridorLines) = .ok (18, 20) ∧
    (∃ tiles ol tiles' cells,
      search 24 (mkGrid corridorLines) = .ok (some (some (18, 20), tiles, ol)) ∧
      writePath 21 tiles (18, 20) = some (tiles', cells) ∧
      cells.length = 21 ∧ pathCost cells = 280 ∧
      (tileAt tiles (18, 20)).gval = .fin (126100789566373840 * 2 ^ 1022)) ∧
    10 * (126100789566373840 * 2 ^ 1022) < 280 * 2 ^ 1074 ∧
    d14 = .fin (6305039478318694 * 2 ^ 1022) ∧
    126100789566373840 * 2 ^ 1022 < 20 * (6305039478318694 * 2 ^ 1022) := by
  refine ⟨by rfl, by rfl, by rfl, ?_, by decide!, rfl, by decide!⟩
  have h : (finalState 24 (mkGrid corridorLines)).map
      (fun s => (s.1, (tileAt s.2.1 (18, 20)).gval,
        (writePath 21 s.2.1 (18, 20)).map (fun r => (r.2.length, pathCost r.2)))) =
      some (some (18, 20), .fin (126100789566373840 * 2 ^ 1022), some (21, 280)) := by
    decide!
  cases hs : finalState 24 (mkGrid corridorLines) with
  | none => rw [hs] at h; cases h
  | some s =>
    obtain ⟨r, tiles, ol⟩ := s
    rw [hs] at h
    simp only [Option.map_some', Option.some.injEq, Prod.mk.injEq] at h
    obtain ⟨rfl, hg, hw⟩ := h
    cases hwp : writePath 21 tiles (18, 20) with
    | none => rw [hwp] at hw; cases hw
    | some r =>
      obtain ⟨tiles', cells⟩ := r
      rw [hwp] at hw
      simp only [Option.map_some', Option.some.injEq, Prod.mk.injEq] at hw
      exact ⟨tiles, ol, tiles', cells, search_of_finalState hs, hwp, hw.1, hw.2, hg⟩

/-- C5 (witness): the map `demoLines`, of 3 rows and 4 columns. -/
theorem parent_links_acyclic_witness :
    createTiles demoLines = .ok (mkGrid demoLines) ∧ Rect (mkGrid demoLines) 4 ∧
    SizeOk (mkGrid demoLines) ∧
    findStart (mkGrid demoLines) = .ok (0, 0) ∧ findFinish (mkGrid demoLines) = .ok (2, 2) ∧
    ((∀ s : LoopState, Reach (mkGrid demoLines) (0, 0) (2, 2) s →
      ∀ co, inGrid (mkGrid demoLines) co →
      ∃ cells, parentChain ((mkGrid demoLines).length * 4) s.2.1 co = some cells ∧
        cells.Nodup ∧ cells.length ≤ (mkGrid demoLines).length * 4) ∧
    (∀ fuel fin tiles ol,
      search fuel (mkGrid demoLines) = .ok (some (some fin, tiles, ol)) →
      ∃ tiles' cells,
        writePath ((mkGrid demoLines).length * 4) tiles fin = some (tiles', cells) ∧
        cells.Nodup ∧ cells.length ≤ (mkGrid demoLines).length * 4)) :=
  ⟨demo_load, by decide, demo_size, demo_start, demo_finish,
    parent_links_acyclic demoLines (mkGrid demoLines) 4 (0, 0) (2, 2) demo_load (by decide)
      demo_size demo_start demo_finish⟩

/-- C6 (witness): the map `tieLines`, on which the program runs twelve iterations. -/
theorem search_terminates_witness :
    createTiles tieLines = .ok (mkGrid tieLines) ∧ SizeOk (mkGrid tieLines) ∧
    findStart (mkGrid tieLines) = .ok (0, 5) ∧ findFinish (mkGrid tieLines) = .ok (1, 5) ∧
    ∃ (n : Nat) (res : LoopState), ∀ fuel, n ≤ fuel →
      search fuel (mkGrid tieLines) = .ok (some res) :=
  ⟨rfl, by decide, rfl, rfl,
    search_terminates tieLines (mkGrid tieLines) (0, 5) (1, 5) rfl (by decide) rfl rfl⟩

theorem enclosed_walls (co : Coords) (hadj : adjacent (1, 3) co)
    (_hin : inGrid (mkGrid enclosedLines) co) :
    symbolAt (mkGrid enclosedLines) co = some 'o' := by
  obtain ⟨r, c⟩ := co
  unfold adjacent at hadj
  simp only [ne_eq, Prod.mk.injEq] at hadj
  obtain ⟨hne, h1, h2⟩ := hadj
  have hr : r = 0 ∨ r = 1 ∨ r = 2 := by omega
  have hc : c = 2 ∨ c = 3 ∨ c = 4 := by omega
  rcases hr with rfl | rfl | rfl <;> rcases hc with rfl | rfl | rfl <;>
    first
      | rfl
      | exact absurd ⟨rfl, rfl⟩ hne

/-- C7 (witness): the map `enclosedLines`, whose finish `(1,3)` is walled in. -/
theorem enclosed_finish_exhausted_witness :
    createTiles enclosedLines = .ok (mkGrid enclosedLines) ∧
    SizeOk (mkGrid enclosedLines) ∧
    findStart (mkGrid enclosedLines) = .ok (0, 0) ∧
    findFinish (mkGrid enclosedLines) = .ok (1, 3) ∧
    (∀ co, adjacent (1, 3) co → inGrid (mkGrid enclosedLines) co →
      symbolAt (mkGrid enclosedLines) co = some 'o') ∧
    ∃ (n : Nat) (tiles : TileLines), ∀ fuel, n ≤ fuel →
      search fuel (mkGrid enclosedLines) = .ok (some (none, tiles, [])) :=
  ⟨rfl, by decide, rfl, rfl, enclosed_walls,
    enclosed_finish_exhausted enclosedLines (mkGrid enclosedLines) (0, 0) (1, 3) rfl
      (by decide) rfl rfl enclosed_walls⟩

set_option maxRecDepth 100000 in
theorem tie_reach (k : Nat)
    (h : (loopIter (1, 5) k (none, initTiles (mkGrid tieLines) (0, 5), initOpen (0, 5))).isSome
      = true) :
    Reach (mkGrid tieLines) (0, 5) (1, 5) (tieState k) := by
  cases hs : loopIter (1, 5) k (none, initTiles (mkGrid tieLines) (0, 5), initOpen (0, 5)) with
  | none => rw [hs] at h; cases h
  | some s =>
    have : tieState k = s := by
      unfold tieState
      rw [hs]
      rfl
    rw [this]
    exact loopIter_reach k _ _ Reach.init hs

set_option maxRecDepth 100000 in
/-- C12 (witness): the map `tieLines` after eleven iterations; the twelfth pops the
second frontier entry of the tile `(0,0)`, which the eleventh has closed. -/
theorem stale_pop_harmless_witness :
    createTiles tieLines = .ok (mkGrid tieLines) ∧ SizeOk (mkGrid tieLines) ∧
    findStart (mkGrid tieLines) = .ok (0, 5) ∧
    Reach (mkGrid tieLines) (0, 5) (1, 5) (tieState 11) ∧ (tieState 11).1 = none ∧
    (tieState 11).2.2 = [(.fin (6135602527515029 * 2 ^ 1025), (0, 0))] ∧
    (tileAt (tieState 11).2.1 (0, 0)).closed = true ∧
    loopStep (1, 5) (tieState 11) = some (none, (tieState 11).2.1, []) :=
  ⟨rfl, by decide, rfl, tie_reach 11 (by decide!), by decide!, by decide!, by decide!,
    stale_pop_harmless tieLines (mkGrid tieLines) (0, 5) (1, 5) (tieState 11)
      (.fin (6135602527515029 * 2 ^ 1025)) (0, 0) [] rfl (by decide) rfl
      (tie_reach 11 (by decide!)) (by decide!) (by decide!) (by decide!)⟩

set_option maxRecDepth 100000 in
/-- C11 (witness): the call of `astar` in the ninth iteration of the driver on
`tieLines`, origin `(0,1)`, direction west.  The tile `(0,0)` holds the cost
`5.800000000000001` (`4.4 + 1.4`) through `(1,1)`; the new cost through `(0,1)` is
`5.8` (`4.8 + 1.0`), the test `newH + newG < fval` holds, and the tile gets the
parent `(0,1)` and a second frontier entry. -/
theorem relaxation_rule_witness :
    loopStep (1, 5) (tieState 8) = some tieCallAfter ∧
    astar tieCallTiles (tieState 8).2.2.tail (0, 1) (1, 5) =
      (none, tieCallAfter.2.1, tieCallAfter.2.2) ∧
    (tileAt tieCallTiles (0, 0)).parent = (1, 1) ∧
    (tileAt tieCallTiles (0, 0)).gval = .fin (1632554864921805 * 2 ^ 1026) ∧
    dadd (tileAt tieCallTiles (0, 1)).gval dOne = .fin (6530219459687219 * 2 ^ 1024) ∧
    (tileAt tieCallAfter.2.1 (0, 0)).parent = (0, 1) ∧
    (dOne, ((0 : Int), (-1 : Int))) ∈ dirs ∧
    isValidTile tieCallTiles ((0 : Int) + 0, (1 : Int) + -1) = true ∧
    (dlt (dadd (calcHval tieCallTiles ((0 : Int) + 0, (1 : Int) + -1) (1, 5)) (dadd (tileAt tieCallTiles (0, 1)).gval dOne))
        (dadd (tileAt tieCallTiles ((0 : Int) + 0, (1 : Int) + -1)).gval (tileAt tieCallTiles ((0 : Int) + 0, (1 : Int) + -1)).hval) = true) ∧
    (dOne = stepCostD (0, 1) ((0 : Int) + 0, (1 : Int) + -1) ∧
    ((dlt (dadd (calcHval tieCallTiles ((0 : Int) + 0, (1 : Int) + -1) (1, 5)) (dadd (tileAt tieCallTiles (0, 1)).gval dOne))
          (dadd (tileAt tieCallTiles ((0 : Int) + 0, (1 : Int) + -1)).gval (tileAt tieCallTiles ((0 : Int) + 0, (1 : Int) + -1)).hval) = true ∨
        (tileAt tieCallTiles ((0 : Int) + 0, (1 : Int) + -1)).gval = dblMax ∨
        (tileAt tieCallTiles ((0 : Int) + 0, (1 : Int) + -1)).hval = dblMax) →
      tileAt? tieCallAfter.2.1 ((0 : Int) + 0, (1 : Int) + -1) =
        some { tileAt tieCallTiles ((0 : Int) + 0, (1 : Int) + -1) with
          hval := calcHval tieCallTiles ((0 : Int) + 0, (1 : Int) + -1) (1, 5),
          gval := dadd (tileAt tieCallTiles (0, 1)).gval dOne, parent := (0, 1) } ∧
      (dadd (calcHval tieCallTiles ((0 : Int) + 0, (1 : Int) + -1) (1, 5)) (dadd (tileAt tieCallTiles (0, 1)).gval dOne),
        ((0 : Int) + 0, (1 : Int) + -1)) ∈ tieCallAfter.2.2) ∧
    (¬ (dlt (dadd (calcHval tieCallTiles ((0 : Int) + 0, (1 : Int) + -1) (1, 5)) (dadd (tileAt tieCallTiles (0, 1)).gval dOne))
          (dadd (tileAt tieCallTiles ((0 : Int) + 0, (1 : Int) + -1)).gval (tileAt tieCallTiles ((0 : Int) + 0, (1 : Int) + -1)).hval) = true ∨
        (tileAt tieCallTiles ((0 : Int) + 0, (1 : Int) + -1)).gval = dblMax ∨
        (tileAt tieCallTiles ((0 : Int) + 0, (1 : Int) + -1)).hval = dblMax) →
      tileAt? tieCallAfter.2.1 ((0 : Int) + 0, (1 : Int) + -1) = tileAt? tieCallTiles ((0 : Int) + 0, (1 : Int) + -1))) :=
  ⟨by decide!, by decide!, by decide!, by decide!, by decide!, by decide!, by decide!,
    by decide!, by decide!,
    relaxation_rule tieCallTiles (tieState 8).2.2.tail (0, 1) (1, 5) tieCallAfter.2.1
      tieCallAfter.2.2 (by decide!) (by decide!) (by decide!) (dOne, (0, -1)) (by decide!)
      (by decide!)⟩

set_option maxRecDepth 100000 in
/-- C17 (witness): the first call of `astar` on the map `eastLines`, which returns
the finish `(0,1)` in direction east, before south-west, south and south-east. -/
theorem early_return_frame_witness :
    astar eastFirstTiles [] (0, 0) (0, 1) = (some (0, 1), eastAfter.2.1, eastAfter.2.2) ∧
    (((0, 1) : Coords) = (0, 1) ∧ ∃ pre d post, dirs = pre ++ d :: post ∧
      ((0, 1) : Coords) = ((0 : Int) + d.2.1, (0 : Int) + d.2.2) ∧
      (∀ d' ∈ post, tileAt? eastAfter.2.1 ((0 : Int) + d'.2.1, (0 : Int) + d'.2.2) =
        tileAt? eastFirstTiles ((0 : Int) + d'.2.1, (0 : Int) + d'.2.2)) ∧
      (∀ e ∈ eastAfter.2.2, e ∈ ([] : OpenList) ∨
        ∃ d' ∈ pre, e.2 = ((0 : Int) + d'.2.1, (0 : Int) + d'.2.2)) ∧
      (∀ e ∈ eastAfter.2.2, (e.2 = (0, 1) ∨
          ∃ d' ∈ post, e.2 = ((0 : Int) + d'.2.1, (0 : Int) + d'.2.2)) →
        e ∈ ([] : OpenList)) ∧
      (tileAt eastAfter.2.1 (0, 1)).parent = (0, 0) ∧
      (tileAt eastAfter.2.1 (0, 1)).gval =
        dadd (tileAt eastFirstTiles (0, 0)).gval (stepCostD (0, 0) (0, 1))) :=
  ⟨by decide!,
    early_return_frame eastFirstTiles [] (0, 0) (0, 1) (0, 1) eastAfter.2.1 eastAfter.2.2
      (by decide!)⟩

/-- C10 (witness): the map `eastLines`, whose finish is the east neighbour of the
start and lies left of the last column. -/
theorem astar_result_iff_witness :
    createTiles eastLines = .ok (mkGrid eastLines) ∧ SizeOk (mkGrid eastLines) ∧
    findStart (mkGrid eastLines) = .ok (0, 0) ∧ findFinish (mkGrid eastLines) = .ok (0, 1) ∧
    (∀ (s : LoopState) (prio : Dbl) (co : Coords) (rest : OpenList),
      Reach (mkGrid eastLines) (0, 0) (0, 1) s → s.1 = none → s.2.2 = (prio, co) :: rest →
      (tileAt (closeTile s.2.1 co) (0, 1)).gval = dblMax) ∧
    (∀ (tiles : TileLines) (openList : OpenList) (oriCo : Coords),
      (tileAt tiles (0, 1)).gval = dblMax →
      ((astar tiles openList oriCo (0, 1)).1 = some (0, 1) ↔
        ∃ dir ∈ dirs, (oriCo.1 + dir.2.1, oriCo.2 + dir.2.2) = ((0, 1) : Coords) ∧
          isValidTile tiles (0, 1) = true) ∧
      (∀ c, (astar tiles openList oriCo (0, 1)).1 = some c → c = (0, 1)) ∧
      ((astar tiles openList oriCo (0, 1)).1 = none ∨
        (astar tiles openList oriCo (0, 1)).1 = some (0, 1))) :=
  ⟨rfl, by decide, rfl, rfl,
    astar_result_iff eastLines (mkGrid eastLines) (0, 0) (0, 1) rfl (by decide) rfl rfl⟩

/-- Rounding to 53 bits of `2 * K + st`, where `st` is the sticky bit of a square
root whose value lies in `[2 * K, 2 * K + 2 * st]`: the result is within half a unit
in the last place `H` of every such value, and `H` is at most `2 ^ (-53)` times it. -/
theorem round53_sticky (K st : Nat) (hst : st ≤ 1) (hK : 2 ^ 60 ≤ K) :
    ∃ H : Nat, 2 ^ 53 * H ≤ 2 * K ∧ round53 (2 * K + st) ≤ 2 * K + H ∧
      2 * K + 2 * st ≤ round53 (2 * K + st) + H := by
  have hT : 2 ^ 53 ≤ 2 * K + st := by
    have : (2:Nat) ^ 53 ≤ 2 ^ 60 := by decide
    omega
  obtain ⟨s, q, r, hs1, -, hk, hr, hq1, hq2, hround⟩ := round53_cases hT
  have hs2 : 2 ≤ s := by
    by_contra hc
    have hs : s = 1 := by omega
    subst hs
    have : (2:Nat) ^ 60 = 1152921504606846976 := by norm_num
    have : (2:Nat) ^ 53 = 9007199254740992 := by norm_num
    omega
  obtain ⟨m, rfl⟩ : ∃ m, s = m + 2 := ⟨s - 2, by omega⟩
  have hP : 2 ^ (m + 2) = 4 * 2 ^ m := by rw [pow_add]; ring
  have hH : 2 ^ (m + 2 - 1) = 2 * 2 ^ m := by
    have : m + 2 - 1 = m + 1 := by omega
    rw [this, pow_succ]; ring
  rw [hH, hP] at hround
  rw [hP] at hk hr
  have hX : (q + 1) * (4 * 2 ^ m) = 4 * (q * 2 ^ m) + 4 * 2 ^ m := by ring
  have hX2 : q * (4 * 2 ^ m) = 4 * (q * 2 ^ m) := by ring
  rw [hX, hX2] at hround
  rw [hX2] at hk
  have hq3 : 2 ^ 52 * 2 ^ m ≤ q * 2 ^ m := Nat.mul_le_mul_right _ hq1
  have hpos : 0 < 2 ^ m := Nat.two_pow_pos m
  generalize q * 2 ^ m = X at hround hk hq3
  generalize 2 ^ m = Hq at hround hk hr hq3 hpos
  have e53 : (2:Nat) ^ 53 = 9007199254740992 := by norm_num
  have e52 : (2:Nat) ^ 52 = 4503599627370496 := by norm_num
  rw [e52] at hq3
  refine ⟨2 * Hq, ?_, ?_, ?_⟩
  · rw [e53]; omega
  · rw [hround]
    split
    · rename_i hc
      omega
    · omega
  · rw [hround]
    split
    · omega
    · rename_i hc
      omega

theorem sqrt_pow120 : Real.sqrt ((2:ℝ) ^ 120) = 2 ^ 60 := by
  have : (2:ℝ) ^ 120 = (2 ^ 60) ^ 2 := by norm_num
  rw [this, Real.sqrt_sq (by positivity)]

set_option maxRecDepth 100000 in
theorem sqrtInt_zero : sqrtInt 0 = .fin 0 := by decide!

theorem sqrtInt_nat (n : Nat) :
    sqrtInt (n : Int) = .fin (round53 (2 * isqrt (n * 2 ^ 120) +
      (if isqrt (n * 2 ^ 120) * isqrt (n * 2 ^ 120) = n * 2 ^ 120 then 0 else 1)) * 2 ^ 1013) := by
  unfold sqrtInt
  rw [if_neg (by omega)]
  simp only [Int.toNat_ofNat]

theorem real_core (s A B K R H st : ℝ) (hA : 0 < A) (hB : 0 < B)
    (hlo : K ≤ s * A) (hhi : s * A < K + 1) (hex : st = 0 → s * A = K)
    (hst : st = 0 ∨ st = 1) (c1 : B * H ≤ 2 * K) (c2 : R ≤ 2 * K + H)
    (c3 : 2 * K + 2 * st ≤ R + H) : |R / (2 * A) - s| ≤ s / B := by
  have h2A : 0 < 2 * A := by linarith
  have hH : H ≤ 2 * A * s / B := by
    rw [le_div_iff₀ hB]
    nlinarith
  have hm : |R - 2 * A * s| ≤ H := by
    rw [abs_le]
    rcases hst with h | h
    · have := hex h
      rw [h] at c3
      constructor <;> linarith
    · rw [h] at c3
      constructor <;> linarith
  have hdiv : R / (2 * A) - s = (R - 2 * A * s) / (2 * A) := by
    field_simp
  rw [hdiv, abs_div, abs_of_pos h2A, div_le_iff₀ h2A]
  calc |R - 2 * A * s| ≤ H := hm
    _ ≤ 2 * A * s / B := hH
    _ = s / B * (2 * A) := by ring

/-- Accuracy of the rounded square root, for any `K` that is the integer square
root of `n * 2 ^ 120`. -/
theorem sqrt_core (n K : Nat) (hn1 : 1 ≤ n) (h1 : K * K ≤ n * 2 ^ 120)
    (h2 : n * 2 ^ 120 < (K + 1) * (K + 1)) :
    |((round53 (2 * K + (if K * K = n * 2 ^ 120 then 0 else 1)) * 2 ^ 1013 : Nat) : ℝ) / 2 ^ 1074
      - Real.sqrt n| ≤ Real.sqrt n / 2 ^ 53 := by
  have hK60 : 2 ^ 60 ≤ K := by
    by_contra hc
    have hlt : K + 1 ≤ 2 ^ 60 := by omega
    have h3 := Nat.mul_le_mul hlt hlt
    have h4 : (2:Nat) ^ 60 * 2 ^ 60 = 2 ^ 120 := by norm_num
    have h5 : 1 * 2 ^ 120 ≤ n * 2 ^ 120 := Nat.mul_le_mul_right _ hn1
    omega
  have e120 : ((n * 2 ^ 120 : Nat) : ℝ) = (n : ℝ) * ((2:ℝ) ^ 60) ^ 2 := by
    rw [Nat.cast_mul, Nat.cast_pow, Nat.cast_ofNat, ← pow_mul]
  have hsN : Real.sqrt ((n * 2 ^ 120 : Nat) : ℝ) = Real.sqrt n * 2 ^ 60 := by
    rw [e120, Real.sqrt_mul (Nat.cast_nonneg n), Real.sqrt_sq (by positivity)]
  have hlo : (K : ℝ) ≤ Real.sqrt n * 2 ^ 60 := by
    rw [← hsN]
    apply Real.le_sqrt_of_sq_le
    have : ((K * K : Nat) : ℝ) ≤ ((n * 2 ^ 120 : Nat) : ℝ) := Nat.cast_le.2 h1
    rw [Nat.cast_mul K] at this
    rw [sq]
    exact this
  have hhi : Real.sqrt n * 2 ^ 60 < (K : ℝ) + 1 := by
    rw [← hsN]
    rw [Real.sqrt_lt' (by positivity)]
    have : ((n * 2 ^ 120 : Nat) : ℝ) < (((K + 1) * (K + 1) : Nat) : ℝ) := Nat.cast_lt.2 h2
    rw [Nat.cast_mul (K + 1), Nat.cast_add, Nat.cast_one] at this
    rw [sq]
    exact this
  obtain ⟨st, hst⟩ : ∃ st : Nat, st = if K * K = n * 2 ^ 120 then 0 else 1 := ⟨_, rfl⟩
  rw [← hst]
  have hst1 : st ≤ 1 := by
    rw [hst]; split <;> omega
  obtain ⟨H, hH1, hH2, hH3⟩ := round53_sticky K st hst1 hK60
  obtain ⟨R, hR⟩ : ∃ R : Nat, R = round53 (2 * K + st) := ⟨_, rfl⟩
  rw [← hR] at hH2 hH3 ⊢
  have hexact : (st : ℝ) = 0 → Real.sqrt n * 2 ^ 60 = K := by
    intro h
    have h' : st = 0 := by exact_mod_cast h
    have hKK : K * K = n * 2 ^ 120 := by
      by_contra hc
      rw [hst, if_neg hc] at h'
      cases h'
    rw [← hsN, ← hKK, Nat.cast_mul]
    exact Real.sqrt_mul_self (Nat.cast_nonneg K)
  have c1 : ((2 ^ 53 * H : Nat) : ℝ) ≤ ((2 * K : Nat) : ℝ) := Nat.cast_le.2 hH1
  have c2 : (R : ℝ) ≤ ((2 * K + H : Nat) : ℝ) := Nat.cast_le.2 hH2
  have c3 : ((2 * K + 2 * st : Nat) : ℝ) ≤ ((R + H : Nat) : ℝ) := Nat.cast_le.2 hH3
  rw [Nat.cast_mul, Nat.cast_pow, Nat.cast_ofNat, Nat.cast_mul, Nat.cast_ofNat] at c1
  rw [Nat.cast_add, Nat.cast_mul, Nat.cast_ofNat] at c2
  rw [Nat.cast_add, Nat.cast_mul, Nat.cast_ofNat, Nat.cast_mul, Nat.cast_ofNat,
    Nat.cast_add] at c3
  have e1074 : (2:ℝ) ^ 1074 = 2 * 2 ^ 60 * 2 ^ 1013 := by
    have : (2:ℝ) * 2 ^ 60 = 2 ^ 61 := by rw [← pow_succ']
    rw [this, ← pow_add]
  have hcast : ((R * 2 ^ 1013 : Nat) : ℝ) / 2 ^ 1074 = (R : ℝ) / (2 * 2 ^ 60) := by
    rw [Nat.cast_mul, Nat.cast_pow, Nat.cast_ofNat, e1074,
      mul_div_mul_right _ _ (pow_ne_zero _ (two_ne_zero))]
  rw [hcast]
  have hst' : (st : ℝ) = 0 ∨ (st : ℝ) = 1 := by
    have : st = 0 ∨ st = 1 := by omega
    rcases this with h | h
    · left; rw [h]; exact Nat.cast_zero
    · right; rw [h]; exact Nat.cast_one
  exact real_core (Real.sqrt n) (2 ^ 60) (2 ^ 53) K R H st (by positivity) (by positivity)
    hlo hhi hexact hst' c1 c2 c3

/-- The double that `std::sqrt` returns for an integer `n` below `2 ^ 31` differs
from the square root of `n` by at most `2 ^ (-53)` times that root. -/
theorem sqrtInt_accuracy (n : Nat) :
    ∃ k, sqrtInt (n : Int) = .fin k ∧
      |(k : ℝ) / 2 ^ 1074 - Real.sqrt n| ≤ Real.sqrt n / 2 ^ 53 := by
  by_cases h0 : n = 0
  · subst h0
    refine ⟨0, sqrtInt_zero, ?_⟩
    simp
  · exact ⟨_, sqrtInt_nat n, sqrt_core n _ (Nat.pos_of_ne_zero h0) (isqrt_spec _).1
      (isqrt_spec _).2⟩

theorem natAbs_lt_sq (x : Int) (h : x.natAbs < 32768) :
    x * x = ((x.natAbs * x.natAbs : Nat) : Int) ∧ x.natAbs * x.natAbs ≤ 1073676289 ∧
      wrap32 x = x := by
  refine ⟨?_, ?_, ?_⟩
  · rw [Int.natCast_mul, Int.natAbs_mul_self']
  · have := Nat.mul_le_mul (Nat.le_of_lt_succ h) (Nat.le_of_lt_succ h)
    exact this
  · apply wrap32_id <;> omega

theorem radicand_core (x y : Int) (A B : Nat) (hx : wrap32 x = x) (hy : wrap32 y = y)
    (hA : x * x = (A : Int)) (hB : y * y = (B : Int)) (a1 : A ≤ 1073676289)
    (a2 : B ≤ 1073676289) :
    wrap32 (wrap32 (wrap32 x * wrap32 x) + wrap32 (wrap32 y * wrap32 y)) = ((A + B : Nat) : Int) := by
  rw [hx, hy, hA, hB]
  have w3 : wrap32 (A : Int) = A := by apply wrap32_id <;> omega
  have w4 : wrap32 (B : Int) = B := by apply wrap32_id <;> omega
  rw [w3, w4]
  have w5 : wrap32 ((A : Int) + B) = (A : Int) + B := by apply wrap32_id <;> omega
  rw [w5, Nat.cast_add]

/-- Within the size bound the `int32_t` arithmetic of `calcHval` does not wrap. -/
theorem radicand_exact (co finish : Coords) (h1 : (co.1 - finish.1).natAbs < 32768)
    (h2 : (co.2 - finish.2).natAbs < 32768) :
    radicand co finish =
      (((co.1 - finish.1).natAbs * (co.1 - finish.1).natAbs +
        (co.2 - finish.2).natAbs * (co.2 - finish.2).natAbs : Nat) : Int) := by
  obtain ⟨e1, a1, w1⟩ := natAbs_lt_sq _ h1
  obtain ⟨e2, a2, w2⟩ := natAbs_lt_sq _ h2
  exact radicand_core _ _ _ _ w1 w2 e1 e2 a1 a2

/-- The squared Euclidean distance of two coordinates as a real number. -/
theorem natAbs_sq_real (a b : Coords) :
    (((a.1 - b.1).natAbs * (a.1 - b.1).natAbs + (a.2 - b.2).natAbs * (a.2 - b.2).natAbs : Nat) : ℝ)
      = ((a.1 - b.1 : Int) : ℝ) * ((a.1 - b.1 : Int) : ℝ) +
        ((a.2 - b.2 : Int) : ℝ) * ((a.2 - b.2 : Int) : ℝ) := by
  have e : ∀ x : Int, ((x.natAbs * x.natAbs : Nat) : ℝ) = (x : ℝ) * (x : ℝ) := by
    intro x
    have h : ((x.natAbs * x.natAbs : Nat) : Int) = x * x := by
      rw [Int.natCast_mul, Int.natAbs_mul_self']
    have h2 : (((x.natAbs * x.natAbs : Nat) : Int) : ℝ) = ((x * x : Int) : ℝ) := by rw [h]
    rw [Int.cast_natCast, Int.cast_mul] at h2
    exact h2
  rw [Nat.cast_add, e, e]

theorem sqrt_triangle (u1 u2 v1 v2 : ℝ) :
    Real.sqrt ((u1 + v1) * (u1 + v1) + (u2 + v2) * (u2 + v2)) ≤
      Real.sqrt (u1 * u1 + u2 * u2) + Real.sqrt (v1 * v1 + v2 * v2) := by
  have hU : 0 ≤ u1 * u1 + u2 * u2 := by nlinarith [mul_self_nonneg u1, mul_self_nonneg u2]
  have hV : 0 ≤ v1 * v1 + v2 * v2 := by nlinarith [mul_self_nonneg v1, mul_self_nonneg v2]
  have hsU := Real.sqrt_nonneg (u1 * u1 + u2 * u2)
  have hsV := Real.sqrt_nonneg (v1 * v1 + v2 * v2)
  have hsU2 := Real.mul_self_sqrt hU
  have hsV2 := Real.mul_self_sqrt hV
  rw [Real.sqrt_le_left (add_nonneg hsU hsV)]
  have hcs : u1 * v1 + u2 * v2 ≤
      Real.sqrt (u1 * u1 + u2 * u2) * Real.sqrt (v1 * v1 + v2 * v2) := by
    rw [← Real.sqrt_mul hU]
    apply Real.le_sqrt_of_sq_le
    nlinarith [mul_self_nonneg (u1 * v2 - u2 * v1)]
  nlinarith

theorem sqrt_two_ge : (1.4 : ℝ) ≤ Real.sqrt 2 := by
  apply Real.le_sqrt_of_sq_le
  norm_num

/-- The Euclidean distance of two coordinates. -/
theorem dist_def_nonneg (a b : Coords) :
    0 ≤ Real.sqrt (((a.1 - b.1 : Int) : ℝ) * ((a.1 - b.1 : Int) : ℝ) +
        ((a.2 - b.2 : Int) : ℝ) * ((a.2 - b.2 : Int) : ℝ)) := Real.sqrt_nonneg _

theorem step_length_le {a b : Coords} (h : adjacent a b) :
    Real.sqrt (((a.1 - b.1 : Int) : ℝ) * ((a.1 - b.1 : Int) : ℝ) +
        ((a.2 - b.2 : Int) : ℝ) * ((a.2 - b.2 : Int) : ℝ)) ≤
      (stepCost a b : ℝ) / 10 * (Real.sqrt 2 / 1.4) := by
  obtain ⟨hne, h1, h2⟩ := h
  have hne' : ¬ (a.1 = b.1 ∧ a.2 = b.2) := fun hc => hne (Prod.ext hc.1 hc.2)
  have c1 : a.1 - b.1 = -1 ∨ a.1 - b.1 = 0 ∨ a.1 - b.1 = 1 := by omega
  have c2 : a.2 - b.2 = -1 ∨ a.2 - b.2 = 0 ∨ a.2 - b.2 = 1 := by omega
  have hs := sqrt_two_ge
  have horth : Real.sqrt 1 ≤ (10 : ℝ) / 10 * (Real.sqrt 2 / 1.4) := by
    rw [Real.sqrt_one]
    have : (10 : ℝ) / 10 * (Real.sqrt 2 / 1.4) = Real.sqrt 2 / 1.4 := by ring
    rw [this, le_div_iff₀ (by norm_num : (0 : ℝ) < 1.4)]
    linarith
  have hdiag : Real.sqrt 2 ≤ (14 : ℝ) / 10 * (Real.sqrt 2 / 1.4) := by
    have : (14 : ℝ) / 10 * (Real.sqrt 2 / 1.4) = Real.sqrt 2 := by
      field_simp
      ring
    rw [this]
  unfold stepCost
  rcases c1 with e1 | e1 | e1 <;> rcases c2 with e2 | e2 | e2 <;> rw [e1, e2] <;>
    first
      | (exfalso; apply hne'; constructor <;> omega)
      | (have hc : ¬ (a.1 = b.1 ∨ a.2 = b.2) := by omega
         rw [if_neg hc]
         norm_num
         norm_num at hdiag
         exact hdiag)
      | (have hc : a.1 = b.1 ∨ a.2 = b.2 := by omega
         rw [if_pos hc]
         norm_num
         norm_num at horth
         exact horth)

/-- The Euclidean distance between the ends of an 8-directional walk is at most
`√2 / 1.4` times the cost of the walk under the step costs `1.0` and `1.4`. -/
theorem dist_le_walk (b : Coords) (p : List Coords) :
    ∀ a, p.head? = some a → p.getLast? = some b → stepsOk p →
      Real.sqrt (((a.1 - b.1 : Int) : ℝ) * ((a.1 - b.1 : Int) : ℝ) +
        ((a.2 - b.2 : Int) : ℝ) * ((a.2 - b.2 : Int) : ℝ)) ≤
      (pathCost p : ℝ) / 10 * (Real.sqrt 2 / 1.4) := by
  induction p with
  | nil => intro a h; cases h
  | cons x rest ih =>
    intro a ha hb hsteps
    simp only [List.head?_cons, Option.some.injEq] at ha
    subst ha
    cases rest with
    | nil =>
      simp only [List.getLast?_singleton, Option.some.injEq] at hb
      subst hb
      simp [pathCost]
    | cons y ys =>
      rw [List.getLast?_cons_cons] at hb
      obtain ⟨hadj, hrest⟩ := hsteps
      have h1 := ih y rfl hb hrest
      have h2 := step_length_le hadj
      have h3 := sqrt_triangle ((x.1 - y.1 : Int) : ℝ) ((x.2 - y.2 : Int) : ℝ)
        ((y.1 - b.1 : Int) : ℝ) ((y.2 - b.2 : Int) : ℝ)
      have e1 : ((x.1 - b.1 : Int) : ℝ) = ((x.1 - y.1 : Int) : ℝ) + ((y.1 - b.1 : Int) : ℝ) := by
        push_cast; ring
      have e2 : ((x.2 - b.2 : Int) : ℝ) = ((x.2 - y.2 : Int) : ℝ) + ((y.2 - b.2 : Int) : ℝ) := by
        push_cast; ring
      rw [e1, e2]
      have hc : (pathCost (x :: y :: ys) : ℝ) = (stepCost x y : ℝ) + (pathCost (y :: ys) : ℝ) := by
        simp [pathCost]
      rw [hc]
      have hdist : ((stepCost x y : ℝ) + (pathCost (y :: ys) : ℝ)) / 10 * (Real.sqrt 2 / 1.4) =
          (stepCost x y : ℝ) / 10 * (Real.sqrt 2 / 1.4) +
            (pathCost (y :: ys) : ℝ) / 10 * (Real.sqrt 2 / 1.4) := by ring
      rw [hdist]
      linarith

/-- Within the size bound `calcHval` is a finite double within `2 ^ (-53)` of the
Euclidean distance, relatively. -/
theorem calcHval_accuracy (tiles : TileLines) (co finish : Coords)
    (h1 : (co.1 - finish.1).natAbs < 32768) (h2 : (co.2 - finish.2).natAbs < 32768) :
    ∃ k, calcHval tiles co finish = .fin k ∧
      |(k : ℝ) / 2 ^ 1074 -
        Real.sqrt (((co.1 - finish.1 : Int) : ℝ) * ((co.1 - finish.1 : Int) : ℝ) +
          ((co.2 - finish.2 : Int) : ℝ) * ((co.2 - finish.2 : Int) : ℝ))| ≤
      Real.sqrt (((co.1 - finish.1 : Int) : ℝ) * ((co.1 - finish.1 : Int) : ℝ) +
          ((co.2 - finish.2 : Int) : ℝ) * ((co.2 - finish.2 : Int) : ℝ)) / 2 ^ 53 := by
  have hr := radicand_exact co finish h1 h2
  unfold calcHval
  rw [hr]
  obtain ⟨k, hk, hacc⟩ := sqrtInt_accuracy ((co.1 - finish.1).natAbs * (co.1 - finish.1).natAbs +
        (co.2 - finish.2).natAbs * (co.2 - finish.2).natAbs)
  rw [natAbs_sq_real] at hacc
  exact ⟨k, hk, hacc⟩

set_option maxRecDepth 100000 in
/-- C15 (counterexample): the diagonal step from `(0,0)` to `(1,1)` is a route of
cost `1.4`, and the heuristic value of `(0,0)` for the finish `(1,1)`, the double
`1.4142135623730951`, exceeds `1.4` and the binary64 constant `1.4` of the code. -/
theorem heuristic_exceeds_diagonal_cost :
    stepsOk [(0, 0), (1, 1)] ∧ pathCost [(0, 0), (1, 1)] = 14 ∧
      calcHval [] (0, 0) (1, 1) = .fin (6369051672525773 * 2 ^ 1022) ∧
      14 * 2 ^ 1074 < 10 * (6369051672525773 * 2 ^ 1022) ∧
      dlt d14 (calcHval [] (0, 0) (1, 1)) = true := by
  refine ⟨by decide, by decide, by decide!, by decide!, by decide!⟩

/-- C15 (amended): for coordinates less than 32768 rows and columns apart,
`calcHval` is a finite double that differs from the Euclidean distance
`√(dr² + dc²)` by at most `2 ^ (-53)` times that distance, and for every
8-directional route from `coord` to `finish` it is at most `(√2 / 1.4) (1 + 2 ^ (-53))`
times the cost of the route under the step costs `1.0` and `1.4`. -/
theorem heuristic_within_factor (tiles : TileLines) (coord finish : Coords)
    (p : List Coords) (hrow : (coord.1 - finish.1).natAbs < 32768)
    (hcol : (coord.2 - finish.2).natAbs < 32768)
    (hhead : p.head? = some coord) (hlast : p.getLast? = some finish)
    (hsteps : stepsOk p) :
    ∃ k, calcHval tiles coord finish = .fin k ∧
      |(k : ℝ) / 2 ^ 1074 -
        Real.sqrt (((coord.1 - finish.1 : Int) : ℝ) * ((coord.1 - finish.1 : Int) : ℝ) +
          ((coord.2 - finish.2 : Int) : ℝ) * ((coord.2 - finish.2 : Int) : ℝ))| ≤
      Real.sqrt (((coord.1 - finish.1 : Int) : ℝ) * ((coord.1 - finish.1 : Int) : ℝ) +
          ((coord.2 - finish.2 : Int) : ℝ) * ((coord.2 - finish.2 : Int) : ℝ)) / 2 ^ 53 ∧
      (k : ℝ) / 2 ^ 1074 ≤
        (pathCost p : ℝ) / 10 * (Real.sqrt 2 / 1.4) * (1 + 1 / 2 ^ 53) := by
  obtain ⟨k, hk, hacc⟩ := calcHval_accuracy tiles coord finish hrow hcol
  refine ⟨k, hk, hacc, ?_⟩
  have hw := dist_le_walk finish p coord hhead hlast hsteps
  have hd := dist_def_nonneg coord finish
  rw [abs_le] at hacc
  obtain ⟨-, hup⟩ := hacc
  generalize Real.sqrt (((coord.1 - finish.1 : Int) : ℝ) * ((coord.1 - finish.1 : Int) : ℝ) +
          ((coord.2 - finish.2 : Int) : ℝ) * ((coord.2 - finish.2 : Int) : ℝ)) = E at hup hw hd
  generalize (pathCost p : ℝ) / 10 * (Real.sqrt 2 / 1.4) = W at hw ⊢
  generalize (k : ℝ) / 2 ^ 1074 = x at hup ⊢
  have hu : (0:ℝ) ≤ 1 / 2 ^ 53 := by positivity
  have e : E / 2 ^ 53 = E * (1 / 2 ^ 53) := by ring
  rw [e] at hup
  generalize (1:ℝ) / 2 ^ 53 = u at hup hu ⊢
  nlinarith

set_option maxRecDepth 100000 in
/-- C15 (witness of the amended claim): the route `examplePath` from `(0,0)` to `(2,2)`. -/
theorem heuristic_within_factor_witness :
    ((0 : Int) - 2).natAbs < 32768 ∧ examplePath.head? = some (0, 0) ∧
      examplePath.getLast? = some (2, 2) ∧ stepsOk examplePath ∧
      ∃ k, calcHval (mkGrid exampleLines) (0, 0) (2, 2) = .fin k ∧
        |(k : ℝ) / 2 ^ 1074 -
          Real.sqrt ((((0 : Int) - 2 : Int) : ℝ) * (((0 : Int) - 2 : Int) : ℝ) +
            (((0 : Int) - 2 : Int) : ℝ) * (((0 : Int) - 2 : Int) : ℝ))| ≤
        Real.sqrt ((((0 : Int) - 2 : Int) : ℝ) * (((0 : Int) - 2 : Int) : ℝ) +
            (((0 : Int) - 2 : Int) : ℝ) * (((0 : Int) - 2 : Int) : ℝ)) / 2 ^ 53 ∧
        (k : ℝ) / 2 ^ 1074 ≤
          (pathCost examplePath : ℝ) / 10 * (Real.sqrt 2 / 1.4) * (1 + 1 / 2 ^ 53) :=
  ⟨by decide, rfl, rfl, by decide,
    heuristic_within_factor (mkGrid exampleLines) (0, 0) (2, 2) examplePath (by decide)
      (by decide) rfl rfl (by decide)⟩

set_option maxRecDepth 100000 in
theorem round53_dOne : round53 (2 ^ 1074) = 2 ^ 1074 := by decide!

set_option maxRecDepth 100000 in
theorem round53_d14 : round53 (6305039478318694 * 2 ^ 1022) = 6305039478318694 * 2 ^ 1022 := by
  decide!

set_option maxRecDepth 100000 in
theorem d14_ge_one : 2 ^ 1074 ≤ 6305039478318694 * 2 ^ 1022 := by decide!

/-- A finite sum of a double and a step cost is at least `1.0`. -/
theorem dadd_step_ge_one {x c : Dbl} (hc : c = dOne ∨ c = d14) {k : Nat}
    (h : dadd x c = .fin k) : 2 ^ 1074 ≤ k := by
  cases x with
  | inf => rcases hc with rfl | rfl <;> cases h
  | nan => rcases hc with rfl | rfl <;> cases h
  | fin a =>
    have key : ∀ ck : Nat, round53 ck = ck → 2 ^ 1074 ≤ ck → dadd (.fin a) (.fin ck) = .fin k →
        2 ^ 1074 ≤ k := by
      intro ck hr hge hd
      simp only [dadd] at hd
      rcases rnd_cases (a + ck) with ⟨-, e⟩ | ⟨-, e⟩
      · rw [e] at hd
        have hk := Dbl.fin.inj hd
        have hm := round53_mono (show ck ≤ a + ck by omega)
        rw [hr] at hm
        omega
      · rw [e] at hd
        cases hd
    rcases hc with rfl | rfl
    · exact key _ round53_dOne (le_refl _) h
    · exact key _ round53_d14 d14_ge_one h

/-- The order of frontier entries with finite priorities, in terms of the keys. -/
theorem entryLt_fin (ka kb : Nat) (a b : Coords) :
    entryLt (.fin ka, a) (.fin kb, b) = true ↔ ka < kb ∨ (ka = kb ∧ coordsLt a b = true) := by
  unfold entryLt
  simp only [dlt_fin_fin, Bool.or_eq_true, decide_eq_true_eq, Bool.and_eq_true,
    Bool.not_eq_true', decide_eq_false_iff_not, not_lt]
  constructor
  · rintro (h | ⟨h1, h2⟩)
    · exact Or.inl h
    · by_cases h : ka < kb
      · exact Or.inl h
      · exact Or.inr ⟨by omega, h2⟩
  · rintro (h | ⟨h1, h2⟩)
    · exact Or.inl h
    · exact Or.inr ⟨by omega, h2⟩

theorem coordsLt_trans {a b c : Coords} (h1 : coordsLt a b = true) (h2 : coordsLt b c = true) :
    coordsLt a c = true := by
  unfold coordsLt at h1 h2 ⊢
  simp only [Bool.or_eq_true, decide_eq_true_eq, Bool.and_eq_true, Bool.not_eq_true',
    decide_eq_false_iff_not, not_lt] at h1 h2 ⊢
  omega

theorem entryLt_trans {a b c : Entry} (ha : ∃ k, a.1 = .fin k) (hb : ∃ k, b.1 = .fin k)
    (hc : ∃ k, c.1 = .fin k) (h1 : entryLt a b = true) (h2 : entryLt b c = true) :
    entryLt a c = true := by
  obtain ⟨a1, a2⟩ := a
  obtain ⟨b1, b2⟩ := b
  obtain ⟨c1, c2⟩ := c
  obtain ⟨ka, hka⟩ := ha
  obtain ⟨kb, hkb⟩ := hb
  obtain ⟨kc, hkc⟩ := hc
  simp only at hka hkb hkc
  subst hka hkb hkc
  rw [entryLt_fin] at h1 h2 ⊢
  rcases h1 with h1 | ⟨h1, h1'⟩ <;> rcases h2 with h2 | ⟨h2, h2'⟩
  · exact Or.inl (by omega)
  · exact Or.inl (by omega)
  · exact Or.inl (by omega)
  · exact Or.inr ⟨by omega, coordsLt_trans h1' h2'⟩

/-- An entry below another one has a priority that is not above it. -/
theorem entryLt_prio {a b : Entry} (h : entryLt a b = true) : dlt b.1 a.1 = false := by
  unfold entryLt at h
  simp only [Bool.or_eq_true, Bool.and_eq_true, Bool.not_eq_true'] at h
  rcases h with h | ⟨h, -⟩
  · exact dlt_asymm h
  · exact h

/-- Operation `insert` keeps the frontier in increasing order. -/
theorem setInsert_sorted (ol : OpenList) (e : Entry) (hol : ∀ x ∈ ol, ∃ k, x.1 = .fin k)
    (he : ∃ k, e.1 = .fin k) (hs : ol.Pairwise (fun a b => entryLt a b = true)) :
    (setInsert ol e).Pairwise (fun a b => entryLt a b = true) := by
  induction ol with
  | nil => simp [setInsert]
  | cons y ys ih =>
    rw [List.pairwise_cons] at hs
    obtain ⟨hy, hys⟩ := hs
    have hfy := hol y (List.mem_cons_self _ _)
    have hfys : ∀ x ∈ ys, ∃ k, x.1 = .fin k := fun x hx => hol x (List.mem_cons_of_mem _ hx)
    simp only [setInsert]
    by_cases h1 : entryLt e y = true
    · rw [if_pos h1]
      rw [List.pairwise_cons]
      refine ⟨?_, List.pairwise_cons.2 ⟨hy, hys⟩⟩
      intro x hx
      rw [List.mem_cons] at hx
      rcases hx with rfl | hx
      · exact h1
      · exact entryLt_trans he hfy (hfys x hx) h1 (hy x hx)
    · rw [if_neg h1]
      by_cases h2 : entryLt y e = true
      · rw [if_pos h2]
        rw [List.pairwise_cons]
        refine ⟨?_, ih hfys hys⟩
        intro x hx
        rcases mem_setInsert _ _ _ hx with hx | rfl
        · exact hy x hx
        · exact h2
      · rw [if_neg h2]
        exact List.pairwise_cons.2 ⟨hy, hys⟩

/-- The first entry of an increasing frontier has the least priority. -/
theorem head_prio_le {e : Entry} {rest : OpenList}
    (hs : (e :: rest).Pairwise (fun a b => entryLt a b = true)) :
    ∀ x ∈ e :: rest, dlt x.1 e.1 = false := by
  intro x hx
  rw [List.mem_cons] at hx
  rcases hx with rfl | hx
  · exact dlt_irrefl _
  · exact entryLt_prio ((List.pairwise_cons.1 hs).1 x hx)

set_option maxRecDepth 100000 in
theorem abs_consts : 2 ^ 33 * 2 ^ 1074 = 2 ^ 53 * 2 ^ 1054 ∧
    2 ^ 53 * 2 ^ 1054 + 2 ^ 1054 < 2 ^ 2098 := by decide!

/-- A sum of two doubles below `2 ^ 33` is finite and within `2 ^ (-20)` of the exact sum. -/
theorem dadd_abs_err {a b : Nat} (h : a + b ≤ 2 ^ 33 * 2 ^ 1074) :
    ∃ k, dadd (.fin a) (.fin b) = .fin k ∧ k ≤ a + b + 2 ^ 1054 ∧ a + b ≤ k + 2 ^ 1054 := by
  obtain ⟨c1, c2⟩ := abs_consts
  obtain ⟨e1, e2⟩ := round53_err (a + b)
  rw [c1] at h
  have hup : round53 (a + b) - (a + b) ≤ 2 ^ 1054 := by
    have := le_trans e1 h
    exact Nat.le_of_mul_le_mul_left this (Nat.two_pow_pos 53)
  have hdn : (a + b) - round53 (a + b) ≤ 2 ^ 1054 := by
    have := le_trans e2 h
    exact Nat.le_of_mul_le_mul_left this (Nat.two_pow_pos 53)
  have hlt : round53 (a + b) < 2 ^ 2098 := by omega
  refine ⟨round53 (a + b), ?_, by omega, by omega⟩
  simp only [dadd]
  unfold rnd
  rw [if_pos hlt]

/-- The loop of `astar` keeps the frontier in increasing order, with finite
priorities, when the sums it inserts are finite. -/
theorem astarLoop_sorted (oriTile : Tile) (o finish : Coords) (ds : List (Dbl × Coords))
    (hnd : (ds.map Prod.snd).Nodup) :
    ∀ (tiles : TileLines) (ol : OpenList) (r : Option Coords) (tiles' : TileLines)
      (ol' : OpenList), astarLoop oriTile o finish ds tiles ol = (r, tiles', ol') →
      (∀ e ∈ ol, ∃ k, e.1 = .fin k) → ol.Pairwise (fun a b => entryLt a b = true) →
      (∀ d ∈ ds, isValidTile tiles (o.1 + d.2.1, o.2 + d.2.2) = true →
        ∃ k, dadd (calcHval tiles (o.1 + d.2.1, o.2 + d.2.2) finish)
          (dadd oriTile.gval d.1) = .fin k) →
      (∀ e ∈ ol', ∃ k, e.1 = .fin k) ∧ ol'.Pairwise (fun a b => entryLt a b = true) := by
  induction ds with
  | nil =>
    intro tiles ol r tiles' ol' h hfin hs _
    simp only [astarLoop, Prod.mk.injEq] at h
    obtain ⟨-, -, rfl⟩ := h
    exact ⟨hfin, hs⟩
  | cons dir rest ih =>
    rw [List.map_cons, List.nodup_cons] at hnd
    obtain ⟨hnotin, hnd'⟩ := hnd
    have hdistinct : ∀ d ∈ rest, (o.1 + dir.2.1, o.2 + dir.2.2) ≠ (o.1 + d.2.1, o.2 + d.2.2) := by
      intro d hd
      apply neighbour_ne
      intro hc
      apply hnotin
      rw [hc]
      exact List.mem_map_of_mem _ hd
    intro tiles ol r tiles' ol' h hfin hs hnew
    rw [astarLoop] at h
    simp only at h
    have hnew' : ∀ d ∈ rest, isValidTile tiles (o.1 + d.2.1, o.2 + d.2.2) = true →
        ∃ k, dadd (calcHval tiles (o.1 + d.2.1, o.2 + d.2.2) finish)
          (dadd oriTile.gval d.1) = .fin k :=
      fun d hd => hnew d (List.mem_cons_of_mem _ hd)
    by_cases hv0 : isValidTile tiles (o.1 + dir.2.1, o.2 + dir.2.2) = true
    · simp only [hv0, Bool.not_true, Bool.false_eq_true, if_false] at h
      by_cases hr0 : relaxCond (calcHval tiles (o.1 + dir.2.1, o.2 + dir.2.2) finish)
          (dadd oriTile.gval dir.1) (tileAt tiles (o.1 + dir.2.1, o.2 + dir.2.2)) = true
      · rw [if_pos hr0] at h
        split at h
        · simp only [Prod.mk.injEq] at h
          obtain ⟨-, -, rfl⟩ := h
          exact ⟨hfin, hs⟩
        · have he := hnew dir (List.mem_cons_self _ _) hv0
          apply ih hnd' _ _ _ _ _ h
          · intro e hin
            rcases mem_setInsert _ _ _ hin with h1 | h1
            · exact hfin e h1
            · rw [h1]
              exact he
          · exact setInsert_sorted _ _ hfin he hs
          · intro d hd hv
            rw [isValidTile_setTile_ne _ _ _ _ (hdistinct d hd).symm] at hv
            exact hnew' d hd hv
      · rw [if_neg hr0] at h
        exact ih hnd' _ _ _ _ _ h hfin hs hnew'
    · have hv0' : isValidTile tiles (o.1 + dir.2.1, o.2 + dir.2.2) = false := by
        simpa using hv0
      simp only [hv0', Bool.not_false, if_true] at h
      exact ih hnd' _ _ _ _ _ h hfin hs hnew'

/-- A cell of a grid within the size bound has coordinates below `32768`. -/
theorem tileAt?_bounds {tiles : TileLines} (hsize : SizeOk tiles) {co : Coords} {t : Tile}
    (h : tileAt? tiles co = some t) : 0 ≤ co.1 ∧ co.1 < 32768 ∧ 0 ≤ co.2 ∧ co.2 < 32768 := by
  obtain ⟨h1, h2⟩ := tileAt?_nonneg h
  unfold tileAt? at h
  rw [if_pos ⟨h1, h2⟩] at h
  cases hrow : tiles[co.1.toNat]? with
  | none => rw [hrow] at h; cases h
  | some row =>
    rw [hrow] at h
    simp only at h
    obtain ⟨hlt, hget⟩ := List.getElem?_eq_some_iff.1 hrow
    obtain ⟨hlt2, -⟩ := List.getElem?_eq_some_iff.1 h
    have hmem : row ∈ tiles := by
      rw [← hget]
      exact List.getElem_mem _
    have := hsize.1
    have := hsize.2 row hmem
    omega

/-- Cells of one grid within the size bound are less than `32768` rows and columns
apart. -/
theorem grid_apart {tiles : TileLines} (hsize : SizeOk tiles) {a b : Coords} {ta tb : Tile}
    (ha : tileAt? tiles a = some ta) (hb : tileAt? tiles b = some tb) :
    (a.1 - b.1).natAbs < 32768 ∧ (a.2 - b.2).natAbs < 32768 := by
  have := tileAt?_bounds hsize ha
  have := tileAt?_bounds hsize hb
  omega

set_option maxRecDepth 100000 in
theorem hval_consts : 2 ^ 77 * 2 ^ 1013 = 2 ^ 16 * 2 ^ 1074 ∧
    2 ^ 1075 * 2 ^ 30 = 2 ^ 31 * 2 ^ 1074 ∧ 2 ^ 1075 = 2 * 2 ^ 1074 ∧
    2 ^ 33 * 2 ^ 1074 = 8 * (2 ^ 30 * 2 ^ 1074) ∧ 2 ^ 16 * 2 ^ 1074 ≤ 2 ^ 30 * 2 ^ 1074 ∧
    2 ^ 1054 ≤ 2 ^ 1074 ∧ 2 ^ 31 * 2 ^ 1074 = 2 * (2 ^ 30 * 2 ^ 1074) ∧
    2 ^ 1074 ≤ 2 ^ 30 * 2 ^ 1074 := by
  decide!

/-- The heuristic value of a cell of the grid is a finite double of at most `2 ^ 16`. -/
theorem hval_fin {tiles0 : TileLines} (hsize : SizeOk tiles0) {co finish : Coords}
    {t tf : Tile} (hco : tileAt? tiles0 co = some t) (hf : tileAt? tiles0 finish = some tf)
    (tiles : TileLines) :
    ∃ k, calcHval tiles co finish = .fin k ∧ k ≤ 2 ^ 16 * 2 ^ 1074 := by
  obtain ⟨h1, h2⟩ := grid_apart hsize hco hf
  obtain ⟨k, hk, -⟩ := calcHval_accuracy tiles co finish h1 h2
  refine ⟨k, hk, ?_⟩
  rcases calcHval_cases tiles co finish with hn | ⟨k', hk', hle⟩
  · rw [hn] at hk
    cases hk
  · rw [hk] at hk'
    cases hk'
    rw [← hval_consts.1]
    exact hle

/-- The sum `newH + newG` that `astar` computes for a cell of the grid from an origin
whose cost is at most `2 ^ 31` is finite, at most `2 ^ 32`, and within `2 ^ (-19)`
of the exact sum of the heuristic value, the cost of the origin and the step cost. -/
theorem newf_fin {kh og : Nat} {c : Dbl} (hkh : kh ≤ 2 ^ 16 * 2 ^ 1074)
    (hog : og ≤ 2 ^ 1075 * 2 ^ 30) (hc : c = dOne ∨ c = d14) :
    ∃ g' f' ck, c = .fin ck ∧ ck ≤ 2 ^ 1075 ∧ dadd (.fin og) c = .fin g' ∧
      dadd (.fin kh) (.fin g') = .fin f' ∧
      g' ≤ og + ck + 2 ^ 1054 ∧ og + ck ≤ g' + 2 ^ 1054 ∧
      f' ≤ kh + g' + 2 ^ 1054 ∧ kh + g' ≤ f' + 2 ^ 1054 := by
  obtain ⟨c1, c2, c3, c4, c5, c6, c7, c8⟩ := hval_consts
  have hck : ∃ ck, c = .fin ck ∧ ck ≤ 2 ^ 1075 := by
    rcases hc with rfl | rfl
    · exact dOne_key_le
    · exact d14_key_le
  obtain ⟨ck, rfl, hck⟩ := hck
  rw [c2] at hog
  rw [c3] at hck
  have hsum1 : og + ck ≤ 2 ^ 33 * 2 ^ 1074 := by
    rw [c4]
    omega
  obtain ⟨g', hg', b1, b2⟩ := dadd_abs_err hsum1
  have hsum2 : kh + g' ≤ 2 ^ 33 * 2 ^ 1074 := by
    rw [c4]
    omega
  obtain ⟨f', hf', b3, b4⟩ := dadd_abs_err hsum2
  exact ⟨g', f', ck, rfl, by rw [c3]; exact hck, hg', hf', b1, b2, b3, b4⟩

/-- Under the invariant a cell of the current grid is a cell of the loaded grid. -/
theorem inv_inGrid {tiles0 : TileLines} {start finish : Coords} {tiles : TileLines}
    {ol : OpenList} (hinv : Inv tiles0 start finish tiles ol) {co : Coords} {t : Tile}
    (h : tileAt? tiles co = some t) : ∃ t0, tileAt? tiles0 co = some t0 := by
  have hs := hinv.symbols co
  unfold symbolAt at hs
  rw [h] at hs
  cases h0 : tileAt? tiles0 co with
  | none => rw [h0] at hs; cases hs
  | some t0 => exact ⟨t0, rfl⟩

/-- Under the invariant a cell of the loaded grid is a cell of the current grid. -/
theorem inv_inGrid' {tiles0 : TileLines} {start finish : Coords} {tiles : TileLines}
    {ol : OpenList} (hinv : Inv tiles0 start finish tiles ol) {co : Coords} {t0 : Tile}
    (h : tileAt? tiles0 co = some t0) : ∃ t, tileAt? tiles co = some t := by
  have hs := hinv.symbols co
  unfold symbolAt at hs
  rw [h] at hs
  cases h1 : tileAt? tiles co with
  | none => rw [h1] at hs; cases hs
  | some t => exact ⟨t, rfl⟩

set_option maxRecDepth 100000 in
theorem dadd_zero_zero : dadd dZero dZero = dZero := by decide!

/-- One iteration of the driver that returns no result keeps the invariant of the
frontier. -/
theorem front_step {tiles0 : TileLines} {start finish : Coords} {tiles : TileLines}
    {p : Dbl} {co : Coords} {rest : OpenList} {tiles' : TileLines} {ol' : OpenList}
    (hsize : SizeOk tiles0) {tf : Tile} (hf : tileAt? tiles0 finish = some tf)
    (hinv : Inv tiles0 start finish tiles ((p, co) :: rest))
    (hgb : GBound tiles0 start tiles) (hfr : Front tiles ((p, co) :: rest))
    (h : astar (closeTile tiles co) rest co finish = (none, tiles', ol')) :
    Front tiles' ol' := by
  obtain ⟨hinv1, hsc, oriTile, og, ho, hoc, hog, -⟩ := close_inv hinv
  -- the cost of the origin is at most `2 ^ 31`
  have hogb : og ≤ 2 ^ 1075 * 2 ^ 30 := by
    obtain ⟨t, ht, hor⟩ := hinv.open_ok (p, co) (List.mem_cons_self _ _)
    simp only at ht hor
    obtain ⟨k, hk, hkb⟩ := gbound_closed hsize hgb ht (hor.symm.imp_left id)
    rw [tileAt?_closeTile, ht] at ho
    simp only [Option.map_some', if_true, Option.some.injEq] at ho
    rw [← ho] at hog
    simp only at hog
    rw [hk] at hog
    cases hog
    exact hkb
  unfold astar at h
  rw [tileAt_of_some ho] at h
  have hnewfin : ∀ d ∈ dirs, isValidTile (closeTile tiles co) (co.1 + d.2.1, co.2 + d.2.2) = true →
      ∃ k, dadd (calcHval (closeTile tiles co) (co.1 + d.2.1, co.2 + d.2.2) finish)
        (dadd oriTile.gval d.1) = .fin k := by
    intro d hd hv
    obtain ⟨nt, hnt, -, -⟩ := isValidTile_some hv
    obtain ⟨n0, hn0⟩ := inv_inGrid hinv1 hnt
    obtain ⟨kh, hkh, hkhb⟩ := hval_fin hsize hn0 hf (closeTile tiles co)
    obtain ⟨g', f', ck, -, -, e1, e2, -⟩ := newf_fin hkhb hogb (dirs_cost hd)
    rw [hkh, hog, e1, e2]
    exact ⟨f', rfl⟩
  obtain ⟨f1, f2, f3, f4, f5, f6⟩ := astarLoop_frame _ _ _ _ _ _ _ _ _ h
  have hrelax := astarLoop_relax _ _ _ dirs dirs_offsets_nodup _ _ _ _ h
  have hentries := astarLoop_entries _ _ _ dirs dirs_offsets_nodup _ _ _ _ _ h
  have htiles := astarLoop_tiles _ _ _ dirs dirs_offsets_nodup _ _ _ _ _ h
  have hrestfin : ∀ e ∈ rest, ∃ k, e.1 = .fin k :=
    fun e he => hfr.prio_fin e (List.mem_cons_of_mem _ he)
  obtain ⟨hfin', hsorted'⟩ := astarLoop_sorted _ _ _ dirs dirs_offsets_nodup _ _ _ _ _ h
    hrestfin (List.pairwise_cons.1 hfr.sorted).2 hnewfin
  have hnan1 : ∀ e ∈ rest, e.1 ≠ .nan := by
    intro e he hc
    obtain ⟨k, hk⟩ := hrestfin e he
    rw [hk] at hc
    cases hc
  have hnan2 : ∀ d' ∈ dirs,
      isValidTile (closeTile tiles co) (co.1 + d'.2.1, co.2 + d'.2.2) = true →
      dadd (calcHval (closeTile tiles co) (co.1 + d'.2.1, co.2 + d'.2.2) finish)
        (dadd oriTile.gval d'.1) ≠ .nan := by
    intro d hd hv hc
    obtain ⟨k, hk⟩ := hnewfin d hd hv
    rw [hk] at hc
    cases hc
  -- a tile that is not closed after closing `co` is a tile of the state before
  have hback : ∀ c t, tileAt? (closeTile tiles co) c = some t → t.closed = false →
      c ≠ co ∧ tileAt? tiles c = some t := by
    intro c t ht hnc
    have hne : c ≠ co := by
      intro hc
      subst hc
      rw [ho] at ht
      cases ht
      rw [hoc] at hnc
      cases hnc
    refine ⟨hne, ?_⟩
    rw [tileAt?_closeTile] at ht
    cases hx : tileAt? tiles c with
    | none => rw [hx] at ht; cases ht
    | some t0 =>
      rw [hx] at ht
      simp only [Option.map_some', if_neg hne, Option.some.injEq] at ht
      rw [ht]
  refine ⟨hfin', hsorted', ?_, ?_⟩
  · intro c t' ht' hpn hnc
    rcases htiles c with hsame | ⟨d, hd, rfl, hv, hr, hrel⟩
    · rw [ht'] at hsame
      obtain ⟨hne, ht0⟩ := hback c t' hsame.symm hnc
      have hmem := hfr.front c t' ht0 hpn hnc
      rw [List.mem_cons] at hmem
      rcases hmem with hmem | hmem
      · exact absurd (congrArg Prod.snd hmem) hne
      · exact f5 _ hmem
    · obtain ⟨-, hin⟩ := (hrelax d hd hv).1 hr
      rw [ht'] at hrel
      cases hrel
      exact hin hnan1 hnan2
  · intro e he t' ht' hnc
    rcases hentries e he with hrest | ⟨d, hd, rfl, hv, hr⟩
    · rcases htiles e.2 with hsame | ⟨d, hd, heq, hv, hr, hrel⟩
      · rw [ht'] at hsame
        obtain ⟨-, ht0⟩ := hback e.2 t' hsame.symm hnc
        exact hfr.stale e (List.mem_cons_of_mem _ hrest) t' ht0 hnc
      · rw [ht'] at hrel
        cases hrel
        simp only
        obtain ⟨hne, hv0⟩ := isValidTile_closeTile hv
        obtain ⟨tn, htn, -, htnc⟩ := isValidTile_some hv
        have hpn : (tileAt (closeTile tiles co) e.2).parent ≠ noParent := by
          obtain ⟨t, ht, hor⟩ := hinv1.open_ok e hrest
          rcases hor with hst | hp
          · exfalso
            rw [← hst, tileAt_of_some htn] at hsc
            rw [hsc] at htnc
            cases htnc
          · rw [tileAt_of_some ht]
            exact hp
        have hk := relaxCond_known hinv1 hv hpn (calcHval (closeTile tiles co) e.2 finish)
          (dadd oriTile.gval d.1)
        rw [hr] at hk
        obtain ⟨-, ht0⟩ := hback e.2 tn htn htnc
        have hst := hfr.stale e (List.mem_cons_of_mem _ hrest) tn ht0 htnc
        rw [tileAt_of_some htn] at hk
        unfold Tile.fval at hk
        rw [dadd_comm tn.gval tn.hval] at hk
        exact dlt_of_lt_of_not hk.symm hst
    · obtain ⟨htile, -⟩ := (hrelax d hd hv).1 hr
      simp only at ht'
      rw [ht'] at htile
      cases htile
      exact dlt_irrefl _

/-- In every loop state of the driver on a grid within the size bound in which no
result has been returned, the frontier is in increasing order, holds the entry of
the current sum of every open tile that has been reached, and holds no entry below
the current sum of its tile. -/
theorem reach_front {lines : List String} {tiles0 : TileLines} {start finish : Coords}
    (hload : createTiles lines = .ok tiles0) (hsize : SizeOk tiles0)
    (hstart : findStart tiles0 = .ok start) {tf : Tile}
    (hf : tileAt? tiles0 finish = some tf)
    {s : LoopState} (hreach : Reach tiles0 start finish s) :
    s.1 = none → Front s.2.1 s.2.2 := by
  induction hreach with
  | init =>
    intro _
    have hinv := inv_init finish hload hstart
    have hol : initOpen start = [(dZero, start)] := rfl
    simp only
    rw [hol]
    refine ⟨?_, ?_, ?_, ?_⟩
    · intro e he
      simp only [List.mem_singleton] at he
      rw [he]
      exact ⟨0, rfl⟩
    · exact List.pairwise_singleton _ _
    · intro c t ht hpn _
      exfalso
      obtain ⟨pt, hpt, hpc, -⟩ := hinv.link c t ht hpn
      have := init_not_closed start hload _ pt hpt
      rw [hpc] at this
      cases this
    · intro e he t ht _
      simp only [List.mem_singleton] at he
      subst he
      obtain ⟨st, hst, -, hg, hh, -⟩ := hinv.start_tile
      simp only at ht
      rw [hst] at ht
      cases ht
      rw [hg, hh, dadd_zero_zero]
      exact dlt_irrefl _
  | @step s1 s2 hr1 hstep ih =>
    intro hnone
    obtain ⟨r, tiles, ol⟩ := s1
    cases r with
    | some c => simp [loopStep] at hstep
    | none =>
      cases ol with
      | nil => simp [loopStep] at hstep
      | cons e rest =>
        obtain ⟨p, co⟩ := e
        simp only [loopStep, Option.some.injEq] at hstep
        obtain ⟨r2, tiles2, ol2⟩ := s2
        simp only at hnone
        subst hnone
        exact front_step hsize hf (reach_inv hload hstart hr1)
          (reach_gbound hload hstart hsize hr1) (ih rfl) hstep

/-- A list that starts in a set and ends outside it has two consecutive members,
the first in the set and the second outside. -/
theorem split_boundary (C : Coords → Prop) :
    ∀ (p : List Coords) (x y : Coords), p.head? = some x → p.getLast? = some y → C x → ¬ C y →
      ∃ l1 a b l2, p = l1 ++ a :: b :: l2 ∧ C a ∧ ¬ C b := by
  intro p
  induction p with
  | nil => intro x y h; cases h
  | cons u rest ih =>
    intro x y hh hl hx hy
    simp only [List.head?_cons, Option.some.injEq] at hh
    subst hh
    cases rest with
    | nil =>
      simp only [List.getLast?_singleton, Option.some.injEq] at hl
      subst hl
      exact absurd hx hy
    | cons z zs =>
      rw [List.getLast?_cons_cons] at hl
      by_cases hz : C z
      · obtain ⟨l1, a, b, l2, he, ha, hb⟩ := ih z y rfl hl hz hy
        refine ⟨u :: l1, a, b, l2, ?_, ha, hb⟩
        rw [he]
        rfl
      · exact ⟨[], u, z, zs, rfl, hx, hz⟩

theorem pathCost_split (l1 : List Coords) (a : Coords) (rest : List Coords) :
    pathCost (l1 ++ a :: rest) = pathCost (l1 ++ [a]) + pathCost (a :: rest) := by
  induction l1 with
  | nil => simp [pathCost]
  | cons x xs ih =>
    cases xs with
    | nil =>
      have h1 : pathCost ([x] ++ a :: rest) = stepCost x a + pathCost (a :: rest) := rfl
      have h2 : pathCost ([x] ++ [a]) = stepCost x a + 0 := rfl
      rw [h1, h2]
      omega
    | cons y ys =>
      have h1 : pathCost ((x :: y :: ys) ++ a :: rest) =
          stepCost x y + pathCost ((y :: ys) ++ a :: rest) := rfl
      have h2 : pathCost ((x :: y :: ys) ++ [a]) = stepCost x y + pathCost ((y :: ys) ++ [a]) := rfl
      rw [h1, h2, ih]
      omega

/-- The pieces of a walk that the search can follow, cut at a step from `a` to `b`. -/
theorem searchPath_split {tiles0 : TileLines} {l1 : List Coords} {a b : Coords}
    {l2 : List Coords} (hp : SearchPath tiles0 (l1 ++ a :: b :: l2)) :
    SearchPath tiles0 (l1 ++ [a]) ∧ (l1 ++ [a]).head? = (l1 ++ a :: b :: l2).head? ∧
      (l1 ++ [a]).getLast? = some a ∧ adjacent a b ∧ stepsOk (b :: l2) ∧
      passable tiles0 b ∧ b.2 < (lastCol tiles0 : Int) ∧
      pathCost (l1 ++ a :: b :: l2) = pathCost (l1 ++ [a]) + stepCost a b + pathCost (b :: l2) ∧
      (l1 ++ a :: b :: l2).length - 1 = ((l1 ++ [a]).length - 1) + 1 + l2.length := by
  obtain ⟨hs, ht⟩ := hp
  rw [stepsOk_iff_chain, List.chain'_split] at hs
  obtain ⟨hs1, hs2⟩ := hs
  rw [List.chain'_cons] at hs2
  have htail1 : ∀ c ∈ (l1 ++ [a]).tail, c ∈ (l1 ++ a :: b :: l2).tail := by
    intro c hc
    cases l1 with
    | nil => simp at hc
    | cons x xs =>
      simp only [List.cons_append, List.tail_cons, List.mem_append, List.mem_singleton,
        List.mem_cons, List.not_mem_nil, or_false] at hc ⊢
      rcases hc with hc | hc
      · exact Or.inl hc
      · exact Or.inr (Or.inl hc)
  have hb : b ∈ (l1 ++ a :: b :: l2).tail := by
    cases l1 with
    | nil => simp
    | cons x xs => simp
  refine ⟨⟨(stepsOk_iff_chain _).2 hs1, fun c hc => ht c (htail1 c hc)⟩, ?_, ?_, hs2.1,
    (stepsOk_iff_chain _).2 hs2.2, (ht b hb).1, (ht b hb).2, ?_, ?_⟩
  · cases l1 <;> rfl
  · simp
  · rw [pathCost_split]
    have : pathCost (a :: b :: l2) = stepCost a b + pathCost (b :: l2) := rfl
    omega
  · simp only [List.length_append, List.length_cons, List.length_nil]
    omega

/-- The neighbour relation is the one of the direction table of `astar`. -/
theorem adjacent_dir {a b : Coords} (h : adjacent a b) :
    ∃ dir ∈ dirs, b = (a.1 + dir.2.1, a.2 + dir.2.2) := by
  obtain ⟨hne, h1, h2⟩ := h
  obtain ⟨a1, a2⟩ := a
  obtain ⟨b1, b2⟩ := b
  simp only at h1 h2
  have hne' : ¬ (a1 = b1 ∧ a2 = b2) := fun hc => hne (Prod.ext hc.1 hc.2)
  have c1 : b1 = a1 + -1 ∨ b1 = a1 + 0 ∨ b1 = a1 + 1 := by omega
  have c2 : b2 = a2 + -1 ∨ b2 = a2 + 0 ∨ b2 = a2 + 1 := by omega
  rcases c1 with e1 | e1 | e1 <;> rcases c2 with e2 | e2 | e2 <;> subst e1 <;> subst e2
  · exact ⟨(d14, (-1, -1)), by simp [dirs], rfl⟩
  · exact ⟨(dOne, (-1, 0)), by simp [dirs], rfl⟩
  · exact ⟨(d14, (-1, 1)), by simp [dirs], rfl⟩
  · exact ⟨(dOne, (0, -1)), by simp [dirs], rfl⟩
  · exfalso; apply hne'; constructor <;> omega
  · exact ⟨(dOne, (0, 1)), by simp [dirs], rfl⟩
  · exact ⟨(d14, (1, -1)), by simp [dirs], rfl⟩
  · exact ⟨(dOne, (1, 0)), by simp [dirs], rfl⟩
  · exact ⟨(d14, (1, 1)), by simp [dirs], rfl⟩

/-- A cell of the grid that holds no obstacle, is not closed and lies left of the
last column is accepted by `isValidTile`. -/
theorem isValidTile_of {tiles : TileLines} {co : Coords} {t : Tile}
    (ht : tileAt? tiles co = some t) (hd : t.data ≠ 'o') (hc : t.closed = false)
    (hcol : co.2 < (lastCol tiles : Int)) : isValidTile tiles co = true := by
  rw [isValidTile_iff]
  obtain ⟨h1, h2⟩ := tileAt?_nonneg ht
  refine ⟨h1, ?_, h2, hcol, t, ht, hd, hc⟩
  unfold tileAt? at ht
  rw [if_pos ⟨h1, h2⟩] at ht
  cases hrow : tiles[co.1.toNat]? with
  | none => rw [hrow] at ht; cases ht
  | some row =>
    obtain ⟨hlt, -⟩ := List.getElem?_eq_some_iff.1 hrow
    omega

theorem scale_err (k E U V W C : ℝ) (hW : 0 < W) (hC : 0 < C) (hV : 0 ≤ V) (hU : U = V * W)
    (hE : E ≤ C) (h : |k / U - E| ≤ E / (C * W)) (hVpos : 0 < V) :
    |k - E * U| ≤ V := by
  have hUpos : 0 < U := by rw [hU]; positivity
  have h1 : k - E * U = (k / U - E) * U := by
    field_simp
    ring
  rw [h1, abs_mul, abs_of_pos hUpos]
  have h2 : |k / U - E| * U ≤ E / (C * W) * U := mul_le_mul_of_nonneg_right h hUpos.le
  have h3 : E / (C * W) * U = V * (E / C) := by
    rw [hU]
    field_simp
    ring
  have h4 : E / C ≤ 1 := by
    rw [div_le_one hC]
    exact hE
  have h5 : V * (E / C) ≤ V := by
    have := mul_le_mul_of_nonneg_left h4 hV
    linarith
  linarith

/-- The heuristic value of a cell of the grid, in units of `2 ^ (-1074)`, is within
`2 ^ 1037` units (`2 ^ (-37)`) of the Euclidean distance to the finish. -/
theorem hval_real {tiles0 : TileLines} (hsize : SizeOk tiles0) {co finish : Coords}
    {t tf : Tile} (hco : tileAt? tiles0 co = some t) (hf : tileAt? tiles0 finish = some tf)
    (tiles : TileLines) {k : Nat} (hk : calcHval tiles co finish = .fin k) :
    |(k : ℝ) - Real.sqrt (((co.1 - finish.1 : Int) : ℝ) * ((co.1 - finish.1 : Int) : ℝ) +
        ((co.2 - finish.2 : Int) : ℝ) * ((co.2 - finish.2 : Int) : ℝ)) * 2 ^ 1074| ≤ 2 ^ 1037 := by
  obtain ⟨h1, h2⟩ := grid_apart hsize hco hf
  obtain ⟨k', hk', hacc⟩ := calcHval_accuracy tiles co finish h1 h2
  rw [hk] at hk'
  cases hk'
  have hS : ((co.1 - finish.1 : Int) : ℝ) * ((co.1 - finish.1 : Int) : ℝ) +
        ((co.2 - finish.2 : Int) : ℝ) * ((co.2 - finish.2 : Int) : ℝ) ≤ (2 ^ 16) ^ 2 := by
    rw [← natAbs_sq_real]
    have a1 : (co.1 - finish.1).natAbs * (co.1 - finish.1).natAbs ≤ 32767 * 32767 :=
      Nat.mul_le_mul (by omega) (by omega)
    have a2 : (co.2 - finish.2).natAbs * (co.2 - finish.2).natAbs ≤ 32767 * 32767 :=
      Nat.mul_le_mul (by omega) (by omega)
    have a3 : (co.1 - finish.1).natAbs * (co.1 - finish.1).natAbs +
        (co.2 - finish.2).natAbs * (co.2 - finish.2).natAbs ≤ 4294967296 := by omega
    have a4 := (Nat.cast_le (α := ℝ)).2 a3
    have a5 : ((4294967296 : Nat) : ℝ) = (2 ^ 16) ^ 2 := by norm_num
    rw [a5] at a4
    exact a4
  have hE : Real.sqrt (((co.1 - finish.1 : Int) : ℝ) * ((co.1 - finish.1 : Int) : ℝ) +
        ((co.2 - finish.2 : Int) : ℝ) * ((co.2 - finish.2 : Int) : ℝ)) ≤ 2 ^ 16 := by
    have := Real.sqrt_le_sqrt hS
    rw [Real.sqrt_sq (by positivity)] at this
    exact this
  have hE0 := dist_def_nonneg co finish
  generalize Real.sqrt (((co.1 - finish.1 : Int) : ℝ) * ((co.1 - finish.1 : Int) : ℝ) +
        ((co.2 - finish.2 : Int) : ℝ) * ((co.2 - finish.2 : Int) : ℝ)) = E at hacc hE hE0 ⊢
  have e53 : (2:ℝ) ^ 53 = 2 ^ 16 * 2 ^ 37 := by rw [← pow_add]
  have eU : (2:ℝ) ^ 1074 = 2 ^ 1037 * 2 ^ 37 := by rw [← pow_add]
  rw [e53] at hacc
  exact scale_err k E _ _ _ _ (by positivity) (by positivity) (by positivity) eU hE hacc
    (by positivity)

set_option maxRecDepth 100000 in
theorem d14_key_tenths : ∃ ck, d14 = .fin ck ∧ 10 * ck ≤ 14 * 2 ^ 1074 :=
  ⟨_, rfl, by decide!⟩

theorem weight_ge_one : (1:ℝ) ≤ Real.sqrt 2 / 1.4 := by
  rw [le_div_iff₀ (by norm_num : (0:ℝ) < 1.4)]
  have := sqrt_two_ge
  linarith

/-- The step cost of a direction of the table, in units of `2 ^ (-1074)`, is at most
`√2 / 1.4` times the exact step cost. -/
theorem step_key_le {dir : Dbl × Coords} (hdir : dir ∈ dirs) (a : Coords) {ck : Nat}
    (hck : dir.1 = .fin ck) :
    (ck : ℝ) ≤ (stepCost a (a.1 + dir.2.1, a.2 + dir.2.2) : ℝ) / 10 * (Real.sqrt 2 / 1.4) *
      2 ^ 1074 := by
  have hw := weight_ge_one
  have hU : (0:ℝ) < 2 ^ 1074 := by positivity
  rcases (dirs_step hdir a).2.2.2.2 with ⟨h1, -, h2⟩ | ⟨h1, -, h2⟩
  · rw [h2]
    rw [h1] at hck
    have : ck = 2 ^ 1074 := (Dbl.fin.inj hck).symm
    rw [this, Nat.cast_pow, Nat.cast_ofNat]
    generalize (2:ℝ) ^ 1074 = U at hU ⊢
    generalize Real.sqrt 2 / 1.4 = w at hw ⊢
    have : ((10 : Nat) : ℝ) / 10 = 1 := by norm_num
    rw [this]
    have hp := mul_nonneg (sub_nonneg.2 hw) hU.le
    linarith
  · rw [h2]
    rw [h1] at hck
    obtain ⟨ck', e, hle⟩ := d14_key_tenths
    rw [e] at hck
    have : ck = ck' := (Dbl.fin.inj hck).symm
    subst this
    have hc := (Nat.cast_le (α := ℝ)).2 hle
    rw [Nat.cast_mul, Nat.cast_mul, Nat.cast_pow, Nat.cast_ofNat, Nat.cast_ofNat,
      Nat.cast_ofNat] at hc
    generalize (2:ℝ) ^ 1074 = U at hU hc ⊢
    generalize Real.sqrt 2 / 1.4 = w at hw ⊢
    have : ((14 : Nat) : ℝ) / 10 = 14 / 10 := by norm_num
    rw [this]
    have hp := mul_nonneg (sub_nonneg.2 hw) hU.le
    linarith

/-- A closed tile is the start or has a parent, and its cost is a finite double of
at most `2 ^ 31`. -/
theorem closed_gval {tiles0 : TileLines} {start finish : Coords} {tiles : TileLines}
    {ol : OpenList} (hsize : SizeOk tiles0) (hinv : Inv tiles0 start finish tiles ol)
    (hgb : GBound tiles0 start tiles) {a : Coords} {ta : Tile}
    (hta : tileAt? tiles a = some ta) (hc : ta.closed = true) :
    ∃ ga, ta.gval = .fin ga ∧ ga ≤ 2 ^ 1075 * 2 ^ 30 := by
  apply gbound_closed hsize hgb hta
  by_cases hs : a = start
  · exact Or.inr hs
  · left
    intro hp
    have := (hinv.fresh a ta hta hp hs).2.2
    rw [hc] at this
    cases this

/-- An open tile that has been reached: its cost and heuristic value are finite,
and so is their sum, which is within `2 ^ (-20)` of the exact sum. -/
theorem open_tile_sum {tiles0 : TileLines} {start finish : Coords} {tiles : TileLines}
    {ol : OpenList} (hsize : SizeOk tiles0) {tf : Tile}
    (hf : tileAt? tiles0 finish = some tf) (hinv : Inv tiles0 start finish tiles ol)
    (hgb : GBound tiles0 start tiles) {b : Coords} {tb : Tile}
    (htb : tileAt? tiles b = some tb) (hp : tb.parent ≠ noParent) :
    ∃ gb Hb fb, tb.gval = .fin gb ∧ tb.hval = .fin Hb ∧ calcHval tiles b finish = .fin Hb ∧
      gb ≤ 2 ^ 1075 * 2 ^ 30 ∧ Hb ≤ 2 ^ 16 * 2 ^ 1074 ∧
      dadd (.fin Hb) (.fin gb) = .fin fb ∧ fb ≤ Hb + gb + 2 ^ 1054 ∧ Hb + gb ≤ fb + 2 ^ 1054 := by
  obtain ⟨gb, hgb1, hgb2⟩ := gbound_closed hsize hgb htb (Or.inl hp)
  obtain ⟨-, -, -, -, -, hh, -, -⟩ := hinv.link b tb htb hp
  obtain ⟨b0, hb0⟩ := inv_inGrid hinv htb
  obtain ⟨Hb, hHb, hHb2⟩ := hval_fin hsize hb0 hf tiles
  obtain ⟨c1, c2, c3, c4, c5, c6, c7, c8⟩ := hval_consts
  have hsum : Hb + gb ≤ 2 ^ 33 * 2 ^ 1074 := by
    rw [c4]
    rw [c2, c7] at hgb2
    omega
  obtain ⟨fb, hfb, e1, e2⟩ := dadd_abs_err hsum
  exact ⟨gb, Hb, fb, hgb1, by rw [hh, hHb], hHb, hgb2, hHb2, hfb, e1, e2⟩

/-- The bound behind the popped entry.  In a loop state whose first frontier entry
is for an open tile `co` that has been reached, every walk from the start to a tile
that is not closed leaves the closed tiles in a step from `a` to `b`, and the sum
`g + h` of `co` is at most the heuristic value of `b` plus `√2 / 1.4` times the cost
of the walk up to `b`, up to rounding. -/
theorem frontier_bound {tiles0 : TileLines} {start finish : Coords} {tiles : TileLines}
    {p : Dbl} {co : Coords} {rest : OpenList}
    (hsize : SizeOk tiles0) {tf : Tile} (hf : tileAt? tiles0 finish = some tf)
    (hinv : Inv tiles0 start finish tiles ((p, co) :: rest))
    (hgb : GBound tiles0 start tiles) (hfr : Front tiles ((p, co) :: rest))
    (hexp : Expanded finish tiles) (hcb : CostBound tiles0 start tiles)
    {t0 : Tile} (ht0 : tileAt? tiles co = some t0) (hnc : t0.closed = false)
    (hpar : t0.parent ≠ noParent) (hsc : (tileAt tiles start).closed = true)
    {y : Coords} (hy : ¬ ∃ ty, tileAt? tiles y = some ty ∧ ty.closed = true)
    (q : List Coords) (hhead : q.head? = some start) (hlast : q.getLast? = some y)
    (hq : SearchPath tiles0 q) :
    ∃ (g hco : Nat) (l1 : List Coords) (a b : Coords) (l2 : List Coords) (tb0 : Tile)
      (Hb : Nat),
      t0.gval = .fin g ∧ calcHval tiles co finish = .fin hco ∧ g ≤ 2 ^ 1075 * 2 ^ 30 ∧
      q = l1 ++ a :: b :: l2 ∧ tileAt? tiles0 b = some tb0 ∧
      calcHval tiles b finish = .fin Hb ∧
      (g : ℝ) + (hco : ℝ) ≤ (Hb : ℝ) +
        ((pathCost (l1 ++ [a]) : ℝ) + (stepCost a b : ℝ)) / 10 * (Real.sqrt 2 / 1.4) * 2 ^ 1074 +
        (((l1 ++ [a]).length - 1 : Nat) : ℝ) * 2 ^ 1057 + 3 * 2 ^ 1054 := by
  -- the popped tile
  obtain ⟨g, hco, fco, hg, hh, hhc, hgb0, hhb0, hfco, -, hfco2⟩ :=
    open_tile_sum hsize hf hinv hgb ht0 hpar
  obtain ⟨kp, hkp⟩ := hfr.prio_fin (p, co) (List.mem_cons_self _ _)
  simp only at hkp
  have hst := hfr.stale (p, co) (List.mem_cons_self _ _) t0 ht0 hnc
  simp only at hst
  rw [hkp, hh, hg, hfco, dlt_fin_fin, decide_eq_false_iff_not] at hst
  -- the step that leaves the closed tiles
  obtain ⟨st, hstt, -⟩ := hinv.start_tile
  rw [tileAt_of_some hstt] at hsc
  obtain ⟨l1, a, b, l2, hsplit, ⟨ta, hta, htac⟩, hb⟩ :=
    split_boundary (fun x => ∃ t, tileAt? tiles x = some t ∧ t.closed = true) q start y
      hhead hlast ⟨st, hstt, hsc⟩ hy
  subst hsplit
  obtain ⟨hsp1, hhd1, hlast1, hadj, -, hpass, hcol, -, -⟩ := searchPath_split hq
  rw [hhead] at hhd1
  obtain ⟨ga, hga, hgab⟩ := closed_gval hsize hinv hgb hta htac
  have hJ := hcb a ta ga hta htac hga (l1 ++ [a]) hhd1 hlast1 hsp1
  -- the tile of `b`
  obtain ⟨tb0, htb0⟩ : ∃ tb0, tileAt? tiles0 b = some tb0 := by
    have := passable_inGrid hpass
    unfold inGrid at this
    cases h : tileAt? tiles0 b with
    | none => rw [h] at this; cases this
    | some t => exact ⟨t, rfl⟩
  obtain ⟨tb, htb⟩ := inv_inGrid' hinv htb0
  have htbc : tb.closed = false := by
    cases hc : tb.closed with
    | false => rfl
    | true => exact absurd ⟨tb, htb, hc⟩ hb
  have htbd : tb.data ≠ 'o' := by
    obtain ⟨c, hc, hne⟩ := hpass
    have hs := hinv.symbols b
    rw [hc] at hs
    unfold symbolAt at hs
    rw [htb] at hs
    simp only [Option.map_some', Option.some.injEq] at hs
    rw [hs]
    exact hne
  have hlc : lastCol tiles = lastCol tiles0 := by
    rw [lastCol_eq, lastCol_eq, hgb.dims]
  have hvalid : isValidTile tiles b = true :=
    isValidTile_of htb htbd htbc (by rw [hlc]; exact hcol)
  obtain ⟨dir, hd, hbeq⟩ := adjacent_dir hadj
  rw [hbeq] at hvalid
  obtain ⟨hbp, hbx⟩ := hexp a ta hta htac dir hd hvalid
  rw [← hbeq] at hbp hbx
  rw [tileAt_of_some htb] at hbp hbx
  obtain ⟨gb, Hb, fb, hgb1, hHb1, hHb2, -, hHbb, hfb, -, -⟩ :=
    open_tile_sum hsize hf hinv hgb htb hbp
  -- the frontier entry of `b` is not below the popped one
  have hmem := hfr.front b tb htb hbp htbc
  have hle := head_prio_le hfr.sorted _ hmem
  simp only at hle
  rw [hHb1, hgb1, hfb, hkp, dlt_fin_fin, decide_eq_false_iff_not] at hle
  -- the sum computed when `a` was expanded
  obtain ⟨g', f', ck, hck, -, e1, e2, b1, -, b3, -⟩ := newf_fin hHbb hgab (dirs_cost hd)
  unfold Tile.fval at hbx
  rw [hHb2, hga, e1, e2, hgb1, hHb1, dadd_comm, hfb, dlt_fin_fin, decide_eq_false_iff_not] at hbx
  have hnat : g + hco ≤ Hb + ga + ck + 3 * 2 ^ 1054 := by omega
  have hck' := step_key_le hd a hck
  rw [← hbeq] at hck'
  refine ⟨g, hco, l1, a, b, l2, tb0, Hb, hg, hhc, hgb0, rfl, htb0, hHb2, ?_⟩
  have hreal := (Nat.cast_le (α := ℝ)).2 hnat
  rw [Nat.cast_add, Nat.cast_add, Nat.cast_add, Nat.cast_add, Nat.cast_mul, Nat.cast_pow,
    Nat.cast_ofNat, Nat.cast_ofNat] at hreal
  generalize (2:ℝ) ^ 1074 = U at hJ hck' ⊢
  generalize (2:ℝ) ^ 1057 = E17 at hJ ⊢
  generalize (2:ℝ) ^ 1054 = D at hreal ⊢
  generalize Real.sqrt 2 / 1.4 = w at hJ hck' ⊢
  have hexpand : ((pathCost (l1 ++ [a]) : ℝ) + (stepCost a b : ℝ)) / 10 * w * U =
      (pathCost (l1 ++ [a]) : ℝ) / 10 * w * U + (stepCost a b : ℝ) / 10 * w * U := by ring
  rw [hexpand]
  linarith

theorem getLast?_suffix (l1 : List Coords) (a b : Coords) (l2 : List Coords) :
    (l1 ++ a :: b :: l2).getLast? = (b :: l2).getLast? := by
  induction l1 with
  | nil => exact List.getLast?_cons_cons
  | cons x xs ih =>
    cases xs with
    | nil => 
      rw [← ih]
      exact List.getLast?_cons_cons
    | cons z zs =>
      rw [← ih]
      exact List.getLast?_cons_cons

/-- The triangle inequality for the Euclidean distances of three cells. -/
theorem dist_triangle (b s f : Coords) :
    Real.sqrt (((b.1 - f.1 : Int) : ℝ) * ((b.1 - f.1 : Int) : ℝ) +
        ((b.2 - f.2 : Int) : ℝ) * ((b.2 - f.2 : Int) : ℝ)) ≤
      Real.sqrt (((b.1 - s.1 : Int) : ℝ) * ((b.1 - s.1 : Int) : ℝ) +
        ((b.2 - s.2 : Int) : ℝ) * ((b.2 - s.2 : Int) : ℝ)) +
      Real.sqrt (((s.1 - f.1 : Int) : ℝ) * ((s.1 - f.1 : Int) : ℝ) +
        ((s.2 - f.2 : Int) : ℝ) * ((s.2 - f.2 : Int) : ℝ)) := by
  have h3 := sqrt_triangle ((b.1 - s.1 : Int) : ℝ) ((b.2 - s.2 : Int) : ℝ)
    ((s.1 - f.1 : Int) : ℝ) ((s.2 - f.2 : Int) : ℝ)
  have e1 : ((b.1 - f.1 : Int) : ℝ) = ((b.1 - s.1 : Int) : ℝ) + ((s.1 - f.1 : Int) : ℝ) := by
    push_cast; ring
  have e2 : ((b.2 - f.2 : Int) : ℝ) = ((b.2 - s.2 : Int) : ℝ) + ((s.2 - f.2 : Int) : ℝ) := by
    push_cast; ring
  rw [e1, e2]
  exact h3

theorem slack_consts : (2:ℝ) ^ 1057 = 8 * 2 ^ 1054 ∧ (2:ℝ) ^ 1037 ≤ 2 ^ 1054 ∧
    (0:ℝ) < 2 ^ 1054 := by
  refine ⟨?_, ?_, by positivity⟩
  · have : (8:ℝ) = 2 ^ 3 := by norm_num
    rw [this, ← pow_add]
  · exact pow_le_pow_right₀ (by norm_num) (by norm_num)

/-- The arithmetic of the bound for a tile that is closed. -/
theorem close_arith (g hco Hb A cb w U E17 D η Eb Eco Dbs L1 L : ℝ)
    (h1 : g + hco ≤ Hb + A + L1 * E17 + 3 * D)
    (h2 : |Hb - Eb * U| ≤ η) (h3 : |hco - Eco * U| ≤ η)
    (h4 : Eb ≤ Dbs + Eco) (h5 : Dbs ≤ cb * w) (hU : 0 ≤ U)
    (hE : E17 = 8 * D) (hη : η ≤ D) (hD : 0 < D) (hL : L1 + 1 ≤ L) :
    g ≤ A + cb * w * U + L * E17 := by
  rw [abs_le] at h2 h3
  have h6 := mul_le_mul_of_nonneg_right h4 hU
  have h7 := mul_le_mul_of_nonneg_right h5 hU
  have h8 : (L1 + 1) * E17 ≤ L * E17 := by
    apply mul_le_mul_of_nonneg_right hL
    rw [hE]
    linarith
  nlinarith

/-- Closing the tile of the first frontier entry keeps the bound on the costs of
the closed tiles. -/
theorem costbound_close {tiles0 : TileLines} {start finish : Coords} {tiles : TileLines}
    {p : Dbl} {co : Coords} {rest : OpenList}
    (hsize : SizeOk tiles0) {tf : Tile} (hf : tileAt? tiles0 finish = some tf)
    (hinv : Inv tiles0 start finish tiles ((p, co) :: rest))
    (hgb : GBound tiles0 start tiles) (hfr : Front tiles ((p, co) :: rest))
    (hexp : Expanded finish tiles) (hcb : CostBound tiles0 start tiles) :
    CostBound tiles0 start (closeTile tiles co) := by
  intro s t g ht hc hg q hhead hlast hq
  by_cases hs : s = co
  · subst hs
    obtain ⟨t0, ht0, hor⟩ := hinv.open_ok (p, s) (List.mem_cons_self _ _)
    simp only at ht0 hor
    rw [tileAt?_closeTile, ht0] at ht
    simp only [Option.map_some', if_true, Option.some.injEq] at ht
    have hg0 : t0.gval = .fin g := by
      rw [← ht] at hg
      exact hg
    by_cases hc0 : t0.closed = true
    · exact hcb s t0 g ht0 hc0 hg0 q hhead hlast hq
    · have hnc : t0.closed = false := by
        cases h : t0.closed with
        | false => rfl
        | true => exact absurd h hc0
      by_cases hst : s = start
      · obtain ⟨st, hstt, -, hsg, -, -⟩ := hinv.start_tile
        rw [← hst, ht0] at hstt
        cases hstt
        rw [hsg] at hg0
        have : g = 0 := (Dbl.fin.inj hg0).symm
        rw [this, Nat.cast_zero]
        have := Real.sqrt_nonneg 2
        positivity
      · have hpar : t0.parent ≠ noParent := by
          rcases hor with h | h
          · exact absurd h hst
          · exact h
        have hsc : (tileAt tiles start).closed = true := by
          rcases hinv.start_closed with h | h
          · exact h
          · exfalso
            simp only [List.cons.injEq, Prod.mk.injEq] at h
            exact hst h.1.2
        have hy : ¬ ∃ ty, tileAt? tiles s = some ty ∧ ty.closed = true := by
          rintro ⟨ty, hty, htyc⟩
          rw [ht0] at hty
          cases hty
          exact hc0 htyc
        obtain ⟨g', hco, l1, a, b, l2, tb0, Hb, hg', hhc, -, hsplit, htb0, hHb, hmain⟩ :=
          frontier_bound hsize hf hinv hgb hfr hexp hcb ht0 hnc hpar hsc hy q hhead hlast hq
        rw [hg0] at hg'
        have hgg : g' = g := (Dbl.fin.inj hg').symm
        rw [hgg] at hmain
        subst hsplit
        obtain ⟨-, -, -, -, hsteps, -, -, hcost, hlen⟩ := searchPath_split hq
        rw [getLast?_suffix] at hlast
        have hwalk := dist_le_walk s (b :: l2) b rfl hlast hsteps
        have htri := dist_triangle b s finish
        obtain ⟨s0, hs0⟩ := inv_inGrid hinv ht0
        have hr1 := hval_real hsize htb0 hf tiles hHb
        have hr2 := hval_real hsize hs0 hf tiles hhc
        obtain ⟨k1, k2, k3⟩ := slack_consts
        have hcost' : (pathCost (l1 ++ a :: b :: l2) : ℝ) =
            (pathCost (l1 ++ [a]) : ℝ) + (stepCost a b : ℝ) + (pathCost (b :: l2) : ℝ) := by
          rw [hcost]
          push_cast
          ring
        have hlen' : (((l1 ++ [a]).length - 1 : Nat) : ℝ) + 1 ≤
            (((l1 ++ a :: b :: l2).length - 1 : Nat) : ℝ) := by
          rw [hlen]
          push_cast
          have : (0:ℝ) ≤ (l2.length : ℝ) := Nat.cast_nonneg _
          linarith
        rw [hcost']
        have hfinal := close_arith (g : ℝ) (hco : ℝ) (Hb : ℝ)
          (((pathCost (l1 ++ [a]) : ℝ) + (stepCost a b : ℝ)) / 10 * (Real.sqrt 2 / 1.4) *
            2 ^ 1074)
          ((pathCost (b :: l2) : ℝ) / 10) (Real.sqrt 2 / 1.4) (2 ^ 1074) (2 ^ 1057) (2 ^ 1054)
          (2 ^ 1037) _ _ _ _ _ hmain hr1 hr2 htri hwalk (by positivity) k1 k2 k3 hlen'
        have hsum : ((pathCost (l1 ++ [a]) : ℝ) + (stepCost a b : ℝ) + (pathCost (b :: l2) : ℝ)) /
            10 * (Real.sqrt 2 / 1.4) * 2 ^ 1074 =
            ((pathCost (l1 ++ [a]) : ℝ) + (stepCost a b : ℝ)) / 10 * (Real.sqrt 2 / 1.4) *
              2 ^ 1074 + (pathCost (b :: l2) : ℝ) / 10 * (Real.sqrt 2 / 1.4) * 2 ^ 1074 := by
          ring
        rw [hsum]
        exact hfinal
  · rw [tileAt?_closeTile] at ht
    cases hx : tileAt? tiles s with
    | none => rw [hx] at ht; cases ht
    | some t1 =>
      rw [hx] at ht
      simp only [Option.map_some', if_neg hs, Option.some.injEq] at ht
      subst ht
      exact hcb s t1 g hx hc hg q hhead hlast hq

/-- The loop of `astar` keeps the bound on the costs of the closed tiles. -/
theorem costbound_astar {tiles0 : TileLines} {start : Coords} {tiles : TileLines}
    (oriTile : Tile) (o finish : Coords) {ol : OpenList} {r : Option Coords}
    {tiles' : TileLines} {ol' : OpenList}
    (hcb : CostBound tiles0 start tiles)
    (h : astarLoop oriTile o finish dirs tiles ol = (r, tiles', ol')) :
    CostBound tiles0 start tiles' := by
  obtain ⟨-, f2, -, f4, -, -⟩ := astarLoop_frame _ _ _ _ _ _ _ _ _ h
  intro s t g ht hc hg q hhead hlast hq
  have h2 := f2 s
  rw [ht] at h2
  cases ht1 : tileAt? tiles s with
  | none => rw [ht1] at h2; cases h2
  | some t1 =>
    rw [ht1] at h2
    simp only [Option.map_some', Option.some.injEq, Prod.mk.injEq] at h2
    have hc1 : t1.closed = true := by rw [← h2.1]; exact hc
    have := f4 s t1 ht1 hc1
    rw [ht] at this
    cases this
    exact hcb s t g ht1 hc hg q hhead hlast hq

/-- In every loop state of the driver on a grid within the size bound, the cost of
every closed tile is at most `√2 / 1.4` times the cost of every walk from the start
to the tile that the search can follow, up to rounding. -/
theorem reach_costbound {lines : List String} {tiles0 : TileLines} {start finish : Coords}
    (hload : createTiles lines = .ok tiles0) (hsize : SizeOk tiles0)
    (hstart : findStart tiles0 = .ok start) {tf : Tile}
    (hf : tileAt? tiles0 finish = some tf)
    {s : LoopState} (hreach : Reach tiles0 start finish s) :
    CostBound tiles0 start s.2.1 := by
  induction hreach with
  | init =>
    intro s t g ht hc
    have := init_not_closed start hload s t ht
    rw [hc] at this
    cases this
  | @step s1 s2 hr1 hstep ih =>
    obtain ⟨r, tiles, ol⟩ := s1
    cases r with
    | some c => simp [loopStep] at hstep
    | none =>
      cases ol with
      | nil => simp [loopStep] at hstep
      | cons e rest =>
        obtain ⟨p, co⟩ := e
        simp only [loopStep, Option.some.injEq] at hstep
        obtain ⟨r2, tiles2, ol2⟩ := s2
        have hinv := reach_inv hload hstart hr1
        have hgb := reach_gbound hload hstart hsize hr1
        have hfr := reach_front hload hsize hstart hf hr1 rfl
        have hexp := reach_expanded hload hstart hr1 rfl
        have hc := costbound_close hsize hf hinv hgb hfr hexp ih
        unfold astar at hstep
        exact costbound_astar _ _ _ hc hstep

/-- A loop state with a result comes from an iteration of the loop. -/
theorem reach_last_step {tiles0 : TileLines} {start finish : Coords} {s : LoopState}
    (hreach : Reach tiles0 start finish s) (c : Coords) (hs : s.1 = some c) :
    ∃ tiles1 p co rest, Reach tiles0 start finish (none, tiles1, (p, co) :: rest) ∧
      astar (closeTile tiles1 co) rest co finish = s := by
  cases hreach with
  | init => cases hs
  | @step s1 _ hr1 hstep =>
    obtain ⟨r, tiles1, ol⟩ := s1
    cases r with
    | some c => simp [loopStep] at hstep
    | none =>
      cases ol with
      | nil => simp [loopStep] at hstep
      | cons e rest =>
        obtain ⟨p, co⟩ := e
        simp only [loopStep, Option.some.injEq] at hstep
        exact ⟨tiles1, p, co, rest, hr1, hstep⟩

/-- The squared length of a direction of the table is `1` for the directions of
cost `1.0` and `2` for those of cost `1.4`. -/
theorem dir_dist {dir : Dbl × Coords} (hd : dir ∈ dirs) :
    (dir.1 = dOne ∧ dir.2.1 * dir.2.1 + dir.2.2 * dir.2.2 = 1) ∨
      (dir.1 = d14 ∧ dir.2.1 * dir.2.1 + dir.2.2 * dir.2.2 = 2) := by
  simp only [dirs, List.mem_cons, List.mem_singleton, List.not_mem_nil, or_false] at hd
  rcases hd with rfl | rfl | rfl | rfl | rfl | rfl | rfl | rfl
  · exact Or.inr ⟨rfl, rfl⟩
  · exact Or.inl ⟨rfl, rfl⟩
  · exact Or.inr ⟨rfl, rfl⟩
  · exact Or.inl ⟨rfl, rfl⟩
  · exact Or.inl ⟨rfl, rfl⟩
  · exact Or.inr ⟨rfl, rfl⟩
  · exact Or.inl ⟨rfl, rfl⟩
  · exact Or.inr ⟨rfl, rfl⟩

/-- The step cost of a direction of the table, in units of `2 ^ (-1074)`, is at most
the Euclidean length of the step. -/
theorem step_key_dist {dir : Dbl × Coords} (hd : dir ∈ dirs) (a : Coords) {ck : Nat}
    (hck : dir.1 = .fin ck) :
    (ck : ℝ) ≤ Real.sqrt (((a.1 - (a.1 + dir.2.1) : Int) : ℝ) * ((a.1 - (a.1 + dir.2.1) : Int) : ℝ) +
      ((a.2 - (a.2 + dir.2.2) : Int) : ℝ) * ((a.2 - (a.2 + dir.2.2) : Int) : ℝ)) * 2 ^ 1074 := by
  have e : ((a.1 - (a.1 + dir.2.1) : Int) : ℝ) * ((a.1 - (a.1 + dir.2.1) : Int) : ℝ) +
      ((a.2 - (a.2 + dir.2.2) : Int) : ℝ) * ((a.2 - (a.2 + dir.2.2) : Int) : ℝ) =
      ((dir.2.1 * dir.2.1 + dir.2.2 * dir.2.2 : Int) : ℝ) := by
    push_cast
    ring
  rw [e]
  have hU : (0:ℝ) < 2 ^ 1074 := by positivity
  rcases dir_dist hd with ⟨h1, h2⟩ | ⟨h1, h2⟩
  · rw [h2]
    rw [h1] at hck
    have : ck = 2 ^ 1074 := (Dbl.fin.inj hck).symm
    rw [this, Nat.cast_pow, Nat.cast_ofNat, Int.cast_one, Real.sqrt_one, one_mul]
  · rw [h2]
    rw [h1] at hck
    obtain ⟨ck', e', hle⟩ := d14_key_tenths
    rw [e'] at hck
    have : ck = ck' := (Dbl.fin.inj hck).symm
    subst this
    have hc := (Nat.cast_le (α := ℝ)).2 hle
    rw [Nat.cast_mul, Nat.cast_mul, Nat.cast_pow, Nat.cast_ofNat, Nat.cast_ofNat,
      Nat.cast_ofNat] at hc
    have h2' : ((2 : Int) : ℝ) = 2 := by norm_num
    rw [h2']
    have hs := sqrt_two_ge
    generalize (2:ℝ) ^ 1074 = U at hU hc ⊢
    generalize Real.sqrt 2 = r at hs ⊢
    have hp := mul_nonneg (sub_nonneg.2 hs) hU.le
    linarith

/-- A list whose first and last members differ has at least two members. -/
theorem length_ge_two {q : List Coords} {x y : Coords} (h1 : q.head? = some x)
    (h2 : q.getLast? = some y) (hne : x ≠ y) : 1 ≤ q.length - 1 := by
  match q, h1, h2 with
  | [], h1, _ => cases h1
  | [c], h1, h2 =>
    simp only [List.head?_cons, Option.some.injEq] at h1
    simp only [List.getLast?_singleton, Option.some.injEq] at h2
    exact absurd (h1.symm.trans h2) hne
  | _ :: _ :: _, _, _ => simp

/-- The arithmetic of the bound for the finish when it is found from the start. -/
theorem found_arith0 (k ck Eco cq w U E17 D L : ℝ) (h1 : k ≤ ck + D) (h2 : ck ≤ Eco * U)
    (h3 : Eco ≤ cq * w) (hU : 0 ≤ U) (hE : E17 = 8 * D) (hD : 0 < D) (hL : 1 ≤ L) :
    k ≤ cq * w * U + L * E17 := by
  have h4 := mul_le_mul_of_nonneg_right h3 hU
  have h5 : 1 * E17 ≤ L * E17 := by
    apply mul_le_mul_of_nonneg_right hL
    rw [hE]
    linarith
  linarith

/-- The arithmetic of the bound for the finish when it is found from another tile. -/
theorem found_arith (k g ck hco Hb A cb w U E17 D η Eb Eco L1 L : ℝ)
    (h0 : k ≤ g + ck + D) (h1 : g + hco ≤ Hb + A + L1 * E17 + 3 * D)
    (hck : ck ≤ Eco * U) (h2 : |Hb - Eb * U| ≤ η) (h3 : |hco - Eco * U| ≤ η)
    (h5 : Eb ≤ cb * w) (hU : 0 ≤ U)
    (hE : E17 = 8 * D) (hη : η ≤ D) (hD : 0 < D) (hL : L1 + 1 ≤ L) :
    k ≤ A + cb * w * U + L * E17 := by
  rw [abs_le] at h2 h3
  have h7 := mul_le_mul_of_nonneg_right h5 hU
  have h8 : (L1 + 1) * E17 ≤ L * E17 := by
    apply mul_le_mul_of_nonneg_right hL
    rw [hE]
    linarith
  nlinarith

/-- The finish that `findFinish` returns is a cell of the grid. -/
theorem finish_inGrid {tiles0 : TileLines} {finish : Coords}
    (hfinish : findFinish tiles0 = .ok finish) : ∃ tf, tileAt? tiles0 finish = some tf := by
  have h2 := ((findFinish_ok_iff tiles0 finish).1 hfinish).1
  unfold symbolAt at h2
  cases h : tileAt? tiles0 finish with
  | none => rw [h] at h2; cases h2
  | some t => exact ⟨t, rfl⟩

/-- When the driver ends in Found on a grid within the size bound, the cost `g` of
the finish tile, in units of `2 ^ (-1074)`, is at most `√2 / 1.4` times the cost of
every walk from the start to the finish that the search can follow, up to
`2 ^ (-17)` per step. -/
theorem found_bound {lines : List String} {tiles0 : TileLines} {start finish : Coords}
    (hload : createTiles lines = .ok tiles0) (hsize : SizeOk tiles0)
    (hstart : findStart tiles0 = .ok start) (hfinish : findFinish tiles0 = .ok finish)
    {fuel : Nat} {fin : Coords} {tiles : TileLines} {ol : OpenList}
    (hfound : search fuel tiles0 = .ok (some (some fin, tiles, ol))) :
    ∃ g, (tileAt tiles finish).gval = .fin g ∧
      ∀ q : List Coords, q.head? = some start → q.getLast? = some finish →
        SearchPath tiles0 q →
        (g : ℝ) ≤ (pathCost q : ℝ) / 10 * (Real.sqrt 2 / 1.4) * 2 ^ 1074 +
          ((q.length - 1 : Nat) : ℝ) * 2 ^ 1057 := by
  obtain ⟨tf, hf⟩ := finish_inGrid hfinish
  have hreach := search_reach hstart hfinish hfound
  obtain ⟨tiles1, p, co, rest, hr1, hstep⟩ := reach_last_step hreach fin rfl
  have hinv := reach_inv hload hstart hr1
  have hgb := reach_gbound hload hstart hsize hr1
  have hfr := reach_front hload hsize hstart hf hr1 rfl
  have hexp := reach_expanded hload hstart hr1 rfl
  have hcb := reach_costbound hload hsize hstart hf hr1
  simp only at hinv hgb hfr hexp hcb
  obtain ⟨tfin, htfin, hfinp, hfs⟩ := reach_finish_fresh hload hstart hfinish hr1 rfl
  simp only at htfin
  have hfinc : tfin.closed = false := (hinv.fresh finish tfin htfin hfinp hfs).2.2
  -- the state after the iteration
  obtain ⟨hinv', -, hres⟩ := step_inv hinv hstep
  obtain ⟨-, dir0, -, -, t, ht, hpco, hpn⟩ := hres fin rfl
  obtain ⟨pt, hpt, -, ⟨dir, hd, hfeq, hgdir⟩, -, -, -, -⟩ := hinv'.link finish t ht hpn
  rw [hpco] at hpt hfeq
  -- the origin of the last call
  obtain ⟨hinv1, -, oriTile, og, ho, hoc, hog, -⟩ := close_inv hinv
  have hstep' := hstep
  unfold astar at hstep'
  obtain ⟨-, -, -, f4, -, -⟩ := astarLoop_frame _ _ _ _ _ _ _ _ _ hstep'
  have hpt' := f4 co oriTile ho hoc
  rw [hpt] at hpt'
  cases hpt'
  rw [hog] at hgdir
  obtain ⟨t0, ht0, hor⟩ := hinv.open_ok (p, co) (List.mem_cons_self _ _)
  simp only at ht0 hor
  have hori : t0.gval = .fin og := by
    rw [tileAt?_closeTile, ht0] at ho
    simp only [Option.map_some', if_true, Option.some.injEq] at ho
    rw [← ho] at hog
    exact hog
  -- the finish is a valid neighbour of the origin
  have hvalidC : isValidTile (closeTile tiles1 co) finish = true := by
    have := (astarLoop_result (tileAt (closeTile tiles1 co) co) co finish dirs
      (closeTile tiles1 co) rest fin).1 (by rw [hstep'])
    exact this.2.choose_spec.2.2.1
  obtain ⟨hfco, hvalid⟩ := isValidTile_closeTile hvalidC
  have hnc : t0.closed = false := by
    cases hc : t0.closed with
    | false => rfl
    | true =>
      exfalso
      have hv := hvalid
      rw [hfeq] at hv
      obtain ⟨hp, -⟩ := hexp co t0 ht0 hc dir hd hv
      rw [← hfeq, tileAt_of_some htfin] at hp
      exact hp hfinp
  obtain ⟨ogb, hogb1, hogb2⟩ := gbound_closed hsize hgb ht0 (hor.symm.imp_left id)
  rw [hori] at hogb1
  cases hogb1
  obtain ⟨c1, c2, c3, c4, c5, c6, c7, c8⟩ := hval_consts
  obtain ⟨ck, hck, hckb⟩ : ∃ ck, dir.1 = .fin ck ∧ ck ≤ 2 ^ 1075 := by
    rcases dirs_cost hd with h | h
    · rw [h]; exact dOne_key_le
    · rw [h]; exact d14_key_le
  rw [hck] at hgdir
  have hsum : og + ck ≤ 2 ^ 33 * 2 ^ 1074 := by
    rw [c4]
    rw [c2, c7] at hogb2
    rw [c3] at hckb
    omega
  obtain ⟨k', hk', e1, -⟩ := dadd_abs_err hsum
  rw [hk'] at hgdir
  refine ⟨k', by rw [tileAt_of_some ht, hgdir], ?_⟩
  intro q hhead hlast hq
  have hkreal := (Nat.cast_le (α := ℝ)).2 e1
  rw [Nat.cast_add, Nat.cast_add, Nat.cast_pow, Nat.cast_ofNat] at hkreal
  have hckd := step_key_dist hd co hck
  have hf1 : finish.1 = co.1 + dir.2.1 := congrArg Prod.fst hfeq
  have hf2 : finish.2 = co.2 + dir.2.2 := congrArg Prod.snd hfeq
  rw [← hf1, ← hf2] at hckd
  obtain ⟨k1, k2, k3⟩ := slack_consts
  by_cases hst : co = start
  · -- found in the first iteration
    obtain ⟨st, hstt, -, hsg, -, -⟩ := hinv.start_tile
    rw [← hst, ht0] at hstt
    cases hstt
    rw [hsg] at hori
    have hog0 : og = 0 := (Dbl.fin.inj hori).symm
    rw [hog0, Nat.cast_zero, zero_add] at hkreal
    have hwalk := dist_le_walk finish q co (by rw [hst]; exact hhead) hlast hq.1
    have hlen := length_ge_two hhead hlast (Ne.symm hfs)
    have hlen' : (1:ℝ) ≤ ((q.length - 1 : Nat) : ℝ) := by
      have := (Nat.cast_le (α := ℝ)).2 hlen
      rw [Nat.cast_one] at this
      exact this
    exact found_arith0 _ _ _ _ _ _ _ _ _ hkreal hckd hwalk (by positivity) k1 k3 hlen'
  · have hpar : t0.parent ≠ noParent := by
      rcases hor with h | h
      · exact absurd h hst
      · exact h
    have hsc : (tileAt tiles1 start).closed = true := by
      rcases hinv.start_closed with h | h
      · exact h
      · exfalso
        simp only [List.cons.injEq, Prod.mk.injEq] at h
        exact hst h.1.2
    have hy : ¬ ∃ ty, tileAt? tiles1 finish = some ty ∧ ty.closed = true := by
      rintro ⟨ty, hty, htyc⟩
      rw [htfin] at hty
      cases hty
      rw [hfinc] at htyc
      cases htyc
    obtain ⟨g', hco, l1, a, b, l2, tb0, Hb, hg', hhc, -, hsplit, htb0, hHb, hmain⟩ :=
      frontier_bound hsize hf hinv hgb hfr hexp hcb ht0 hnc hpar hsc hy q hhead hlast hq
    rw [hori] at hg'
    have hgg : g' = og := (Dbl.fin.inj hg').symm
    rw [hgg] at hmain
    subst hsplit
    obtain ⟨-, -, -, -, hsteps, -, -, hcost, hlen⟩ := searchPath_split hq
    rw [getLast?_suffix] at hlast
    have hwalk := dist_le_walk finish (b :: l2) b rfl hlast hsteps
    obtain ⟨s0, hs0⟩ := inv_inGrid hinv ht0
    have hr1' := hval_real hsize htb0 hf tiles1 hHb
    have hr2' := hval_real hsize hs0 hf tiles1 hhc
    have hcost' : (pathCost (l1 ++ a :: b :: l2) : ℝ) =
        (pathCost (l1 ++ [a]) : ℝ) + (stepCost a b : ℝ) + (pathCost (b :: l2) : ℝ) := by
      rw [hcost]
      push_cast
      ring
    have hlen' : (((l1 ++ [a]).length - 1 : Nat) : ℝ) + 1 ≤
        (((l1 ++ a :: b :: l2).length - 1 : Nat) : ℝ) := by
      rw [hlen]
      push_cast
      have : (0:ℝ) ≤ (l2.length : ℝ) := Nat.cast_nonneg _
      linarith
    rw [hcost']
    have hfinal := found_arith (k' : ℝ) (og : ℝ) (ck : ℝ) (hco : ℝ) (Hb : ℝ)
      (((pathCost (l1 ++ [a]) : ℝ) + (stepCost a b : ℝ)) / 10 * (Real.sqrt 2 / 1.4) *
        2 ^ 1074)
      ((pathCost (b :: l2) : ℝ) / 10) (Real.sqrt 2 / 1.4) (2 ^ 1074) (2 ^ 1057) (2 ^ 1054)
      (2 ^ 1037) _ _ _ _ hkreal hmain hckd hr1' hr2' hwalk (by positivity) k1 k2 k3 hlen'
    have hsum' : ((pathCost (l1 ++ [a]) : ℝ) + (stepCost a b : ℝ) + (pathCost (b :: l2) : ℝ)) /
        10 * (Real.sqrt 2 / 1.4) * 2 ^ 1074 =
        ((pathCost (l1 ++ [a]) : ℝ) + (stepCost a b : ℝ)) / 10 * (Real.sqrt 2 / 1.4) *
          2 ^ 1074 + (pathCost (b :: l2) : ℝ) / 10 * (Real.sqrt 2 / 1.4) * 2 ^ 1074 := by
      ring
    rw [hsum']
    exact hfinal

theorem weight_le : Real.sqrt 2 / 1.4 + 1 / 2 ^ 17 ≤ 1.0102 := by
  have h : Real.sqrt 2 ≤ 1.41426 := by
    rw [Real.sqrt_le_left (by norm_num)]
    norm_num
  have e : Real.sqrt 2 / 1.4 ≤ 1.41426 / 1.4 := by
    apply div_le_div_of_nonneg_right h (by norm_num)
  have : (1.41426 : ℝ) / 1.4 + 1 / 2 ^ 17 ≤ 1.0102 := by norm_num
  linarith

/-- From the bound with a slack of `2 ^ (-17)` per step to the factor `1.0102`. -/
theorem bound_nat (g P L : Nat)
    (h : (g : ℝ) ≤ (P : ℝ) / 10 * (Real.sqrt 2 / 1.4) * 2 ^ 1074 + (L : ℝ) * 2 ^ 1057)
    (hL : 10 * L ≤ P) : 100000 * g ≤ 10102 * P * 2 ^ 1074 := by
  have hw := weight_le
  have hL' : (L : ℝ) ≤ (P : ℝ) / 10 := by
    have := (Nat.cast_le (α := ℝ)).2 hL
    rw [Nat.cast_mul, Nat.cast_ofNat] at this
    linarith
  have eU : (2:ℝ) ^ 1074 = 2 ^ 1057 * 2 ^ 17 := by rw [← pow_add]
  have hV : (0:ℝ) < 2 ^ 1057 := by positivity
  have h17 : (2:ℝ) ^ 17 = 131072 := by norm_num
  have hP : (0:ℝ) ≤ (P : ℝ) := Nat.cast_nonneg _
  have hreal : (100000 : ℝ) * (g : ℝ) ≤ 10102 * (P : ℝ) * 2 ^ 1074 := by
    rw [eU] at h ⊢
    rw [h17] at h hw ⊢
    generalize (2:ℝ) ^ 1057 = V at h hV ⊢
    generalize Real.sqrt 2 / 1.4 = w at h hw
    have h1 : (L : ℝ) * V ≤ (P : ℝ) / 10 * V := mul_le_mul_of_nonneg_right hL' hV.le
    have h2 : w * ((P : ℝ) * V) ≤ (1.0102 - 1 / 131072) * ((P : ℝ) * V) := by
      apply mul_le_mul_of_nonneg_right _ (mul_nonneg hP hV.le)
      linarith
    norm_num at h2
    nlinarith
  have hcast : ((100000 * g : Nat) : ℝ) ≤ ((10102 * P * 2 ^ 1074 : Nat) : ℝ) := by
    rw [Nat.cast_mul, Nat.cast_mul, Nat.cast_mul, Nat.cast_pow, Nat.cast_ofNat, Nat.cast_ofNat,
      Nat.cast_ofNat]
    exact hreal
  exact (Nat.cast_le (α := ℝ)).1 hcast

set_option maxRecDepth 100000 in
theorem rel_consts : (2:Nat) ^ 20 * (11 * 2 ^ 1053) = 11 * 2 ^ 1073 ∧
    (2:Nat) ^ 1074 = 2 * 2 ^ 1073 := by decide!

/-- From an error of `1.1 * 2 ^ (-21)` per step to a relative error of `2 ^ (-20)`. -/
theorem rel_err (g P n : Nat) (hge : 10 * n ≤ P)
    (e1 : 10 * g ≤ P * 2 ^ 1074 + 11 * 2 ^ 1053 * n)
    (e2 : P * 2 ^ 1074 ≤ 10 * g + 11 * 2 ^ 1053 * n) :
    2 ^ 20 * (10 * g - P * 2 ^ 1074) ≤ P * 2 ^ 1074 ∧
      2 ^ 20 * (P * 2 ^ 1074 - 10 * g) ≤ P * 2 ^ 1074 := by
  have hc := rel_consts
  have h2' := Nat.mul_le_mul_right (2 ^ 1073) hge
  have e : 11 * 2 ^ 1073 * n ≤ 2 * (10 * n * 2 ^ 1073) := by
    generalize (2:Nat) ^ 1073 = X
    have : 11 * X * n = 11 * (n * X) := by ring
    have : 10 * n * X = 10 * (n * X) := by ring
    omega
  have e3 : P * (2 * 2 ^ 1073) = 2 * (P * 2 ^ 1073) := by ring
  constructor
  · have h : 10 * g - P * 2 ^ 1074 ≤ 11 * 2 ^ 1053 * n := by omega
    have h' := Nat.mul_le_mul_left (2 ^ 20) h
    rw [← Nat.mul_assoc, hc.1] at h'
    rw [hc.2]
    omega
  · have h : P * 2 ^ 1074 - 10 * g ≤ 11 * 2 ^ 1053 * n := by omega
    have h' := Nat.mul_le_mul_left (2 ^ 20) h
    rw [← Nat.mul_assoc, hc.1] at h'
    rw [hc.2]
    omega

/-- When the driver ends in Found on a grid within the size bound: the cost of the
finish tile is the cost, added up in binary64, of a path from the start to the
finish that the search can follow, and it is at most `1.0102` times the exact cost
of every walk from the start to the finish that the search can follow. -/
theorem found_near_minimum {lines : List String} {tiles0 : TileLines} {start finish : Coords}
    (hload : createTiles lines = .ok tiles0) (hsize : SizeOk tiles0)
    (hstart : findStart tiles0 = .ok start) (hfinish : findFinish tiles0 = .ok finish)
    {fuel : Nat} {fin : Coords} {tiles : TileLines} {ol : OpenList}
    (hfound : search fuel tiles0 = .ok (some (some fin, tiles, ol))) :
    ∃ g, (tileAt tiles finish).gval = .fin g ∧
      (∃ p, IsPathFromTo tiles0 start finish p ∧ SearchPath tiles0 p ∧
        (tileAt tiles finish).gval = pathCostD p ∧
        2 ^ 20 * (10 * g - pathCost p * 2 ^ 1074) ≤ pathCost p * 2 ^ 1074 ∧
        2 ^ 20 * (pathCost p * 2 ^ 1074 - 10 * g) ≤ pathCost p * 2 ^ 1074) ∧
      ∀ q : List Coords, q.head? = some start → q.getLast? = some finish →
        SearchPath tiles0 q → 100000 * g ≤ 10102 * pathCost q * 2 ^ 1074 := by
  obtain ⟨g, hg, hb⟩ := found_bound hload hsize hstart hfinish hfound
  obtain ⟨cells, g', -, h2, h3, h4, h5, h6, h7, ⟨e1, e2⟩, hnd, -, hcol⟩ :=
    found_chain hload hsize hstart hfinish hfound
  rw [hg] at h6
  have hgg : g' = g := (Dbl.fin.inj h6).symm
  rw [hgg] at h7 e1 e2
  refine ⟨g, hg, ⟨cells.reverse, ⟨?_, ?_, ?_⟩, ⟨?_, ?_⟩, ?_, ?_⟩, ?_⟩
  · rw [List.head?_reverse]; exact h3
  · rw [List.getLast?_reverse]; exact h2
  · exact isPath_reverse ⟨h5, (stepsOk_iff_chain cells).2 h4⟩
  · exact (@isPath_reverse tiles0 _ ⟨h5, (stepsOk_iff_chain cells).2 h4⟩).2
  · intro c hc
    have hmem : c ∈ cells := List.mem_reverse.1 (List.mem_of_mem_tail hc)
    refine ⟨h5 c hmem, hcol c hmem ?_⟩
    intro hcs
    -- the start is the head of the reversed chain, which has no repetition
    have hrev : cells.reverse.Nodup := List.nodup_reverse.2 hnd
    have hhead : cells.reverse.head? = some start := by
      rw [List.head?_reverse]; exact h3
    cases hr : cells.reverse with
    | nil => rw [hr] at hc; cases hc
    | cons x xs =>
      rw [hr] at hc hrev hhead
      simp only [List.head?_cons, Option.some.injEq] at hhead
      simp only [List.tail_cons] at hc
      rw [List.nodup_cons] at hrev
      rw [hcs, ← hhead] at hc
      exact hrev.1 hc
  · rw [hg, h7]
  · rw [pathCost_reverse]
    exact rel_err g (pathCost cells) (cells.length - 1) (pathCost_ge cells) e1 e2
  · intro q hhead hlast hq
    exact bound_nat g (pathCost q) (q.length - 1) (hb q hhead hlast hq) (pathCost_ge q)

/-- Column `cols - 1` is the last column of a grid of `cols` columns that has a cell. -/
theorem lastCol_rect {tiles : TileLines} {cols : Nat} (hrect : Rect tiles cols)
    (hsize : SizeOk tiles) {co : Coords} {t : Tile} (h : tileAt? tiles co = some t) :
    lastCol tiles = cols - 1 ∧ 1 ≤ cols := by
  obtain ⟨h1, h2, h3, h4⟩ := rect_bounds hrect h
  have hne : tiles ≠ [] := by
    intro hc
    rw [hc] at h2
    simp at h2
    omega
  cases tiles with
  | nil => exact absurd rfl hne
  | cons row rows =>
    have hr : row.length = cols := hrect row (List.mem_cons_self _ _)
    have hs := hsize.2 row (List.mem_cons_self _ _)
    unfold lastCol
    simp only [List.headD_cons]
    rw [hr] at hs ⊢
    constructor
    · omega
    · omega

set_option maxRecDepth 100000 in
theorem walled_found :
    search 8 (mkGrid walledLines) = .ok (some (some (1, 2), walledFinal.2.1, walledFinal.2.2)) :=
  search_of_finalState (by decide!)

end Astar
